import Mathlib

/-!
A verification development for the API-cache subsystem of the ledger
(`ledger/src/store/api_cache.rs`): the derived indexes rebuilt from committed
transactions, the self-healing repair pass `check_lost_data`, and the per-block
index update `update_api_cache`.

The embedding is shallow: the persistent keyed stores (`Mapx`/`Mapxnk`) become
association lists with in-place overwrite, ledger state becomes a record, and
the two fallible passes return the mutated state together with a success flag
(an `Err`/panic leaves the writes already performed in place, as `&mut self`
does in the source).
-/

namespace ApiCacheModel

/-! ## Keyed stores

`Mapx`/`Mapxnk` are persistent keyed maps; the cache code uses only
`get`/`contains_key`/`insert`/`entry().or_insert_with()`. We model them as
association lists where `mapInsert` overwrites in place. -/

def mapGet {α β : Type} [DecidableEq α] (k : α) : List (α × β) → Option β
  | [] => none
  | (k', v') :: rest => if k = k' then some v' else mapGet k rest

def mapInsert {α β : Type} [DecidableEq α] (k : α) (v : β) : List (α × β) → List (α × β)
  | [] => [(k, v)]
  | (k', v') :: rest => if k = k' then (k, v) :: rest else (k', v') :: mapInsert k v rest

/-! ## Data model

Types are taken from `ledger/src/data_model` and the `zei` crate as the cache
code consumes them; fields the cache never reads are kept only where they make
a record nontrivial.  Opaque cryptographic material (public keys, owner memos,
digests) is modelled by `Nat`. -/

/-- An owner memo: an opaque blob accompanying a confidential output. -/
abbrev OwnerMemo := Nat

/-- A 16-byte asset type tag (`AssetType`), modelled opaquely. -/
abbrev AssetType := Nat

/-- Modelled from the spec: the distinguished native-fee asset tag
`ASSET_TYPE_FRA` (its concrete bytes are immaterial to the cache logic). -/
def ASSET_TYPE_FRA : AssetType := 0

/-- `AssetTypeCode { val: AssetType }`. -/
structure AssetTypeCode where
  val : AssetType
deriving DecidableEq, Repr

/-- The domain tag hashed with a raw code to form a prefixed code
(the source's `AssetTypePrefix`; `prefix` is reserved in Lean). -/
inductive AssetTypeDomain where
  | UserDefined
deriving DecidableEq, Repr

def AssetTypeDomain.tag : AssetTypeDomain → Nat
  | UserDefined => 1

/-- Modelled from the spec: `AssetTypeCode::from_prefix_and_raw_asset_type_code`
derives a prefixed code by hashing a domain prefix with the raw code (the
function lives in `data_model`, outside the staged sources).  We model the
domain-separated hash as the injective pairing of the tag with the raw value. -/
def from_prefix_and_raw_asset_type_code (d : AssetTypeDomain) (c : AssetTypeCode) :
    AssetTypeCode :=
  ⟨Nat.pair d.tag c.val⟩

/-- `IssuerPublicKey { key: XfrPublicKey }`. -/
structure IssuerPublicKey where
  key : Nat
deriving DecidableEq, Repr

/-- `XfrAddress { key: XfrPublicKey }`. -/
structure XfrAddress where
  key : Nat
deriving DecidableEq, Repr

/-- zei's `XfrAssetType`: an asset type either revealed or hidden behind a
commitment. -/
inductive XfrAssetType where
  | nonConfidential (a : AssetType)
  | confidential (commitment : Nat)
deriving DecidableEq, Repr

/-- `XfrAssetType::get_asset_type`: `Some` exactly when the type is revealed. -/
def XfrAssetType.get_asset_type : XfrAssetType → Option AssetType
  | .nonConfidential a => some a
  | .confidential _ => none

/-- A blind asset record as the cache code reads it: the owner key and the
(possibly confidential) asset type. -/
structure BlindAssetRecord where
  public_key : Nat
  asset_type : XfrAssetType
deriving DecidableEq, Repr

/-- `TxOutput`, reduced to the record the cache stores. -/
structure TxOutput where
  record : BlindAssetRecord
deriving DecidableEq, Repr

/-- The asset inside a `DefineAsset` body: its code plus the remaining payload
(rules, memo, ...) which the cache copies verbatim. -/
structure Asset where
  code : AssetTypeCode
  payload : Nat
deriving DecidableEq, Repr

structure DefineAssetBody where
  asset : Asset
deriving DecidableEq, Repr

/-- `DefineAsset { pubkey, body }`. -/
structure DefineAsset where
  pubkey : IssuerPublicKey
  body : DefineAssetBody
deriving DecidableEq, Repr

structure IssueAssetBody where
  code : AssetTypeCode
  records : List (TxOutput × Option OwnerMemo)
deriving DecidableEq, Repr

/-- `IssueAsset { pubkey, body }`. -/
structure IssueAsset where
  pubkey : IssuerPublicKey
  body : IssueAssetBody
deriving DecidableEq, Repr

/-- zei's `XfrBody` as the classifier reads it: inputs, outputs, and the
owner memos aligned with the outputs. -/
structure XfrBody where
  inputs : List BlindAssetRecord
  outputs : List BlindAssetRecord
  owners_memos : List (Option OwnerMemo)
deriving DecidableEq, Repr

structure TransferAssetBody where
  transfer : XfrBody
deriving DecidableEq, Repr

/-- `TransferAsset { body }`. -/
structure TransferAsset where
  body : TransferAssetBody
deriving DecidableEq, Repr

/-- The operation kinds of a transaction body.  Staking-family operations carry
only their related public keys (all the cache code ever reads from them);
`ConvertAccount` carries its single related address. -/
inductive Operation where
  | DefineAsset (d : DefineAsset)
  | IssueAsset (i : IssueAsset)
  | TransferAsset (t : TransferAsset)
  | UpdateMemo (pubkey : Nat)
  | ConvertAccount (related_address : Nat)
  | UpdateStaker (related_pubkeys : List Nat)
  | ReplaceStaker (related_pubkeys : List Nat)
  | Delegation (related_pubkeys : List Nat)
  | UnDelegation (related_pubkeys : List Nat)
  | Claim (related_pubkeys : List Nat)
  | UpdateValidator (related_pubkeys : List Nat)
  | Governance (related_pubkeys : List Nat)
  | FraDistribution (related_pubkeys : List Nat)
  | MintFra (related_pubkeys : List Nat)
deriving DecidableEq, Repr

/-- A transaction: its ordered operations, plus its domain-separated digest.
Modelled from the spec: `hash_tm()` is "a domain-separated hash of the
canonicalized transaction body" (computed in `data_model`, outside the staged
sources), which we carry as an opaque field. -/
structure Transaction where
  operations : List Operation
  hash_tm : Nat
deriving DecidableEq, Repr

/-- `.hex().to_uppercase()` applied to the digest: uppercase hexadecimal,
"the externally observable form" of the transaction hash. -/
def hashHex (t : Transaction) : String :=
  String.mk ((Nat.toDigits 16 t.hash_tm).map Char.toUpper)

/-- Modelled from the spec: `Transaction::get_owner_memos_ref` collects, in
emission order, the owner memo slot of every output the transaction produces
(issuance records and transfer outputs). -/
def get_owner_memos_ref (t : Transaction) : List (Option OwnerMemo) :=
  t.operations.foldl
    (fun acc op =>
      match op with
      | .IssueAsset ia => acc ++ ia.body.records.map (fun r => r.2)
      | .TransferAsset xfr => acc ++ xfr.body.transfer.owners_memos
      | _ => acc)
    []

/-- `FinalizedTransaction` as `get_transaction_light` returns it: the
transaction, its `TxnSID` and the `TxoSID`s it produced. -/
structure FinalizedTxn where
  tx_id : Nat
  txo_ids : List Nat
  txn : Transaction
deriving DecidableEq, Repr

/-- A committed block: its finalized transactions in apply order. -/
structure Block where
  txns : List FinalizedTxn
deriving DecidableEq, Repr

/-- A stored output record as the cache reads it: the owner key, and the
`TxnSID` of the producing transaction (`authenticated_txn.finalized_txn.tx_id`
of the authenticated utxo). -/
structure UtxoRec where
  public_key : Nat
  tx_id : Nat
deriving DecidableEq, Repr

/-- The per-issuer issuance history: `(output, owner_memo?)` in commit order. -/
abbrev Issuances := List (TxOutput × Option OwnerMemo)

/-- The API cache (`ApiCache`), one association list per persistent map.  The
source's `prefix` field only names the on-disk files and is omitted;
`coinbase_oper_hist` is never touched by the modelled operations and is
likewise omitted. -/
structure ApiCache where
  created_assets : List (IssuerPublicKey × List (AssetTypeCode × DefineAsset))
  issuances : List (IssuerPublicKey × Issuances)
  token_code_issuances : List (AssetTypeCode × Issuances)
  owner_memos : List (Nat × OwnerMemo)
  utxos_to_map_index : List (Nat × XfrAddress)
  txo_to_txnid : List (Nat × (Nat × String))
  txn_sid_to_hash : List (Nat × String)
  txn_hash_to_sid : List (String × Nat)
  last_sid : List (String × Nat)
deriving DecidableEq, Repr

/-- The configuration knob `CFG.checkpoint.utxo_asset_prefix_height` (the
source reads it from a process global; we pass it as a value). -/
structure Config where
  utxo_asset_prefix_height : Nat
deriving DecidableEq, Repr

/-- The ledger state as the cache code reads it.  Modelled from the spec for
the parts outside the staged sources: `utxo_live`/`utxo_spent` are the UTXO
store of section 4.3, `txns` the committed transaction log indexed by `TxnSID`,
`next_txn_sid`/`next_txo_sid` the committed frontiers returned by
`get_next_txn`/`get_next_txo`, `blocks` the block list, and
`td_commit_height` the current commit height. -/
structure LedgerState where
  txns : List FinalizedTxn
  utxo_live : List (Nat × UtxoRec)
  utxo_spent : List (Nat × UtxoRec)
  next_txn_sid : Nat
  next_txo_sid : Nat
  blocks : List Block
  td_commit_height : Nat
  api_cache : Option ApiCache
deriving DecidableEq, Repr

/-- Modelled from the spec: `get_transaction_light` fetches the committed
transaction with the given `TxnSID` (an `Err` when there is none). -/
def getTransactionLight (l : LedgerState) (sid : Nat) : Option FinalizedTxn :=
  l.txns.find? (fun f => f.tx_id == sid)

/-- Modelled from the spec: `get_utxo` returns the authenticated record of a
*live* (unspent) output only. -/
def getUtxo (l : LedgerState) (sid : Nat) : Option UtxoRec :=
  mapGet sid l.utxo_live

/-- `get_utxo_light(sid).or_else(|| get_spent_utxo_light(sid))`, projected to
the owner public key of the record (the only field the cache reads). -/
def addrOf (l : LedgerState) (sid : Nat) : Option XfrAddress :=
  ((mapGet sid l.utxo_live).orElse (fun _ => mapGet sid l.utxo_spent)).map
    (fun u => ⟨u.public_key⟩)

/-- `.iter().map(|sid| ...unwrap()...).collect()`: the whole list when every
element resolves, a panic (modelled `none`) otherwise. -/
def collectOpt {α β : Type} (f : α → Option β) : List α → Option (List β)
  | [] => some []
  | x :: rest =>
      match f x, collectOpt f rest with
      | some y, some ys => some (y :: ys)
      | _, _ => none

/-! ## Cache maintenance operations (`api_cache.rs`) -/

/-- `ApiCache::add_created_asset`: store a defined asset, keyed by the raw code
for the native fee asset or below the configured cutover height, and by the
prefixed code otherwise; the stored definition is rewritten to carry the
storage-form code. -/
def add_created_asset (cfg : Config) (c : ApiCache) (creation : DefineAsset)
    (cur_height : Nat) : ApiCache :=
  let asset_code := creation.body.asset.code
  let code :=
    if asset_code.val = ASSET_TYPE_FRA ∨ cfg.utxo_asset_prefix_height > cur_height then
      creation.body.asset.code
    else
      from_prefix_and_raw_asset_type_code AssetTypeDomain.UserDefined
        creation.body.asset.code
  let issuer := creation.pubkey
  let tmp : DefineAsset :=
    { creation with body := { creation.body with asset := { creation.body.asset with code := code } } }
  let inner := (mapGet issuer c.created_assets).getD []
  { c with created_assets := mapInsert issuer (mapInsert code tmp inner) c.created_assets }

/-- `ApiCache::cache_issuance`: append the issuance's records to the per-issuer
and the per-code histories. -/
def cache_issuance (c : ApiCache) (issuance : IssueAsset) : ApiCache :=
  let new_records := issuance.body.records
  let by_key := (mapGet issuance.pubkey c.issuances).getD [] ++ new_records
  let c1 := { c with issuances := mapInsert issuance.pubkey by_key c.issuances }
  let by_code :=
    (mapGet issuance.body.code c1.token_code_issuances).getD [] ++ new_records
  { c1 with token_code_issuances := mapInsert issuance.body.code by_code c1.token_code_issuances }

/-- Set insertion used to model `HashSet::insert`. -/
def insertSet {α : Type} [DecidableEq α] (a : α) (s : List α) : List α :=
  if a ∈ s then s else a :: s

/-- The inner loop of `get_transferred_nonconfidential_assets`: add the asset
code of every input whose asset type is revealed. -/
def collectInputAssets : List BlindAssetRecord → List AssetTypeCode → List AssetTypeCode
  | [], acc => acc
  | input :: rest, acc =>
      collectInputAssets rest
        (match input.asset_type.get_asset_type with
         | some asset_type => insertSet ⟨asset_type⟩ acc
         | none => acc)

/-- The outer loop of `get_transferred_nonconfidential_assets`: only transfer
operations contribute, and only through their inputs. -/
def collectTransferredAssets : List Operation → List AssetTypeCode → List AssetTypeCode
  | [], acc => acc
  | op :: rest, acc =>
      collectTransferredAssets rest
        (match op with
         | .TransferAsset transfer => collectInputAssets transfer.body.transfer.inputs acc
         | _ => acc)

/-- `get_transferred_nonconfidential_assets`: the set of asset type codes of
transfer inputs whose asset type is revealed. -/
def get_transferred_nonconfidential_assets (txn : Transaction) : List AssetTypeCode :=
  collectTransferredAssets txn.operations []

/-! ## The repair pass `check_lost_data`

Both sweeps mutate the cache while walking a range of serial ids; an `Err`
(via `?`) or a panic (via `unwrap`) stops the sweep with the writes so far in
place, which we model by returning the cache together with a success flag. -/

/-- Generic driver of one sweep: run `step` over the indices, stopping at the
first failing step. -/
def sweepLoop (step : ApiCache → Nat → ApiCache × Bool) :
    ApiCache → List Nat → ApiCache × Bool
  | c, [] => (c, true)
  | c, i :: rest =>
      let r := step c i
      if r.2 then sweepLoop step r.1 rest else (r.1, false)

/-- One index of the lost-txn sweep (`api_cache.rs` lines 231-264): if the
hash entry is missing, fetch the committed transaction (an `Err` aborts),
install both hash directions; then mark the watermark. -/
def txnSweepStep (l : LedgerState) (c : ApiCache) (index : Nat) : ApiCache × Bool :=
  if (mapGet index c.txn_sid_to_hash).isSome then
    ({ c with last_sid := mapInsert "last_txn_sid" index c.last_sid }, true)
  else
    match getTransactionLight l index with
    | none => (c, false)
    | some ftx =>
        let hash := hashHex ftx.txn
        let c1 := { c with txn_sid_to_hash := mapInsert index hash c.txn_sid_to_hash }
        let c2 := { c1 with txn_hash_to_sid := mapInsert hash index c1.txn_hash_to_sid }
        ({ c2 with last_sid := mapInsert "last_txn_sid" index c2.last_sid }, true)

/-- The inner rebuild of one lost output (`api_cache.rs` lines 314-343): walk
the producing transaction's outputs zipped with their addresses and memos, and
restore the entries of the slot matching the swept index. -/
def rebuildSlot (index : Nat) (tx_id : Nat) (tx_hash : String)
    (p : Nat × (XfrAddress × Option OwnerMemo)) (c : ApiCache) : ApiCache :=
  if p.1 = index then
    let ca := { c with utxos_to_map_index := mapInsert p.1 p.2.1 c.utxos_to_map_index }
    let cb :=
      match p.2.2 with
      | some memo => { ca with owner_memos := mapInsert p.1 memo ca.owner_memos }
      | none => ca
    { cb with txo_to_txnid := mapInsert p.1 (tx_id, tx_hash) cb.txo_to_txnid }
  else c

def rebuildTxoEntries (index : Nat) (tx_id : Nat) (tx_hash : String) :
    List (Nat × (XfrAddress × Option OwnerMemo)) → ApiCache → ApiCache
  | [], c => c
  | p :: rest, c =>
      rebuildTxoEntries index tx_id tx_hash rest (rebuildSlot index tx_id tx_hash p c)

/-- One index of the lost-memo sweep (`api_cache.rs` lines 282-356): if the
memo entry is missing, look the output up among *live* utxos; when absent,
`continue` without marking the watermark; when present, fetch the producing
transaction and the addresses of all its outputs (an `unwrap` failure aborts),
rebuild the matching slot, and mark the watermark. -/
def txoSweepStep (l : LedgerState) (c : ApiCache) (index : Nat) : ApiCache × Bool :=
  if (mapGet index c.owner_memos).isSome then
    ({ c with last_sid := mapInsert "last_txo_sid" index c.last_sid }, true)
  else
    match getUtxo l index with
    | none => (c, true)
    | some utxo =>
        match getTransactionLight l utxo.tx_id with
        | none => (c, false)
        | some ftx =>
            let tx_hash := hashHex ftx.txn
            let owner_memos := get_owner_memos_ref ftx.txn
            match collectOpt (addrOf l) ftx.txo_ids with
            | none => (c, false)
            | some addresses =>
                let c1 := rebuildTxoEntries index ftx.tx_id tx_hash
                  (ftx.txo_ids.zip (addresses.zip owner_memos)) c
                ({ c1 with last_sid := mapInsert "last_txo_sid" index c1.last_sid }, true)

def txnSweep (l : LedgerState) : ApiCache → List Nat → ApiCache × Bool :=
  sweepLoop (txnSweepStep l)

def txoSweep (l : LedgerState) : ApiCache → List Nat → ApiCache × Bool :=
  sweepLoop (txoSweepStep l)

/-- The `"last_txn_sid"` watermark of a cache. -/
def lastTxnOf (c : ApiCache) : Option Nat := mapGet "last_txn_sid" c.last_sid

/-- The `"last_txo_sid"` watermark of a cache. -/
def lastTxoOf (c : ApiCache) : Option Nat := mapGet "last_txo_sid" c.last_sid

/-- The indices swept by the lost-txn pass: from the `"last_txn_sid"`
watermark (default 0) up to the committed frontier `get_next_txn`. -/
def txnRange (l : LedgerState) (c : ApiCache) : List Nat :=
  List.range' ((lastTxnOf c).getD 0) (l.next_txn_sid - (lastTxnOf c).getD 0)

/-- The indices swept by the lost-memo pass: from the `"last_txo_sid"`
watermark (default 0) up to the output frontier `get_next_txo`. -/
def txoRange (l : LedgerState) (c : ApiCache) : List Nat :=
  List.range' ((lastTxoOf c).getD 0) (l.next_txo_sid - (lastTxoOf c).getD 0)

/-- `check_lost_data`: sweep the missing transaction hashes from the
`last_txn_sid` watermark to the committed frontier, then the missing output
entries from the `last_txo_sid` watermark to the output frontier.  Returns
`Ok` early when no API cache is configured. -/
def check_lost_data (l : LedgerState) : LedgerState × Bool :=
  match l.api_cache with
  | none => (l, true)
  | some c =>
      let r1 := txnSweep l c (txnRange l c)
      if r1.2 then
        let r2 := txoSweep l r1.1 (txoRange l r1.1)
        ({ l with api_cache := some r2.1 }, r2.2)
      else
        ({ l with api_cache := some r1.1 }, false)

/-! ## The per-block update `update_api_cache` -/

/-- The defined-asset / issuance recording loop over the transaction's
operations (`api_cache.rs` lines 401-418). -/
def applyOps (cfg : Config) (cur_height : Nat) : ApiCache → List Operation → ApiCache
  | c, [] => c
  | c, op :: rest =>
      applyOps cfg cur_height
        (match op with
         | .DefineAsset define_asset => add_created_asset cfg c define_asset cur_height
         | .IssueAsset issue_asset => cache_issuance c issue_asset
         | _ => c)
        rest

/-- The per-output write loop of the block update (`api_cache.rs` lines
421-458). -/
def writeBlockTxos (tx_id : Nat) (hash : String) :
    ApiCache → List (Nat × (XfrAddress × Option OwnerMemo)) → ApiCache
  | c, [] => c
  | c, p :: rest =>
      let ca := { c with utxos_to_map_index := mapInsert p.1 p.2.1 c.utxos_to_map_index }
      let cb := { ca with txo_to_txnid := mapInsert p.1 (tx_id, hash) ca.txo_to_txnid }
      let cc := { cb with txn_sid_to_hash := mapInsert tx_id hash cb.txn_sid_to_hash }
      let cd := { cc with txn_hash_to_sid := mapInsert hash tx_id cc.txn_hash_to_sid }
      writeBlockTxos tx_id hash
        (match p.2.2 with
         | some owner_memo => { cd with owner_memos := mapInsert p.1 owner_memo cd.owner_memos }
         | none => cd)
        rest

/-- Index one finalized transaction of the latest block (`api_cache.rs` lines
376-458): fetch the committed transaction (an `Err` aborts), compute each new
output's owner address (an `unwrap` failure aborts), record defined assets and
issuances, then write the per-output and per-transaction index entries. -/
def processBlockTxn (cfg : Config) (l : LedgerState) (c : ApiCache)
    (v : FinalizedTxn) : ApiCache × Bool :=
  match getTransactionLight l v.tx_id with
  | none => (c, false)
  | some ftl =>
      let curr_txn := ftl.txn
      match collectOpt (addrOf l) v.txo_ids with
      | none => (c, false)
      | some addresses =>
          let owner_memos := get_owner_memos_ref curr_txn
          let c1 := applyOps cfg l.td_commit_height c curr_txn.operations
          let c2 := writeBlockTxos v.tx_id (hashHex curr_txn) c1
            (v.txo_ids.zip (addresses.zip owner_memos))
          (c2, true)

/-- Index every transaction of the block, stopping at the first failure. -/
def blockSweep (cfg : Config) (l : LedgerState) :
    ApiCache → List FinalizedTxn → ApiCache × Bool
  | c, [] => (c, true)
  | c, v :: rest =>
      let r := processBlockTxn cfg l c v
      if r.2 then blockSweep cfg l r.1 rest else (r.1, false)

/-- The phase of `update_api_cache` after the repair pass: index the latest
committed block, if any.  The source unwraps the cache here; with no cache
configured that unwrap panics, modelled as a failure. -/
def updateBlockPhase (cfg : Config) (l : LedgerState) : LedgerState × Bool :=
  match l.blocks.getLast? with
  | none => (l, true)
  | some block =>
      match l.api_cache with
      | none => (l, false)
      | some c =>
          let r := blockSweep cfg l c block.txns
          ({ l with api_cache := some r.1 }, r.2)

/-- `update_api_cache`: a no-op returning `Ok` unless `KEEP_HIST` is set;
otherwise run the repair pass and then index the latest block. -/
def update_api_cache (cfg : Config) (keep_hist : Bool) (l : LedgerState) :
    LedgerState × Bool :=
  if !keep_hist then (l, true)
  else
    let r := check_lost_data l
    if r.2 then updateBlockPhase cfg r.1 else (r.1, false)

/-! ## Lemmas about the keyed stores -/

theorem mapGet_insert_self {α β : Type} [DecidableEq α] (k : α) (v : β)
    (m : List (α × β)) : mapGet k (mapInsert k v m) = some v := by
  induction m with
  | nil => simp [mapGet, mapInsert]
  | cons p rest ih =>
      obtain ⟨k', v'⟩ := p
      by_cases h : k = k' <;> simp [mapGet, mapInsert, h, ih]

theorem mapGet_insert_ne {α β : Type} [DecidableEq α] {k k' : α} (v : β)
    (m : List (α × β)) (h : k ≠ k') : mapGet k (mapInsert k' v m) = mapGet k m := by
  induction m with
  | nil => simp [mapGet, mapInsert, h]
  | cons p rest ih =>
      obtain ⟨a, b⟩ := p
      by_cases hk : k' = a
      · subst hk
        simp [mapGet, mapInsert, h]
      · by_cases hka : k = a <;> simp [mapGet, mapInsert, hk, hka, ih]

theorem mapInsert_get_eq {α β : Type} [DecidableEq α] {k : α} {v : β}
    {m : List (α × β)} (h : mapGet k m = some v) : mapInsert k v m = m := by
  induction m with
  | nil => simp [mapGet] at h
  | cons p rest ih =>
      obtain ⟨a, b⟩ := p
      by_cases hk : k = a
      · subst hk
        simp [mapGet] at h
        simp [mapInsert, h]
      · simp [mapGet, hk] at h
        simp [mapInsert, hk, ih h]

theorem isSome_mapGet_insert {α β : Type} [DecidableEq α] (k k' : α) (v : β)
    (m : List (α × β)) (h : (mapGet k m).isSome = true) :
    (mapGet k (mapInsert k' v m)).isSome = true := by
  by_cases hk : k = k'
  · subst hk
    simp [mapGet_insert_self]
  · rw [mapGet_insert_ne v m hk]
    exact h

/-! ## Generic sweep lemmas -/

@[simp] theorem sweepLoop_nil (step : ApiCache → Nat → ApiCache × Bool) (c : ApiCache) :
    sweepLoop step c [] = (c, true) := rfl

theorem sweepLoop_cons (step : ApiCache → Nat → ApiCache × Bool) (c : ApiCache)
    (i : Nat) (rest : List Nat) :
    sweepLoop step c (i :: rest) =
      (if (step c i).2 then sweepLoop step (step c i).1 rest else ((step c i).1, false)) := rfl

/-- If every step from `c` succeeds without changing the cache, the sweep is
the identity. -/
theorem sweepFixAll (step : ApiCache → Nat → ApiCache × Bool) (c : ApiCache)
    (is : List Nat) (h : ∀ i ∈ is, step c i = (c, true)) :
    sweepLoop step c is = (c, true) := by
  induction is with
  | nil => rfl
  | cons i rest ih =>
      rw [sweepLoop_cons, h i (by simp)]
      exact ih (fun j hj => h j (by simp [hj]))

/-- If the steps from `c` succeed without change up to one failing step that
also leaves the cache unchanged, the sweep fails without change. -/
theorem sweepFixAbort (step : ApiCache → Nat → ApiCache × Bool) (c : ApiCache)
    (is₁ is₂ : List Nat) (j : Nat) (h1 : ∀ i ∈ is₁, step c i = (c, true))
    (h2 : step c j = (c, false)) :
    sweepLoop step c (is₁ ++ j :: is₂) = (c, false) := by
  induction is₁ with
  | nil => simp [sweepLoop_cons, h2]
  | cons i rest ih =>
      rw [List.cons_append, sweepLoop_cons, h1 i (by simp)]
      exact ih (fun k hk => h1 k (by simp [hk]))

/-! ## Frame lemmas: which fields each pass can touch -/

/-- The lost-txn step touches only the two hash maps and the
`"last_txn_sid"` watermark. -/
theorem txnSweepStep_frame (l : LedgerState) (c : ApiCache) (i : Nat) :
    (txnSweepStep l c i).1.owner_memos = c.owner_memos ∧
    (txnSweepStep l c i).1.utxos_to_map_index = c.utxos_to_map_index ∧
    (txnSweepStep l c i).1.txo_to_txnid = c.txo_to_txnid ∧
    (txnSweepStep l c i).1.created_assets = c.created_assets ∧
    (txnSweepStep l c i).1.issuances = c.issuances ∧
    (txnSweepStep l c i).1.token_code_issuances = c.token_code_issuances ∧
    mapGet "last_txo_sid" (txnSweepStep l c i).1.last_sid =
      mapGet "last_txo_sid" c.last_sid := by
  unfold txnSweepStep
  split
  · refine ⟨rfl, rfl, rfl, rfl, rfl, rfl, ?_⟩
    exact mapGet_insert_ne _ _ (by decide)
  · split
    · exact ⟨rfl, rfl, rfl, rfl, rfl, rfl, rfl⟩
    · refine ⟨rfl, rfl, rfl, rfl, rfl, rfl, ?_⟩
      exact mapGet_insert_ne _ _ (by decide)

theorem txnSweep_cons (l : LedgerState) (c : ApiCache) (i : Nat) (rest : List Nat) :
    txnSweep l c (i :: rest) =
      (if (txnSweepStep l c i).2 then txnSweep l (txnSweepStep l c i).1 rest
       else ((txnSweepStep l c i).1, false)) := rfl

theorem txoSweep_cons (l : LedgerState) (c : ApiCache) (i : Nat) (rest : List Nat) :
    txoSweep l c (i :: rest) =
      (if (txoSweepStep l c i).2 then txoSweep l (txoSweepStep l c i).1 rest
       else ((txoSweepStep l c i).1, false)) := rfl

theorem txnSweep_frame (l : LedgerState) (c : ApiCache) (is : List Nat) :
    (txnSweep l c is).1.owner_memos = c.owner_memos ∧
    (txnSweep l c is).1.utxos_to_map_index = c.utxos_to_map_index ∧
    (txnSweep l c is).1.txo_to_txnid = c.txo_to_txnid ∧
    (txnSweep l c is).1.created_assets = c.created_assets ∧
    (txnSweep l c is).1.issuances = c.issuances ∧
    (txnSweep l c is).1.token_code_issuances = c.token_code_issuances ∧
    mapGet "last_txo_sid" (txnSweep l c is).1.last_sid =
      mapGet "last_txo_sid" c.last_sid := by
  induction is generalizing c with
  | nil => exact ⟨rfl, rfl, rfl, rfl, rfl, rfl, rfl⟩
  | cons i rest ih =>
      have hs := txnSweepStep_frame l c i
      rw [txnSweep_cons]
      split
      · obtain ⟨h1, h2, h3, h4, h5, h6, h7⟩ := ih (txnSweepStep l c i).1
        exact ⟨h1.trans hs.1, h2.trans hs.2.1, h3.trans hs.2.2.1, h4.trans hs.2.2.2.1,
          h5.trans hs.2.2.2.2.1, h6.trans hs.2.2.2.2.2.1, h7.trans hs.2.2.2.2.2.2⟩
      · exact hs

/-- The rebuild of one slot touches only `owner_memos`, `utxos_to_map_index`
and `txo_to_txnid`. -/
theorem rebuildSlot_frame (index tid : Nat) (h : String)
    (p : Nat × (XfrAddress × Option OwnerMemo)) (c : ApiCache) :
    (rebuildSlot index tid h p c).txn_sid_to_hash = c.txn_sid_to_hash ∧
    (rebuildSlot index tid h p c).txn_hash_to_sid = c.txn_hash_to_sid ∧
    (rebuildSlot index tid h p c).created_assets = c.created_assets ∧
    (rebuildSlot index tid h p c).issuances = c.issuances ∧
    (rebuildSlot index tid h p c).token_code_issuances = c.token_code_issuances ∧
    (rebuildSlot index tid h p c).last_sid = c.last_sid := by
  unfold rebuildSlot
  split
  · cases hm : p.2.2 <;> simp [hm]
  · exact ⟨rfl, rfl, rfl, rfl, rfl, rfl⟩

/-- The rebuild of one slot writes the three per-output maps only at the swept
index. -/
theorem rebuildSlot_get_ne (index tid : Nat) (h : String)
    (p : Nat × (XfrAddress × Option OwnerMemo)) (c : ApiCache) (k : Nat)
    (hk : k ≠ index) :
    mapGet k (rebuildSlot index tid h p c).owner_memos = mapGet k c.owner_memos ∧
    mapGet k (rebuildSlot index tid h p c).utxos_to_map_index =
      mapGet k c.utxos_to_map_index ∧
    mapGet k (rebuildSlot index tid h p c).txo_to_txnid = mapGet k c.txo_to_txnid := by
  unfold rebuildSlot
  split
  · rename_i hp
    cases hm : p.2.2 <;> simp only [hm] <;>
      refine ⟨?_, ?_, ?_⟩ <;>
      first
        | trivial
        | exact mapGet_insert_ne _ _ (hp ▸ hk)
  · exact ⟨rfl, rfl, rfl⟩

/-- Entries of `owner_memos` survive a slot rebuild (it only ever inserts). -/
theorem rebuildSlot_memo_isSome (index tid : Nat) (h : String)
    (p : Nat × (XfrAddress × Option OwnerMemo)) (c : ApiCache) (k : Nat)
    (hk : (mapGet k c.owner_memos).isSome = true) :
    (mapGet k (rebuildSlot index tid h p c).owner_memos).isSome = true := by
  unfold rebuildSlot
  split
  · cases hm : p.2.2 <;> simp only [hm]
    · exact hk
    · exact isSome_mapGet_insert _ _ _ _ hk
  · exact hk

theorem rebuildTxoEntries_frame (index tid : Nat) (h : String)
    (ts : List (Nat × (XfrAddress × Option OwnerMemo))) (c : ApiCache) :
    (rebuildTxoEntries index tid h ts c).txn_sid_to_hash = c.txn_sid_to_hash ∧
    (rebuildTxoEntries index tid h ts c).txn_hash_to_sid = c.txn_hash_to_sid ∧
    (rebuildTxoEntries index tid h ts c).created_assets = c.created_assets ∧
    (rebuildTxoEntries index tid h ts c).issuances = c.issuances ∧
    (rebuildTxoEntries index tid h ts c).token_code_issuances = c.token_code_issuances ∧
    (rebuildTxoEntries index tid h ts c).last_sid = c.last_sid := by
  induction ts generalizing c with
  | nil => exact ⟨rfl, rfl, rfl, rfl, rfl, rfl⟩
  | cons p rest ih =>
      obtain ⟨h1, h2, h3, h4, h5, h6⟩ := ih (rebuildSlot index tid h p c)
      have hs := rebuildSlot_frame index tid h p c
      exact ⟨h1.trans hs.1, h2.trans hs.2.1, h3.trans hs.2.2.1, h4.trans hs.2.2.2.1,
        h5.trans hs.2.2.2.2.1, h6.trans hs.2.2.2.2.2⟩

theorem rebuildTxoEntries_get_ne (index tid : Nat) (h : String)
    (ts : List (Nat × (XfrAddress × Option OwnerMemo))) (c : ApiCache) (k : Nat)
    (hk : k ≠ index) :
    mapGet k (rebuildTxoEntries index tid h ts c).owner_memos = mapGet k c.owner_memos ∧
    mapGet k (rebuildTxoEntries index tid h ts c).utxos_to_map_index =
      mapGet k c.utxos_to_map_index ∧
    mapGet k (rebuildTxoEntries index tid h ts c).txo_to_txnid =
      mapGet k c.txo_to_txnid := by
  induction ts generalizing c with
  | nil => exact ⟨rfl, rfl, rfl⟩
  | cons p rest ih =>
      obtain ⟨h1, h2, h3⟩ := ih (rebuildSlot index tid h p c)
      have hs := rebuildSlot_get_ne index tid h p c k hk
      exact ⟨h1.trans hs.1, h2.trans hs.2.1, h3.trans hs.2.2⟩

theorem rebuildTxoEntries_memo_isSome (index tid : Nat) (h : String)
    (ts : List (Nat × (XfrAddress × Option OwnerMemo))) (c : ApiCache) (k : Nat)
    (hk : (mapGet k c.owner_memos).isSome = true) :
    (mapGet k (rebuildTxoEntries index tid h ts c).owner_memos).isSome = true := by
  induction ts generalizing c with
  | nil => exact hk
  | cons p rest ih => exact ih _ (rebuildSlot_memo_isSome index tid h p c k hk)

/-! ### Branch equations for the lost-memo step -/

/-- The memo entry already exists: only the watermark is marked. -/
theorem txoSweepStep_skip (l : LedgerState) (c : ApiCache) (i : Nat)
    (h : (mapGet i c.owner_memos).isSome = true) :
    txoSweepStep l c i =
      ({ c with last_sid := mapInsert "last_txo_sid" i c.last_sid }, true) := by
  unfold txoSweepStep
  rw [if_pos h]

/-- The output is not live: `continue` without marking the watermark. -/
theorem txoSweepStep_cont (l : LedgerState) (c : ApiCache) (i : Nat)
    (h : (mapGet i c.owner_memos).isSome = false) (hu : getUtxo l i = none) :
    txoSweepStep l c i = (c, true) := by
  unfold txoSweepStep
  rw [if_neg (by simp [h]), hu]

/-- The producing transaction cannot be fetched: the `unwrap` panics. -/
theorem txoSweepStep_abort1 (l : LedgerState) (c : ApiCache) (i : Nat)
    (u : UtxoRec) (h : (mapGet i c.owner_memos).isSome = false)
    (hu : getUtxo l i = some u) (ht : getTransactionLight l u.tx_id = none) :
    txoSweepStep l c i = (c, false) := by
  unfold txoSweepStep
  rw [if_neg (by simp [h])]
  simp only [hu, ht]

/-- An output address cannot be resolved: the `unwrap` panics. -/
theorem txoSweepStep_abort2 (l : LedgerState) (c : ApiCache) (i : Nat)
    (u : UtxoRec) (f : FinalizedTxn) (h : (mapGet i c.owner_memos).isSome = false)
    (hu : getUtxo l i = some u) (ht : getTransactionLight l u.tx_id = some f)
    (ha : collectOpt (addrOf l) f.txo_ids = none) :
    txoSweepStep l c i = (c, false) := by
  unfold txoSweepStep
  rw [if_neg (by simp [h])]
  simp only [hu, ht, ha]

/-- Everything resolves: rebuild the slot and mark the watermark. -/
theorem txoSweepStep_rebuild (l : LedgerState) (c : ApiCache) (i : Nat)
    (u : UtxoRec) (f : FinalizedTxn) (addrs : List XfrAddress)
    (h : (mapGet i c.owner_memos).isSome = false)
    (hu : getUtxo l i = some u) (ht : getTransactionLight l u.tx_id = some f)
    (ha : collectOpt (addrOf l) f.txo_ids = some addrs) :
    txoSweepStep l c i =
      ({ rebuildTxoEntries i f.tx_id (hashHex f.txn)
            (f.txo_ids.zip (addrs.zip (get_owner_memos_ref f.txn))) c with
          last_sid := mapInsert "last_txo_sid" i
            (rebuildTxoEntries i f.tx_id (hashHex f.txn)
              (f.txo_ids.zip (addrs.zip (get_owner_memos_ref f.txn))) c).last_sid },
        true) := by
  unfold txoSweepStep
  rw [if_neg (by simp [h])]
  simp only [hu, ht, ha]

/-- The lost-memo step leaves the hash maps, the asset/issuance indexes and
the `"last_txn_sid"` watermark untouched. -/
theorem txoSweepStep_frame (l : LedgerState) (c : ApiCache) (i : Nat) :
    (txoSweepStep l c i).1.txn_sid_to_hash = c.txn_sid_to_hash ∧
    (txoSweepStep l c i).1.txn_hash_to_sid = c.txn_hash_to_sid ∧
    (txoSweepStep l c i).1.created_assets = c.created_assets ∧
    (txoSweepStep l c i).1.issuances = c.issuances ∧
    (txoSweepStep l c i).1.token_code_issuances = c.token_code_issuances ∧
    mapGet "last_txn_sid" (txoSweepStep l c i).1.last_sid =
      mapGet "last_txn_sid" c.last_sid := by
  cases h : (mapGet i c.owner_memos).isSome with
  | true =>
      rw [txoSweepStep_skip l c i h]
      exact ⟨rfl, rfl, rfl, rfl, rfl, mapGet_insert_ne _ _ (by decide)⟩
  | false =>
      cases hu : getUtxo l i with
      | none =>
          rw [txoSweepStep_cont l c i h hu]
          exact ⟨rfl, rfl, rfl, rfl, rfl, rfl⟩
      | some u =>
          cases ht : getTransactionLight l u.tx_id with
          | none =>
              rw [txoSweepStep_abort1 l c i u h hu ht]
              exact ⟨rfl, rfl, rfl, rfl, rfl, rfl⟩
          | some f =>
              cases ha : collectOpt (addrOf l) f.txo_ids with
              | none =>
                  rw [txoSweepStep_abort2 l c i u f h hu ht ha]
                  exact ⟨rfl, rfl, rfl, rfl, rfl, rfl⟩
              | some addrs =>
                  rw [txoSweepStep_rebuild l c i u f addrs h hu ht ha]
                  have hr := rebuildTxoEntries_frame i f.tx_id (hashHex f.txn)
                    (f.txo_ids.zip (addrs.zip (get_owner_memos_ref f.txn))) c
                  refine ⟨hr.1, hr.2.1, hr.2.2.1, hr.2.2.2.1, hr.2.2.2.2.1, ?_⟩
                  show mapGet "last_txn_sid" (mapInsert "last_txo_sid" i _) = _
                  rw [mapGet_insert_ne _ _ (by decide), hr.2.2.2.2.2]

/-- The lost-memo step writes the three per-output maps only at the swept
index. -/
theorem txoSweepStep_get_ne (l : LedgerState) (c : ApiCache) (i k : Nat)
    (hk : k ≠ i) :
    mapGet k (txoSweepStep l c i).1.owner_memos = mapGet k c.owner_memos ∧
    mapGet k (txoSweepStep l c i).1.utxos_to_map_index =
      mapGet k c.utxos_to_map_index ∧
    mapGet k (txoSweepStep l c i).1.txo_to_txnid = mapGet k c.txo_to_txnid := by
  cases h : (mapGet i c.owner_memos).isSome with
  | true =>
      rw [txoSweepStep_skip l c i h]
      exact ⟨rfl, rfl, rfl⟩
  | false =>
      cases hu : getUtxo l i with
      | none =>
          rw [txoSweepStep_cont l c i h hu]
          exact ⟨rfl, rfl, rfl⟩
      | some u =>
          cases ht : getTransactionLight l u.tx_id with
          | none =>
              rw [txoSweepStep_abort1 l c i u h hu ht]
              exact ⟨rfl, rfl, rfl⟩
          | some f =>
              cases ha : collectOpt (addrOf l) f.txo_ids with
              | none =>
                  rw [txoSweepStep_abort2 l c i u f h hu ht ha]
                  exact ⟨rfl, rfl, rfl⟩
              | some addrs =>
                  rw [txoSweepStep_rebuild l c i u f addrs h hu ht ha]
                  exact rebuildTxoEntries_get_ne i f.tx_id (hashHex f.txn)
                    (f.txo_ids.zip (addrs.zip (get_owner_memos_ref f.txn))) c k hk

/-- Entries of `owner_memos` survive the lost-memo step. -/
theorem txoSweepStep_memo_isSome (l : LedgerState) (c : ApiCache) (i k : Nat)
    (hk : (mapGet k c.owner_memos).isSome = true) :
    (mapGet k (txoSweepStep l c i).1.owner_memos).isSome = true := by
  cases h : (mapGet i c.owner_memos).isSome with
  | true =>
      rw [txoSweepStep_skip l c i h]
      exact hk
  | false =>
      cases hu : getUtxo l i with
      | none =>
          rw [txoSweepStep_cont l c i h hu]
          exact hk
      | some u =>
          cases ht : getTransactionLight l u.tx_id with
          | none =>
              rw [txoSweepStep_abort1 l c i u h hu ht]
              exact hk
          | some f =>
              cases ha : collectOpt (addrOf l) f.txo_ids with
              | none =>
                  rw [txoSweepStep_abort2 l c i u f h hu ht ha]
                  exact hk
              | some addrs =>
                  rw [txoSweepStep_rebuild l c i u f addrs h hu ht ha]
                  exact rebuildTxoEntries_memo_isSome i f.tx_id (hashHex f.txn)
                    (f.txo_ids.zip (addrs.zip (get_owner_memos_ref f.txn))) c k hk

theorem txoSweep_frame (l : LedgerState) (c : ApiCache) (is : List Nat) :
    (txoSweep l c is).1.txn_sid_to_hash = c.txn_sid_to_hash ∧
    (txoSweep l c is).1.txn_hash_to_sid = c.txn_hash_to_sid ∧
    (txoSweep l c is).1.created_assets = c.created_assets ∧
    (txoSweep l c is).1.issuances = c.issuances ∧
    (txoSweep l c is).1.token_code_issuances = c.token_code_issuances ∧
    mapGet "last_txn_sid" (txoSweep l c is).1.last_sid =
      mapGet "last_txn_sid" c.last_sid := by
  induction is generalizing c with
  | nil => exact ⟨rfl, rfl, rfl, rfl, rfl, rfl⟩
  | cons i rest ih =>
      have hs := txoSweepStep_frame l c i
      rw [txoSweep_cons]
      split
      · obtain ⟨h1, h2, h3, h4, h5, h6⟩ := ih (txoSweepStep l c i).1
        exact ⟨h1.trans hs.1, h2.trans hs.2.1, h3.trans hs.2.2.1, h4.trans hs.2.2.2.1,
          h5.trans hs.2.2.2.2.1, h6.trans hs.2.2.2.2.2⟩
      · exact hs

theorem txoSweep_get_ne (l : LedgerState) (c : ApiCache) (is : List Nat) (k : Nat)
    (hk : k ∉ is) :
    mapGet k (txoSweep l c is).1.owner_memos = mapGet k c.owner_memos ∧
    mapGet k (txoSweep l c is).1.utxos_to_map_index = mapGet k c.utxos_to_map_index ∧
    mapGet k (txoSweep l c is).1.txo_to_txnid = mapGet k c.txo_to_txnid := by
  induction is generalizing c with
  | nil => exact ⟨rfl, rfl, rfl⟩
  | cons i rest ih =>
      have hki : k ≠ i := fun h => hk (by simp [h])
      have hs := txoSweepStep_get_ne l c i k hki
      rw [txoSweep_cons]
      split
      · obtain ⟨h1, h2, h3⟩ := ih (txoSweepStep l c i).1 (fun h => hk (by simp [h]))
        exact ⟨h1.trans hs.1, h2.trans hs.2.1, h3.trans hs.2.2⟩
      · exact hs

theorem txoSweep_memo_isSome (l : LedgerState) (c : ApiCache) (is : List Nat) (k : Nat)
    (hk : (mapGet k c.owner_memos).isSome = true) :
    (mapGet k (txoSweep l c is).1.owner_memos).isSome = true := by
  induction is generalizing c with
  | nil => exact hk
  | cons i rest ih =>
      rw [txoSweep_cons]
      split
      · exact ih _ (txoSweepStep_memo_isSome l c i k hk)
      · exact txoSweepStep_memo_isSome l c i k hk

/-! ## Lemmas about `collectOpt` and zipped triples -/

theorem collectOpt_length {α β : Type} (f : α → Option β) :
    ∀ {xs : List α} {ys : List β}, collectOpt f xs = some ys → ys.length = xs.length := by
  intro xs
  induction xs with
  | nil => intro ys h; simp [collectOpt] at h; simp [← h]
  | cons x rest ih =>
      intro ys h
      unfold collectOpt at h
      cases hx : f x with
      | none => rw [hx] at h; simp at h
      | some y =>
          rw [hx] at h
          cases hr : collectOpt f rest with
          | none => rw [hr] at h; simp at h
          | some ys' =>
              rw [hr] at h
              simp at h
              subst h
              simp [ih hr]

theorem collectOpt_zip {α β : Type} (f : α → Option β) :
    ∀ {xs : List α} {ys : List β}, collectOpt f xs = some ys →
      ∀ p ∈ xs.zip ys, f p.1 = some p.2 := by
  intro xs
  induction xs with
  | nil => intro ys _ p hp; simp [List.zip] at hp
  | cons x rest ih =>
      intro ys h p hp
      unfold collectOpt at h
      cases hx : f x with
      | none => rw [hx] at h; simp at h
      | some y =>
          rw [hx] at h
          cases hr : collectOpt f rest with
          | none => rw [hr] at h; simp at h
          | some ys' =>
              rw [hr] at h
              simp at h
              subst h
              rcases List.mem_cons.mp hp with hph | hpt
              · subst hph; exact hx
              · exact ih hr p hpt

/-- Project a zipped triple to its first and third components. -/
theorem mem_zip_zip13 {α β γ : Type} :
    ∀ {xs : List α} {ys : List β} {ms : List γ} {p : α × β × γ},
      p ∈ xs.zip (ys.zip ms) → (p.1, p.2.2) ∈ xs.zip ms := by
  intro xs
  induction xs with
  | nil => intro ys ms p hp; simp [List.zip] at hp
  | cons x rest ih =>
      intro ys ms p hp
      cases ys with
      | nil => simp [List.zip] at hp
      | cons y ys' =>
          cases ms with
          | nil => simp [List.zip] at hp
          | cons m ms' =>
              rcases List.mem_cons.mp hp with hph | hpt
              · subst hph; exact List.mem_cons_self _ _
              · exact List.mem_cons_of_mem _ (ih hpt)

/-- Project a zipped triple to its first and second components. -/
theorem mem_zip_zip12 {α β γ : Type} :
    ∀ {xs : List α} {ys : List β} {ms : List γ} {p : α × β × γ},
      p ∈ xs.zip (ys.zip ms) → (p.1, p.2.1) ∈ xs.zip ys := by
  intro xs
  induction xs with
  | nil => intro ys ms p hp; simp [List.zip] at hp
  | cons x rest ih =>
      intro ys ms p hp
      cases ys with
      | nil => simp [List.zip] at hp
      | cons y ys' =>
          cases ms with
          | nil => simp [List.zip] at hp
          | cons m ms' =>
              rcases List.mem_cons.mp hp with hph | hpt
              · subst hph; exact List.mem_cons_self _ _
              · exact List.mem_cons_of_mem _ (ih hpt)

/-- A member of the first list appears in a triple when the zipped lists are
long enough. -/
theorem mem_zip_zip_exists {α β γ : Type} :
    ∀ {xs : List α} {ys : List β} {ms : List γ} {a : α},
      a ∈ xs → xs.length = ys.length → xs.length = ms.length →
      ∃ b c, (a, (b, c)) ∈ xs.zip (ys.zip ms) := by
  intro xs
  induction xs with
  | nil => intro ys ms a ha _ _; simp at ha
  | cons x rest ih =>
      intro ys ms a ha hy hm
      cases ys with
      | nil => simp at hy
      | cons y ys' =>
          cases ms with
          | nil => simp at hm
          | cons m ms' =>
              rcases List.mem_cons.mp ha with hax | hat
              · subst hax; exact ⟨y, m, List.mem_cons_self _ _⟩
              · obtain ⟨b, c, hb⟩ := ih hat (by simpa using hy) (by simpa using hm)
                exact ⟨b, c, List.mem_cons_of_mem _ hb⟩

/-- With distinct first components, the second component of a zip member is
determined by the first. -/
theorem zip_nodup_consistent {α β : Type} :
    ∀ {xs : List α} {ys : List β} {a : α} {b b' : β}, xs.Nodup →
      (a, b) ∈ xs.zip ys → (a, b') ∈ xs.zip ys → b = b' := by
  intro xs
  induction xs with
  | nil => intro ys a b b' _ hb _; simp [List.zip] at hb
  | cons x rest ih =>
      intro ys a b b' hnd hb hb'
      cases ys with
      | nil => simp [List.zip] at hb
      | cons y ys' =>
          rcases List.mem_cons.mp hb with h1 | h1 <;>
            rcases List.mem_cons.mp hb' with h2 | h2
          · rw [Prod.mk.injEq] at h1 h2
            rw [h1.2, h2.2]
          · exfalso
            rw [Prod.mk.injEq] at h1
            have ha : a ∈ rest := (List.of_mem_zip h2).1
            exact (List.nodup_cons.mp hnd).1 (h1.1 ▸ ha)
          · exfalso
            rw [Prod.mk.injEq] at h2
            have ha : a ∈ rest := (List.of_mem_zip h1).1
            exact (List.nodup_cons.mp hnd).1 (h2.1 ▸ ha)
          · exact ih (List.nodup_cons.mp hnd).2 h1 h2

/-! ## Characterizing the lost-txn sweep -/

/-- The hash entry already exists: only the watermark is marked. -/
theorem txnSweepStep_skip (l : LedgerState) (c : ApiCache) (i : Nat)
    (h : (mapGet i c.txn_sid_to_hash).isSome = true) :
    txnSweepStep l c i =
      ({ c with last_sid := mapInsert "last_txn_sid" i c.last_sid }, true) := by
  unfold txnSweepStep
  rw [if_pos h]

/-- The committed transaction cannot be fetched: the step returns the error. -/
theorem txnSweepStep_abort (l : LedgerState) (c : ApiCache) (i : Nat)
    (hm : mapGet i c.txn_sid_to_hash = none) (ht : getTransactionLight l i = none) :
    txnSweepStep l c i = (c, false) := by
  unfold txnSweepStep
  rw [if_neg (by simp [hm])]
  simp only [ht]

/-- The hash entry is missing and the transaction resolves: install both hash
directions and mark the watermark. -/
theorem txnSweepStep_install (l : LedgerState) (c : ApiCache) (i : Nat)
    (f : FinalizedTxn) (hm : mapGet i c.txn_sid_to_hash = none)
    (ht : getTransactionLight l i = some f) :
    txnSweepStep l c i =
      ({ c with
          txn_sid_to_hash := mapInsert i (hashHex f.txn) c.txn_sid_to_hash
          txn_hash_to_sid := mapInsert (hashHex f.txn) i c.txn_hash_to_sid
          last_sid := mapInsert "last_txn_sid" i c.last_sid }, true) := by
  unfold txnSweepStep
  rw [if_neg (by simp [hm])]
  simp only [ht]

/-- A successful lost-txn step marks the watermark at its index and leaves the
hash entry of that index present. -/
theorem txnSweepStep_ok_marks (l : LedgerState) (c : ApiCache) (a : Nat)
    (hb : (txnSweepStep l c a).2 = true) :
    lastTxnOf (txnSweepStep l c a).1 = some a ∧
    (mapGet a (txnSweepStep l c a).1.txn_sid_to_hash).isSome = true := by
  cases hm : (mapGet a c.txn_sid_to_hash).isSome with
  | true =>
      rw [txnSweepStep_skip l c a hm]
      exact ⟨mapGet_insert_self _ _ _, hm⟩
  | false =>
      have hmn : mapGet a c.txn_sid_to_hash = none := by
        cases hx : mapGet a c.txn_sid_to_hash
        · rfl
        · rw [hx] at hm; simp at hm
      cases ht : getTransactionLight l a with
      | none => rw [txnSweepStep_abort l c a hmn ht] at hb; simp at hb
      | some f =>
          rw [txnSweepStep_install l c a f hmn ht]
          constructor
          · exact mapGet_insert_self _ _ _
          · show (mapGet a (mapInsert a (hashHex f.txn) c.txn_sid_to_hash)).isSome = true
            rw [mapGet_insert_self]
            rfl

/-- A successful lost-txn sweep over `[a, a+n)` either was empty and did
nothing, or ends with the watermark at `a+n-1` and that index's hash entry
present. -/
theorem txnSweep_char (l : LedgerState) :
    ∀ (n a : Nat) (c : ApiCache),
      (txnSweep l c (List.range' a n)).2 = true →
      ((n = 0 ∧ (txnSweep l c (List.range' a n)).1 = c) ∨
       (0 < n ∧
         lastTxnOf (txnSweep l c (List.range' a n)).1 = some (a + n - 1) ∧
         (mapGet (a + n - 1)
           (txnSweep l c (List.range' a n)).1.txn_sid_to_hash).isSome = true)) := by
  intro n
  induction n with
  | zero => intro a c _; exact Or.inl ⟨rfl, rfl⟩
  | succ n ih =>
      intro a c hok
      rw [List.range'_succ, txnSweep_cons] at hok ⊢
      by_cases hb : (txnSweepStep l c a).2 = true
      · rw [if_pos hb] at hok ⊢
        have hmk := txnSweepStep_ok_marks l c a hb
        rcases ih (a + 1) (txnSweepStep l c a).1 hok with ⟨hn0, heq⟩ | ⟨hn, hw, he⟩
        · subst hn0
          refine Or.inr ⟨by omega, ?_, ?_⟩
          · rw [show a + (0 + 1) - 1 = a from by omega]
            rw [heq]
            exact hmk.1
          · rw [show a + (0 + 1) - 1 = a from by omega, heq]
            exact hmk.2
        · refine Or.inr ⟨by omega, ?_, ?_⟩
          · rw [show a + (n + 1) - 1 = a + 1 + n - 1 from by omega]
            exact hw
          · rw [show a + (n + 1) - 1 = a + 1 + n - 1 from by omega]
            exact he
      · rw [if_neg hb] at hok
        simp at hok

/-- A failed lost-txn sweep over `[a, a+n)` stops at the first index whose
hash entry is missing and whose transaction cannot be fetched; the watermark
is not advanced to the failing index. -/
theorem txnSweep_abort_char (l : LedgerState) :
    ∀ (n a : Nat) (c : ApiCache),
      (txnSweep l c (List.range' a n)).2 = false →
      ∃ j, a ≤ j ∧ j < a + n ∧
        mapGet j (txnSweep l c (List.range' a n)).1.txn_sid_to_hash = none ∧
        getTransactionLight l j = none ∧
        ((j = a ∧ (txnSweep l c (List.range' a n)).1 = c) ∨
         (a < j ∧ lastTxnOf (txnSweep l c (List.range' a n)).1 = some (j - 1) ∧
           (mapGet (j - 1)
             (txnSweep l c (List.range' a n)).1.txn_sid_to_hash).isSome = true)) := by
  intro n
  induction n with
  | zero => intro a c hok; simp [txnSweep, sweepLoop] at hok
  | succ n ih =>
      intro a c hok
      rw [List.range'_succ, txnSweep_cons] at hok ⊢
      by_cases hb : (txnSweepStep l c a).2 = true
      · rw [if_pos hb] at hok ⊢
        have hmk := txnSweepStep_ok_marks l c a hb
        obtain ⟨j, hj1, hj2, hj3, hj4, hj5⟩ := ih (a + 1) (txnSweepStep l c a).1 hok
        refine ⟨j, by omega, by omega, hj3, hj4, Or.inr ⟨by omega, ?_, ?_⟩⟩
        · rcases hj5 with ⟨hja, heq⟩ | ⟨_, hw, _⟩
          · rw [heq, show j - 1 = a from by omega]
            exact hmk.1
          · exact hw
        · rcases hj5 with ⟨hja, heq⟩ | ⟨_, _, he⟩
          · rw [heq, show j - 1 = a from by omega]
            exact hmk.2
          · exact he
      · rw [if_neg hb] at hok ⊢
        cases hm : (mapGet a c.txn_sid_to_hash).isSome with
        | true => rw [txnSweepStep_skip l c a hm] at hb; simp at hb
        | false =>
            have hmn : mapGet a c.txn_sid_to_hash = none := by
              cases hx : mapGet a c.txn_sid_to_hash
              · rfl
              · rw [hx] at hm; simp at hm
            cases ht : getTransactionLight l a with
            | some f => rw [txnSweepStep_install l c a f hmn ht] at hb; simp at hb
            | none =>
                rw [txnSweepStep_abort l c a hmn ht]
                exact ⟨a, Nat.le_refl a, by omega, hmn, ht, Or.inl ⟨rfl, rfl⟩⟩

/-! ## Characterizing the lost-memo sweep -/

/-- At index `i` the sweep can only `continue`: the memo entry is absent and
the output is not live. -/
def ContAt (l : LedgerState) (c : ApiCache) (i : Nat) : Prop :=
  (mapGet i c.owner_memos).isSome = false ∧ getUtxo l i = none

/-- Re-running the lost-memo step at `i` from `c` could only re-mark the
watermark: either the memo entry is present, or the rebuild resolves and every
slot it would write already holds exactly the value it would write. -/
def NoopAt (l : LedgerState) (c : ApiCache) (i : Nat) : Prop :=
  (mapGet i c.owner_memos).isSome = true ∨
  ((mapGet i c.owner_memos).isSome = false ∧
    ∃ u f addrs, getUtxo l i = some u ∧ getTransactionLight l u.tx_id = some f ∧
      collectOpt (addrOf l) f.txo_ids = some addrs ∧
      ∀ p ∈ f.txo_ids.zip (addrs.zip (get_owner_memos_ref f.txn)), p.1 = i →
        p.2.2 = none ∧
        mapGet i c.utxos_to_map_index = some p.2.1 ∧
        mapGet i c.txo_to_txnid = some (f.tx_id, hashHex f.txn))

/-- The lost-memo step at `i` panics: the memo entry is absent, the output is
live, but the producing transaction or one of its output addresses is
unavailable. -/
def AbortAt (l : LedgerState) (c : ApiCache) (i : Nat) : Prop :=
  (mapGet i c.owner_memos).isSome = false ∧
  ∃ u, getUtxo l i = some u ∧
    (getTransactionLight l u.tx_id = none ∨
     ∃ f, getTransactionLight l u.tx_id = some f ∧ collectOpt (addrOf l) f.txo_ids = none)

/-- A rebuild whose slots all already hold the values it would write changes
nothing. -/
theorem rebuildTxoEntries_noop (index tid : Nat) (h : String)
    (ts : List (Nat × (XfrAddress × Option OwnerMemo))) (c : ApiCache)
    (hall : ∀ p ∈ ts, p.1 = index →
      p.2.2 = none ∧ mapGet index c.utxos_to_map_index = some p.2.1 ∧
      mapGet index c.txo_to_txnid = some (tid, h)) :
    rebuildTxoEntries index tid h ts c = c := by
  induction ts with
  | nil => rfl
  | cons p rest ih =>
      have hslot : rebuildSlot index tid h p c = c := by
        unfold rebuildSlot
        by_cases hp : p.1 = index
        · rw [if_pos hp]
          obtain ⟨hm0, hu0, ht0⟩ := hall p (List.mem_cons_self _ _) hp
          simp only [hm0]
          rw [mapInsert_get_eq (hp ▸ hu0), mapInsert_get_eq (hp ▸ ht0)]
        · rw [if_neg hp]
      show rebuildTxoEntries index tid h rest (rebuildSlot index tid h p c) = c
      rw [hslot]
      exact ih (fun q hq => hall q (List.mem_cons_of_mem _ hq))

/-- If no slot with the swept index carries a memo, the rebuild leaves the
memo entry of that index unchanged. -/
theorem rebuildTxoEntries_memo_unchanged (index tid : Nat) (h : String)
    (ts : List (Nat × (XfrAddress × Option OwnerMemo))) (c : ApiCache)
    (hall : ∀ p ∈ ts, p.1 = index → p.2.2 = none) :
    mapGet index (rebuildTxoEntries index tid h ts c).owner_memos =
      mapGet index c.owner_memos := by
  induction ts generalizing c with
  | nil => rfl
  | cons p rest ih =>
      have hslot : (rebuildSlot index tid h p c).owner_memos = c.owner_memos := by
        unfold rebuildSlot
        by_cases hp : p.1 = index
        · rw [if_pos hp, hall p (List.mem_cons_self _ _) hp]
        · rw [if_neg hp]
      show mapGet index (rebuildTxoEntries index tid h rest _).owner_memos = _
      rw [ih _ (fun q hq => hall q (List.mem_cons_of_mem _ hq)), hslot]

/-- Slots matching the swept index all write the same values; once present
they stay. -/
theorem rebuildTxoEntries_keep (index tid : Nat) (h : String)
    (ts : List (Nat × (XfrAddress × Option OwnerMemo))) (c : ApiCache)
    (av : XfrAddress)
    (haddr : ∀ p ∈ ts, p.1 = index → p.2.1 = av)
    (hu : mapGet index c.utxos_to_map_index = some av)
    (ht : mapGet index c.txo_to_txnid = some (tid, h)) :
    mapGet index (rebuildTxoEntries index tid h ts c).utxos_to_map_index = some av ∧
    mapGet index (rebuildTxoEntries index tid h ts c).txo_to_txnid = some (tid, h) := by
  induction ts generalizing c with
  | nil => exact ⟨hu, ht⟩
  | cons p rest ih =>
      have hslot : mapGet index (rebuildSlot index tid h p c).utxos_to_map_index = some av ∧
          mapGet index (rebuildSlot index tid h p c).txo_to_txnid = some (tid, h) := by
        unfold rebuildSlot
        by_cases hp : p.1 = index
        · rw [if_pos hp]
          have hpv := haddr p (List.mem_cons_self _ _) hp
          cases hm : p.2.2 <;> simp only [hm] <;>
            exact ⟨by rw [hpv, hp, mapGet_insert_self],
              by rw [hp, mapGet_insert_self]⟩
        · rw [if_neg hp]
          exact ⟨hu, ht⟩
      exact ih _ (fun q hq => haddr q (List.mem_cons_of_mem _ hq)) hslot.1 hslot.2

/-- A rebuild with a matching slot installs the per-output entries. -/
theorem rebuildTxoEntries_install (index tid : Nat) (h : String)
    (ts : List (Nat × (XfrAddress × Option OwnerMemo))) (c : ApiCache)
    (av : XfrAddress)
    (haddr : ∀ p ∈ ts, p.1 = index → p.2.1 = av)
    (hex : ∃ p ∈ ts, p.1 = index) :
    mapGet index (rebuildTxoEntries index tid h ts c).utxos_to_map_index = some av ∧
    mapGet index (rebuildTxoEntries index tid h ts c).txo_to_txnid = some (tid, h) := by
  induction ts generalizing c with
  | nil => obtain ⟨p, hp, _⟩ := hex; simp at hp
  | cons p rest ih =>
      by_cases hp : p.1 = index
      · have hpv := haddr p (List.mem_cons_self _ _) hp
        have hslot : mapGet index (rebuildSlot index tid h p c).utxos_to_map_index = some av ∧
            mapGet index (rebuildSlot index tid h p c).txo_to_txnid = some (tid, h) := by
          unfold rebuildSlot
          rw [if_pos hp]
          cases hm : p.2.2 <;> simp only [hm] <;>
            exact ⟨by rw [hpv, hp, mapGet_insert_self],
              by rw [hp, mapGet_insert_self]⟩
        exact rebuildTxoEntries_keep index tid h rest _ av
          (fun q hq => haddr q (List.mem_cons_of_mem _ hq)) hslot.1 hslot.2
      · obtain ⟨q, hq, hqi⟩ := hex
        rcases List.mem_cons.mp hq with hqp | hqr
        · exact absurd (hqp ▸ hqi) hp
        · exact ih _ (fun r hr => haddr r (List.mem_cons_of_mem _ hr)) ⟨q, hqr, hqi⟩

/-- A rebuild with a matching memo-carrying slot leaves a memo entry. -/
theorem rebuildTxoEntries_install_memo (index tid : Nat) (h : String)
    (ts : List (Nat × (XfrAddress × Option OwnerMemo))) (c : ApiCache)
    (hex : ∃ p ∈ ts, p.1 = index ∧ (p.2.2).isSome = true) :
    (mapGet index (rebuildTxoEntries index tid h ts c).owner_memos).isSome = true := by
  induction ts generalizing c with
  | nil => obtain ⟨p, hp, _⟩ := hex; simp at hp
  | cons p rest ih =>
      obtain ⟨q, hq, hqi, hqm⟩ := hex
      rcases List.mem_cons.mp hq with hqp | hqr
      · subst hqp
        have hslot : (mapGet index (rebuildSlot index tid h q c).owner_memos).isSome = true := by
          unfold rebuildSlot
          rw [if_pos hqi]
          cases hm : q.2.2 with
          | none => rw [hm] at hqm; simp at hqm
          | some m =>
              simp only [hm]
              show (mapGet index (mapInsert q.1 m _)).isSome = true
              rw [hqi, mapGet_insert_self]
              rfl
        exact rebuildTxoEntries_memo_isSome index tid h rest _ index hslot
      · exact ih _ ⟨q, hqr, hqi, hqm⟩

/-- A rebuild whose matching slots agree on one memo value installs it. -/
theorem rebuildTxoEntries_install_memo_val (index tid : Nat) (h : String)
    (ts : List (Nat × (XfrAddress × Option OwnerMemo))) (c : ApiCache)
    (m : OwnerMemo)
    (hval : ∀ p ∈ ts, p.1 = index → p.2.2 = some m)
    (hpre : mapGet index c.owner_memos = some m ∨ ∃ p ∈ ts, p.1 = index) :
    mapGet index (rebuildTxoEntries index tid h ts c).owner_memos = some m := by
  induction ts generalizing c with
  | nil =>
      rcases hpre with hc | ⟨p, hp, _⟩
      · exact hc
      · simp at hp
  | cons p rest ih =>
      by_cases hp : p.1 = index
      · have hm := hval p (List.mem_cons_self _ _) hp
        have hslot : mapGet index (rebuildSlot index tid h p c).owner_memos = some m := by
          unfold rebuildSlot
          rw [if_pos hp]
          simp only [hm]
          show mapGet index (mapInsert p.1 m _) = some m
          rw [hp, mapGet_insert_self]
        exact ih _ (fun q hq => hval q (List.mem_cons_of_mem _ hq)) (Or.inl hslot)
      · have hslot : (rebuildSlot index tid h p c).owner_memos = c.owner_memos := by
          unfold rebuildSlot
          rw [if_neg hp]
        rcases hpre with hc | ⟨q, hq, hqi⟩
        · exact ih _ (fun q hq => hval q (List.mem_cons_of_mem _ hq)) (Or.inl (by rw [hslot]; exact hc))
        · rcases List.mem_cons.mp hq with hqp | hqr
          · exact absurd (hqp ▸ hqi) hp
          · exact ih _ (fun r hr => hval r (List.mem_cons_of_mem _ hr)) (Or.inr ⟨q, hqr, hqi⟩)

theorem sweepLoop_cons_true (step : ApiCache → Nat → ApiCache × Bool)
    (c c' : ApiCache) (i : Nat) (rest : List Nat) (h : step c i = (c', true)) :
    sweepLoop step c (i :: rest) = sweepLoop step c' rest := by
  rw [sweepLoop_cons, h]
  rfl

theorem sweepLoop_cons_false (step : ApiCache → Nat → ApiCache × Bool)
    (c c' : ApiCache) (i : Nat) (rest : List Nat) (h : step c i = (c', false)) :
    sweepLoop step c (i :: rest) = (c', false) := by
  rw [sweepLoop_cons, h]
  rfl

theorem txoSweep_cons_true (l : LedgerState) (c c' : ApiCache) (i : Nat)
    (rest : List Nat) (h : txoSweepStep l c i = (c', true)) :
    txoSweep l c (i :: rest) = txoSweep l c' rest :=
  sweepLoop_cons_true _ c c' i rest h

theorem txoSweep_cons_false (l : LedgerState) (c c' : ApiCache) (i : Nat)
    (rest : List Nat) (h : txoSweepStep l c i = (c', false)) :
    txoSweep l c (i :: rest) = (c', false) :=
  sweepLoop_cons_false _ c c' i rest h

theorem txnSweep_cons_true (l : LedgerState) (c c' : ApiCache) (i : Nat)
    (rest : List Nat) (h : txnSweepStep l c i = (c', true)) :
    txnSweep l c (i :: rest) = txnSweep l c' rest :=
  sweepLoop_cons_true _ c c' i rest h

theorem txnSweep_cons_false (l : LedgerState) (c c' : ApiCache) (i : Nat)
    (rest : List Nat) (h : txnSweepStep l c i = (c', false)) :
    txnSweep l c (i :: rest) = (c', false) :=
  sweepLoop_cons_false _ c c' i rest h

/-- A noop configuration makes the lost-memo step a pure watermark mark. -/
theorem txoSweepStep_of_noopAt (l : LedgerState) (c : ApiCache) (i : Nat)
    (h : NoopAt l c i) :
    txoSweepStep l c i =
      ({ c with last_sid := mapInsert "last_txo_sid" i c.last_sid }, true) := by
  rcases h with h1 | ⟨hm, u, f, addrs, hu, ht, ha, hall⟩
  · exact txoSweepStep_skip l c i h1
  · rw [txoSweepStep_rebuild l c i u f addrs hm hu ht ha]
    rw [rebuildTxoEntries_noop i f.tx_id (hashHex f.txn) _ c hall]

/-- A continue configuration makes the lost-memo step the identity. -/
theorem txoSweepStep_of_contAt (l : LedgerState) (c : ApiCache) (i : Nat)
    (h : ContAt l c i) : txoSweepStep l c i = (c, true) :=
  txoSweepStep_cont l c i h.1 h.2

/-- An abort configuration makes the lost-memo step fail without writes. -/
theorem txoSweepStep_of_abortAt (l : LedgerState) (c : ApiCache) (i : Nat)
    (h : AbortAt l c i) : txoSweepStep l c i = (c, false) := by
  obtain ⟨hm, u, hu, hrest⟩ := h
  rcases hrest with ht | ⟨f, ht, ha⟩
  · exact txoSweepStep_abort1 l c i u hm hu ht
  · exact txoSweepStep_abort2 l c i u f hm hu ht ha

/-! ### Stability of the three configurations under steps at other indices -/

theorem ContAt_step (l : LedgerState) (c : ApiCache) (j i : Nat) (hij : i ≠ j)
    (h : ContAt l c i) : ContAt l (txoSweepStep l c j).1 i := by
  refine ⟨?_, h.2⟩
  rw [(txoSweepStep_get_ne l c j i hij).1]
  exact h.1

theorem NoopAt_step (l : LedgerState) (c : ApiCache) (j i : Nat) (hij : i ≠ j)
    (h : NoopAt l c i) : NoopAt l (txoSweepStep l c j).1 i := by
  obtain ⟨hg1, hg2, hg3⟩ := txoSweepStep_get_ne l c j i hij
  rcases h with h1 | ⟨hm, u, f, addrs, hu, ht, ha, hall⟩
  · exact Or.inl (txoSweepStep_memo_isSome l c j i h1)
  · refine Or.inr ⟨by rw [hg1]; exact hm, u, f, addrs, hu, ht, ha, ?_⟩
    intro p hp hpi
    obtain ⟨q1, q2, q3⟩ := hall p hp hpi
    exact ⟨q1, by rw [hg2]; exact q2, by rw [hg3]; exact q3⟩

theorem AbortAt_step (l : LedgerState) (c : ApiCache) (j i : Nat) (hij : i ≠ j)
    (h : AbortAt l c i) : AbortAt l (txoSweepStep l c j).1 i := by
  refine ⟨?_, h.2⟩
  rw [(txoSweepStep_get_ne l c j i hij).1]
  exact h.1

theorem ContAt_sweep (l : LedgerState) (c : ApiCache) (is : List Nat) (i : Nat)
    (hi : i ∉ is) (h : ContAt l c i) : ContAt l (txoSweep l c is).1 i := by
  induction is generalizing c with
  | nil => exact h
  | cons j rest ih =>
      have hij : i ≠ j := fun he => hi (by simp [he])
      rw [txoSweep_cons]
      split
      · exact ih (txoSweepStep l c j).1 (fun hm => hi (by simp [hm]))
          (ContAt_step l c j i hij h)
      · exact ContAt_step l c j i hij h

theorem NoopAt_sweep (l : LedgerState) (c : ApiCache) (is : List Nat) (i : Nat)
    (hi : i ∉ is) (h : NoopAt l c i) : NoopAt l (txoSweep l c is).1 i := by
  induction is generalizing c with
  | nil => exact h
  | cons j rest ih =>
      have hij : i ≠ j := fun he => hi (by simp [he])
      rw [txoSweep_cons]
      split
      · exact ih (txoSweepStep l c j).1 (fun hm => hi (by simp [hm]))
          (NoopAt_step l c j i hij h)
      · exact NoopAt_step l c j i hij h

theorem AbortAt_sweep (l : LedgerState) (c : ApiCache) (is : List Nat) (i : Nat)
    (hi : i ∉ is) (h : AbortAt l c i) : AbortAt l (txoSweep l c is).1 i := by
  induction is generalizing c with
  | nil => exact h
  | cons j rest ih =>
      have hij : i ≠ j := fun he => hi (by simp [he])
      rw [txoSweep_cons]
      split
      · exact ih (txoSweepStep l c j).1 (fun hm => hi (by simp [hm]))
          (AbortAt_step l c j i hij h)
      · exact AbortAt_step l c j i hij h

/-- The lost-memo sweep over `[b, b+n)`, characterized.  On success, either no
index marked the watermark (all were continues, and the watermark is
untouched) or the watermark sits at the last marked index `w`, re-running the
step at `w` is a noop, and every index past `w` is a continue.  On failure the
same holds up to the first aborting index `j`. -/
theorem txoSweep_char (l : LedgerState) :
    ∀ (n b : Nat) (c : ApiCache),
      ((txoSweep l c (List.range' b n)).2 = true →
        ((lastTxoOf (txoSweep l c (List.range' b n)).1 = lastTxoOf c ∧
          ∀ i, b ≤ i → i < b + n → ContAt l (txoSweep l c (List.range' b n)).1 i) ∨
         (∃ w, b ≤ w ∧ w < b + n ∧
           lastTxoOf (txoSweep l c (List.range' b n)).1 = some w ∧
           NoopAt l (txoSweep l c (List.range' b n)).1 w ∧
           ∀ i, w < i → i < b + n → ContAt l (txoSweep l c (List.range' b n)).1 i))) ∧
      ((txoSweep l c (List.range' b n)).2 = false →
        ∃ j, b ≤ j ∧ j < b + n ∧ AbortAt l (txoSweep l c (List.range' b n)).1 j ∧
          ((lastTxoOf (txoSweep l c (List.range' b n)).1 = lastTxoOf c ∧
            ∀ i, b ≤ i → i < j → ContAt l (txoSweep l c (List.range' b n)).1 i) ∨
           (∃ w, b ≤ w ∧ w < j ∧
             lastTxoOf (txoSweep l c (List.range' b n)).1 = some w ∧
             NoopAt l (txoSweep l c (List.range' b n)).1 w ∧
             ∀ i, w < i → i < j → ContAt l (txoSweep l c (List.range' b n)).1 i))) := by
  intro n
  induction n with
  | zero =>
      intro b c
      constructor
      · intro _
        exact Or.inl ⟨rfl, fun i h1 h2 => absurd h2 (by omega)⟩
      · intro hfail
        simp [txoSweep, sweepLoop] at hfail
  | succ n ih =>
      intro b c
      rw [List.range'_succ]
      by_cases hm : (mapGet b c.owner_memos).isSome = true
      · -- skip: mark only
        rw [txoSweep_cons_true l c _ b _ (txoSweepStep_skip l c b hm)]
        have hnoop : NoopAt l { c with last_sid := mapInsert "last_txo_sid" b c.last_sid } b :=
          Or.inl hm
        have hw1 : lastTxoOf { c with last_sid := mapInsert "last_txo_sid" b c.last_sid } =
            some b := mapGet_insert_self _ _ _
        obtain ⟨ihT, ihF⟩ :=
          ih (b + 1) { c with last_sid := mapInsert "last_txo_sid" b c.last_sid }
        have hbnot : b ∉ List.range' (b + 1) n := by
          intro hmem
          have := List.mem_range'_1.mp hmem
          omega
        constructor
        · intro hok
          rcases ihT hok with ⟨hweq, hcont⟩ | ⟨w, hwa, hwb, hw4, hnp, hcont⟩
          · refine Or.inr ⟨b, Nat.le_refl b, by omega, by rw [hweq]; exact hw1, ?_, ?_⟩
            · exact NoopAt_sweep l _ _ b hbnot hnoop
            · intro i hi1 hi2
              exact hcont i (by omega) (by omega)
          · exact Or.inr ⟨w, by omega, by omega, hw4, hnp,
              fun i h1 h2 => hcont i h1 (by omega)⟩
        · intro hfail
          obtain ⟨j, hj1, hj2, habort, hrest⟩ := ihF hfail
          refine ⟨j, by omega, by omega, habort, ?_⟩
          rcases hrest with ⟨hweq, hcont⟩ | ⟨w, hwa, hwb, hw4, hnp, hcont⟩
          · exact Or.inr ⟨b, Nat.le_refl b, by omega, by rw [hweq]; exact hw1,
              NoopAt_sweep l _ _ b hbnot hnoop, fun i h1 h2 => hcont i (by omega) h2⟩
          · exact Or.inr ⟨w, by omega, by omega, hw4, hnp, hcont⟩
      · have hmF : (mapGet b c.owner_memos).isSome = false := by
          revert hm
          cases (mapGet b c.owner_memos).isSome <;> simp
        cases hu : getUtxo l b with
        | none =>
            -- continue: no mark, no change
            rw [txoSweep_cons_true l c _ b _ (txoSweepStep_cont l c b hmF hu)]
            have hca : ContAt l c b := ⟨hmF, hu⟩
            have hbnot : b ∉ List.range' (b + 1) n := by
              intro hmem
              have := List.mem_range'_1.mp hmem
              omega
            obtain ⟨ihT, ihF⟩ := ih (b + 1) c
            constructor
            · intro hok
              rcases ihT hok with ⟨hweq, hcont⟩ | ⟨w, hwa, hwb, hw4, hnp, hcont⟩
              · refine Or.inl ⟨hweq, ?_⟩
                intro i hi1 hi2
                by_cases hib : i = b
                · subst hib
                  exact ContAt_sweep l c _ _ hbnot hca
                · exact hcont i (by omega) (by omega)
              · exact Or.inr ⟨w, by omega, by omega, hw4, hnp,
                  fun i h1 h2 => hcont i h1 (by omega)⟩
            · intro hfail
              obtain ⟨j, hj1, hj2, habort, hrest⟩ := ihF hfail
              refine ⟨j, by omega, by omega, habort, ?_⟩
              rcases hrest with ⟨hweq, hcont⟩ | ⟨w, hwa, hwb, hw4, hnp, hcont⟩
              · refine Or.inl ⟨hweq, ?_⟩
                intro i hi1 hi2
                by_cases hib : i = b
                · subst hib
                  exact ContAt_sweep l c _ _ hbnot hca
                · exact hcont i (by omega) hi2
              · exact Or.inr ⟨w, by omega, hwb, hw4, hnp, hcont⟩
        | some u =>
            cases ht : getTransactionLight l u.tx_id with
            | none =>
                rw [txoSweep_cons_false l c _ b _ (txoSweepStep_abort1 l c b u hmF hu ht)]
                constructor
                · intro hok
                  simp at hok
                · intro _
                  exact ⟨b, Nat.le_refl b, by omega, ⟨hmF, u, hu, Or.inl ht⟩,
                    Or.inl ⟨rfl, fun i h1 h2 =>
                      absurd (Nat.lt_of_le_of_lt h1 h2) (Nat.lt_irrefl b)⟩⟩
            | some f =>
                cases ha : collectOpt (addrOf l) f.txo_ids with
                | none =>
                    rw [txoSweep_cons_false l c _ b _
                      (txoSweepStep_abort2 l c b u f hmF hu ht ha)]
                    constructor
                    · intro hok
                      simp at hok
                    · intro _
                      exact ⟨b, Nat.le_refl b, by omega, ⟨hmF, u, hu, Or.inr ⟨f, ht, ha⟩⟩,
                        Or.inl ⟨rfl, fun i h1 h2 =>
                          absurd (Nat.lt_of_le_of_lt h1 h2) (Nat.lt_irrefl b)⟩⟩
                | some addrs =>
                    -- rebuild then mark
                    rw [txoSweep_cons_true l c _ b _
                      (txoSweepStep_rebuild l c b u f addrs hmF hu ht ha)]
                    have hnoop : NoopAt l
                        { rebuildTxoEntries b f.tx_id (hashHex f.txn)
                            (f.txo_ids.zip (addrs.zip (get_owner_memos_ref f.txn))) c with
                          last_sid := mapInsert "last_txo_sid" b
                            (rebuildTxoEntries b f.tx_id (hashHex f.txn)
                              (f.txo_ids.zip
                                (addrs.zip (get_owner_memos_ref f.txn))) c).last_sid } b := by
                      by_cases hex : ∃ p ∈ f.txo_ids.zip (addrs.zip (get_owner_memos_ref f.txn)),
                          p.1 = b ∧ (p.2.2).isSome = true
                      · exact Or.inl (rebuildTxoEntries_install_memo b f.tx_id (hashHex f.txn)
                          _ c hex)
                      · have hallnone : ∀ p ∈ f.txo_ids.zip
                            (addrs.zip (get_owner_memos_ref f.txn)), p.1 = b → p.2.2 = none := by
                          intro p hp hpi
                          cases hpm : p.2.2 with
                          | none => rfl
                          | some m => exact absurd ⟨p, hp, hpi, by rw [hpm]; rfl⟩ hex
                        refine Or.inr ⟨?_, u, f, addrs, hu, ht, ha, ?_⟩
                        · show (mapGet b (rebuildTxoEntries b f.tx_id (hashHex f.txn)
                            (f.txo_ids.zip (addrs.zip (get_owner_memos_ref f.txn)))
                              c).owner_memos).isSome = false
                          rw [rebuildTxoEntries_memo_unchanged b f.tx_id (hashHex f.txn) _ c
                            hallnone]
                          exact hmF
                        · by_cases hex2 : ∃ p ∈ f.txo_ids.zip
                              (addrs.zip (get_owner_memos_ref f.txn)), p.1 = b
                          · obtain ⟨q, hq, hqi⟩ := hex2
                            have hav : addrOf l b = some q.2.1 := by
                              have := collectOpt_zip (addrOf l) ha _ (mem_zip_zip12 hq)
                              rw [← hqi]
                              exact this
                            have haddr : ∀ p ∈ f.txo_ids.zip
                                (addrs.zip (get_owner_memos_ref f.txn)), p.1 = b →
                                p.2.1 = q.2.1 := by
                              intro p hp hpi
                              have hpv := collectOpt_zip (addrOf l) ha _ (mem_zip_zip12 hp)
                              rw [hpi] at hpv
                              rw [hav] at hpv
                              exact (Option.some.injEq _ _).mp hpv.symm
                            have hinst := rebuildTxoEntries_install b f.tx_id (hashHex f.txn)
                              _ c q.2.1 haddr ⟨q, hq, hqi⟩
                            intro p hp hpi
                            refine ⟨hallnone p hp hpi, ?_, ?_⟩
                            · show mapGet b (rebuildTxoEntries b f.tx_id (hashHex f.txn)
                                (f.txo_ids.zip (addrs.zip (get_owner_memos_ref f.txn)))
                                  c).utxos_to_map_index = some p.2.1
                              rw [haddr p hp hpi]
                              exact hinst.1
                            · exact hinst.2
                          · intro p hp hpi
                            exact absurd ⟨p, hp, hpi⟩ hex2
                    have hw1 : lastTxoOf
                        { rebuildTxoEntries b f.tx_id (hashHex f.txn)
                            (f.txo_ids.zip (addrs.zip (get_owner_memos_ref f.txn))) c with
                          last_sid := mapInsert "last_txo_sid" b
                            (rebuildTxoEntries b f.tx_id (hashHex f.txn)
                              (f.txo_ids.zip
                                (addrs.zip (get_owner_memos_ref f.txn))) c).last_sid } =
                        some b := mapGet_insert_self _ _ _
                    have hbnot : b ∉ List.range' (b + 1) n := by
                      intro hmem
                      have := List.mem_range'_1.mp hmem
                      omega
                    obtain ⟨ihT, ihF⟩ := ih (b + 1) _
                    constructor
                    · intro hok
                      rcases ihT hok with ⟨hweq, hcont⟩ | ⟨w, hwa, hwb, hw4, hnp, hcont⟩
                      · refine Or.inr ⟨b, Nat.le_refl b, by omega,
                          by rw [hweq]; exact hw1, ?_, ?_⟩
                        · exact NoopAt_sweep l _ _ b hbnot hnoop
                        · intro i hi1 hi2
                          exact hcont i (by omega) (by omega)
                      · exact Or.inr ⟨w, by omega, by omega, hw4, hnp,
                          fun i h1 h2 => hcont i h1 (by omega)⟩
                    · intro hfail
                      obtain ⟨j, hj1, hj2, habort, hrest⟩ := ihF hfail
                      refine ⟨j, by omega, by omega, habort, ?_⟩
                      rcases hrest with ⟨hweq, hcont⟩ | ⟨w, hwa, hwb, hw4, hnp, hcont⟩
                      · exact Or.inr ⟨b, Nat.le_refl b, by omega, by rw [hweq]; exact hw1,
                          NoopAt_sweep l _ _ b hbnot hnoop,
                          fun i h1 h2 => hcont i (by omega) h2⟩
                      · exact Or.inr ⟨w, by omega, by omega, hw4, hnp, hcont⟩

/-! ## Assembling `check_lost_data` -/

theorem check_lost_data_none (l : LedgerState) (hc : l.api_cache = none) :
    check_lost_data l = (l, true) := by
  unfold check_lost_data
  rw [hc]

theorem check_lost_data_some_false (l : LedgerState) (c : ApiCache)
    (hc : l.api_cache = some c) (hok : (txnSweep l c (txnRange l c)).2 = false) :
    check_lost_data l = ({ l with api_cache := some (txnSweep l c (txnRange l c)).1 },
      false) := by
  unfold check_lost_data
  rw [hc]
  simp only [hok, Bool.false_eq_true, if_false]

theorem check_lost_data_some_true (l : LedgerState) (c : ApiCache)
    (hc : l.api_cache = some c) (hok : (txnSweep l c (txnRange l c)).2 = true) :
    check_lost_data l =
      ({ l with api_cache := some (txoSweep l (txnSweep l c (txnRange l c)).1
          (txoRange l (txnSweep l c (txnRange l c)).1)).1 },
        (txoSweep l (txnSweep l c (txnRange l c)).1
          (txoRange l (txnSweep l c (txnRange l c)).1)).2) := by
  unfold check_lost_data
  rw [hc]
  simp only [hok, if_true]

/-- Replacing only the cache leaves every read the sweeps perform unchanged. -/
theorem txnSweep_cache_irrel (l : LedgerState) (x : Option ApiCache) (c : ApiCache)
    (is : List Nat) : txnSweep { l with api_cache := x } c is = txnSweep l c is := rfl

theorem txoSweep_cache_irrel (l : LedgerState) (x : Option ApiCache) (c : ApiCache)
    (is : List Nat) : txoSweep { l with api_cache := x } c is = txoSweep l c is := rfl

theorem txnRange_cache_irrel (l : LedgerState) (x : Option ApiCache) (c : ApiCache) :
    txnRange { l with api_cache := x } c = txnRange l c := rfl

theorem txoRange_cache_irrel (l : LedgerState) (x : Option ApiCache) (c : ApiCache) :
    txoRange { l with api_cache := x } c = txoRange l c := rfl

theorem txoSweepStep_cache_irrel (l : LedgerState) (x : Option ApiCache)
    (c : ApiCache) (i : Nat) :
    txoSweepStep { l with api_cache := x } c i = txoSweepStep l c i := rfl

theorem ledger_cache_eta (l : LedgerState) (c : ApiCache) (h : l.api_cache = some c) :
    { l with api_cache := some c } = l := by
  cases l
  simp only at h
  rw [← h]

/-- Re-marking the watermark with its current value changes nothing. -/
theorem mark_txn_identity (c : ApiCache) (w : Nat) (h : lastTxnOf c = some w) :
    ({ c with last_sid := mapInsert "last_txn_sid" w c.last_sid } : ApiCache) = c := by
  rw [mapInsert_get_eq h]

theorem mark_txo_identity (c : ApiCache) (w : Nat) (h : lastTxoOf c = some w) :
    ({ c with last_sid := mapInsert "last_txo_sid" w c.last_sid } : ApiCache) = c := by
  rw [mapInsert_get_eq h]

/-! ## Re-running the sweeps on the state they produced -/

/-- Re-running the lost-txn sweep after an abort reproduces the abort without
changing the cache. -/
theorem txnSweep_rerun_false (l : LedgerState) (c1 : ApiCache) (j : Nat)
    (hjlt : j < l.next_txn_sid)
    (hj3 : mapGet j c1.txn_sid_to_hash = none)
    (hj4 : getTransactionLight l j = none)
    (hdisj : (lastTxnOf c1).getD 0 = j ∨
      (lastTxnOf c1 = some (j - 1) ∧ 0 < j ∧
        (mapGet (j - 1) c1.txn_sid_to_hash).isSome = true)) :
    txnSweep l c1 (txnRange l c1) = (c1, false) := by
  unfold txnRange
  rcases hdisj with ha | ⟨hw, hj0, hpres⟩
  · rw [ha]
    rw [show l.next_txn_sid - j = (l.next_txn_sid - j - 1) + 1 from by omega,
      List.range'_succ]
    exact txnSweep_cons_false l c1 c1 j _ (txnSweepStep_abort l c1 j hj3 hj4)
  · have ha : (lastTxnOf c1).getD 0 = j - 1 := by rw [hw]; rfl
    rw [ha]
    rw [show l.next_txn_sid - (j - 1) = (l.next_txn_sid - j - 1) + 1 + 1 from by omega,
      List.range'_succ]
    have hstep : txnSweepStep l c1 (j - 1) = (c1, true) := by
      rw [txnSweepStep_skip l c1 (j - 1) hpres, mark_txn_identity c1 (j - 1) hw]
    rw [txnSweep_cons_true l c1 c1 (j - 1) _ hstep]
    rw [show j - 1 + 1 = j from by omega, List.range'_succ]
    exact txnSweep_cons_false l c1 c1 j _ (txnSweepStep_abort l c1 j hj3 hj4)

/-- Re-running the lost-txn sweep after a success changes nothing. -/
theorem txnSweep_rerun_true (l : LedgerState) (c2 : ApiCache)
    (hdisj : l.next_txn_sid ≤ (lastTxnOf c2).getD 0 ∨
      (lastTxnOf c2 = some (l.next_txn_sid - 1) ∧ 0 < l.next_txn_sid ∧
        (mapGet (l.next_txn_sid - 1) c2.txn_sid_to_hash).isSome = true)) :
    txnSweep l c2 (txnRange l c2) = (c2, true) := by
  unfold txnRange
  rcases hdisj with hle | ⟨hw, h0, hpres⟩
  · rw [show l.next_txn_sid - (lastTxnOf c2).getD 0 = 0 from by omega]
    rfl
  · have ha : (lastTxnOf c2).getD 0 = l.next_txn_sid - 1 := by rw [hw]; rfl
    rw [ha]
    rw [show l.next_txn_sid - (l.next_txn_sid - 1) = 0 + 1 from by omega,
      List.range'_succ]
    have hstep : txnSweepStep l c2 (l.next_txn_sid - 1) = (c2, true) := by
      rw [txnSweepStep_skip l c2 _ hpres, mark_txn_identity c2 _ hw]
    rw [txnSweep_cons_true l c2 c2 _ _ hstep]
    rfl

/-- Re-running the lost-memo sweep when every index in range is a continue
changes nothing. -/
theorem txoSweep_rerun_all_cont (l : LedgerState) (c2 : ApiCache)
    (hcont : ∀ i, (lastTxoOf c2).getD 0 ≤ i → i < l.next_txo_sid → ContAt l c2 i) :
    txoSweep l c2 (txoRange l c2) = (c2, true) := by
  unfold txoRange
  apply sweepFixAll
  intro i hi
  have hmem := List.mem_range'_1.mp hi
  exact txoSweepStep_of_contAt l c2 i (hcont i hmem.1 (by omega))

/-- Re-running the lost-memo sweep when the watermark index is a noop and
everything beyond it is a continue changes nothing. -/
theorem txoSweep_rerun_noop_cont (l : LedgerState) (c2 : ApiCache) (w : Nat)
    (hw : lastTxoOf c2 = some w) (hnoop : NoopAt l c2 w)
    (hcont : ∀ i, w < i → i < l.next_txo_sid → ContAt l c2 i) :
    txoSweep l c2 (txoRange l c2) = (c2, true) := by
  unfold txoRange
  have ha : (lastTxoOf c2).getD 0 = w := by rw [hw]; rfl
  rw [ha]
  apply sweepFixAll
  intro i hi
  have hmem := List.mem_range'_1.mp hi
  by_cases hiw : i = w
  · subst hiw
    rw [txoSweepStep_of_noopAt l c2 i hnoop, mark_txo_identity c2 i hw]
  · exact txoSweepStep_of_contAt l c2 i (hcont i (by omega) (by omega))

/-- Re-running the lost-memo sweep after an abort reproduces the abort
without changing the cache. -/
theorem txoSweep_rerun_abort (l : LedgerState) (c2 : ApiCache) (j : Nat)
    (hj : AbortAt l c2 j) (hjlt : j < l.next_txo_sid)
    (hdisj :
      ((lastTxoOf c2).getD 0 ≤ j ∧
        ∀ i, (lastTxoOf c2).getD 0 ≤ i → i < j → ContAt l c2 i) ∨
      (∃ w, lastTxoOf c2 = some w ∧ w < j ∧ NoopAt l c2 w ∧
        ∀ i, w < i → i < j → ContAt l c2 i)) :
    txoSweep l c2 (txoRange l c2) = (c2, false) := by
  unfold txoRange
  have hble : (lastTxoOf c2).getD 0 ≤ j := by
    rcases hdisj with ⟨h, _⟩ | ⟨w, hw, hwj, _, _⟩
    · exact h
    · rw [hw]
      exact Nat.le_of_lt hwj
  have hsplit : List.range' ((lastTxoOf c2).getD 0)
      (l.next_txo_sid - (lastTxoOf c2).getD 0) =
      List.range' ((lastTxoOf c2).getD 0) (j - (lastTxoOf c2).getD 0) ++
        j :: List.range' (j + 1) (l.next_txo_sid - j - 1) := by
    obtain ⟨m, hm⟩ : ∃ m, l.next_txo_sid - j = m + 1 :=
      ⟨l.next_txo_sid - j - 1, by omega⟩
    have h1 := List.range'_append ((lastTxoOf c2).getD 0) (j - (lastTxoOf c2).getD 0)
      (l.next_txo_sid - j) 1
    rw [show (lastTxoOf c2).getD 0 + 1 * (j - (lastTxoOf c2).getD 0) = j from by omega]
      at h1
    rw [show l.next_txo_sid - j + (j - (lastTxoOf c2).getD 0) =
      l.next_txo_sid - (lastTxoOf c2).getD 0 from by omega] at h1
    rw [← h1, hm, List.range'_succ, Nat.add_sub_cancel]
  rw [hsplit]
  apply sweepFixAbort
  · intro i hi
    have hmem := List.mem_range'_1.mp hi
    rcases hdisj with ⟨_, hcont⟩ | ⟨w, hw, hwj, hnoop, hcont⟩
    · exact txoSweepStep_of_contAt l c2 i (hcont i hmem.1 (by omega))
    · have ha : (lastTxoOf c2).getD 0 = w := by rw [hw]; rfl
      by_cases hiw : i = w
      · subst hiw
        rw [txoSweepStep_of_noopAt l c2 i hnoop, mark_txo_identity c2 i hw]
      · exact txoSweepStep_of_contAt l c2 i (hcont i (by omega) (by omega))
  · exact txoSweepStep_of_abortAt l c2 j hj

theorem check_lost_data_some_false' (l : LedgerState) (c c1 : ApiCache)
    (hc : l.api_cache = some c)
    (hok : (txnSweep l c (txnRange l c)).2 = false)
    (h1a : (txnSweep l c (txnRange l c)).1 = c1) :
    check_lost_data l = ({ l with api_cache := some c1 }, false) := by
  rw [check_lost_data_some_false l c hc hok, h1a]

theorem check_lost_data_some_true' (l : LedgerState) (c c1 c2 : ApiCache) (ok2 : Bool)
    (hc : l.api_cache = some c)
    (hok : (txnSweep l c (txnRange l c)).2 = true)
    (h1a : (txnSweep l c (txnRange l c)).1 = c1)
    (h2a : (txoSweep l c1 (txoRange l c1)).1 = c2)
    (hok2 : (txoSweep l c1 (txoRange l c1)).2 = ok2) :
    check_lost_data l = ({ l with api_cache := some c2 }, ok2) := by
  rw [check_lost_data_some_true l c hc hok, h1a, h2a, hok2]

/-- **C3.** Running `check_lost_data` a second time, with no intervening
commits, does not change the ledger at all — in particular every API-cache
map (`txn_sid_to_hash`, `txn_hash_to_sid`, `utxos_to_map_index`,
`txo_to_txnid`, `owner_memos`, `last_sid`) holds exactly the contents one run
left: the repair pass is idempotent. -/
theorem check_lost_data_idem (l : LedgerState) :
    (check_lost_data (check_lost_data l).1).1 = (check_lost_data l).1 := by
  cases hc : l.api_cache with
  | none =>
      rw [check_lost_data_none l hc]
      show (check_lost_data l).1 = l
      rw [check_lost_data_none l hc]
  | some c =>
      obtain ⟨c1, h1a⟩ : ∃ x, (txnSweep l c (txnRange l c)).1 = x := ⟨_, rfl⟩
      have h1a' : (txnSweep l c (List.range' ((lastTxnOf c).getD 0)
          (l.next_txn_sid - (lastTxnOf c).getD 0))).1 = c1 := h1a
      cases hok1 : (txnSweep l c (txnRange l c)).2 with
      | false =>
          rw [check_lost_data_some_false' l c c1 hc hok1 h1a]
          show (check_lost_data { l with api_cache := some c1 }).1 =
            { l with api_cache := some c1 }
          have hok1' : (txnSweep l c (List.range' ((lastTxnOf c).getD 0)
              (l.next_txn_sid - (lastTxnOf c).getD 0))).2 = false := hok1
          obtain ⟨j, hj1, hj2, hj3, hj4, hj5⟩ := txnSweep_abort_char l
            (l.next_txn_sid - (lastTxnOf c).getD 0) ((lastTxnOf c).getD 0) c hok1'
          rw [h1a'] at hj3 hj5
          have hjlt : j < l.next_txn_sid := by omega
          have hdisj : (lastTxnOf c1).getD 0 = j ∨
              (lastTxnOf c1 = some (j - 1) ∧ 0 < j ∧
                (mapGet (j - 1) c1.txn_sid_to_hash).isSome = true) := by
            rcases hj5 with ⟨hja, heqc⟩ | ⟨hlt, hwv, hpres⟩
            · left
              rw [heqc, ← hja]
            · exact Or.inr ⟨hwv, by omega, hpres⟩
          have hrerun : txnSweep l c1 (txnRange l c1) = (c1, false) :=
            txnSweep_rerun_false l c1 j hjlt hj3 hj4 hdisj
          have hrun2 := check_lost_data_some_false'
            { l with api_cache := some c1 } c1 c1 rfl
            (by rw [txnRange_cache_irrel, txnSweep_cache_irrel, hrerun])
            (by rw [txnRange_cache_irrel, txnSweep_cache_irrel, hrerun])
          rw [hrun2]
      | true =>
          obtain ⟨c2, h2a⟩ : ∃ x, (txoSweep l c1 (txoRange l c1)).1 = x := ⟨_, rfl⟩
          have h2a' : (txoSweep l c1 (List.range' ((lastTxoOf c1).getD 0)
              (l.next_txo_sid - (lastTxoOf c1).getD 0))).1 = c2 := h2a
          have hok1' : (txnSweep l c (List.range' ((lastTxnOf c).getD 0)
              (l.next_txn_sid - (lastTxnOf c).getD 0))).2 = true := hok1
          rw [check_lost_data_some_true' l c c1 c2
            ((txoSweep l c1 (txoRange l c1)).2) hc hok1 h1a h2a rfl]
          show (check_lost_data { l with api_cache := some c2 }).1 =
            { l with api_cache := some c2 }
          -- the re-run of the lost-txn sweep marks nothing
          have hcharT := txnSweep_char l (l.next_txn_sid - (lastTxnOf c).getD 0)
            ((lastTxnOf c).getD 0) c hok1'
          rw [h1a'] at hcharT
          have hframe := txoSweep_frame l c1 (txoRange l c1)
          rw [h2a] at hframe
          have htxnA : txnSweep l c2 (txnRange l c2) = (c2, true) := by
            apply txnSweep_rerun_true
            rcases hcharT with ⟨hn0, heq⟩ | ⟨hn, hw, hpres⟩
            · left
              have hl21 : lastTxnOf c2 = lastTxnOf c1 := hframe.2.2.2.2.2
              have hl1c : lastTxnOf c1 = lastTxnOf c := by rw [heq]
              rw [hl21, hl1c]
              omega
            · right
              have hl21 : lastTxnOf c2 = lastTxnOf c1 := hframe.2.2.2.2.2
              have hE : c2.txn_sid_to_hash = c1.txn_sid_to_hash := hframe.1
              refine ⟨?_, by omega, ?_⟩
              · rw [hl21, hw, show (lastTxnOf c).getD 0 +
                  (l.next_txn_sid - (lastTxnOf c).getD 0) - 1 =
                    l.next_txn_sid - 1 from by omega]
              · rw [hE, show l.next_txn_sid - 1 = (lastTxnOf c).getD 0 +
                  (l.next_txn_sid - (lastTxnOf c).getD 0) - 1 from by omega]
                exact hpres
          cases hok2 : (txoSweep l c1 (txoRange l c1)).2 with
          | true =>
              have hok2' : (txoSweep l c1 (List.range' ((lastTxoOf c1).getD 0)
                  (l.next_txo_sid - (lastTxoOf c1).getD 0))).2 = true := hok2
              have hcharX := (txoSweep_char l
                (l.next_txo_sid - (lastTxoOf c1).getD 0)
                ((lastTxoOf c1).getD 0) c1).1 hok2'
              rw [h2a'] at hcharX
              have htxoB : txoSweep l c2 (txoRange l c2) = (c2, true) := by
                rcases hcharX with ⟨hweq, hcont⟩ | ⟨w, hwa, hwb, hw4, hnp, hcont⟩
                · apply txoSweep_rerun_all_cont
                  intro i hi1 hi2
                  rw [hweq] at hi1
                  exact hcont i hi1 (by omega)
                · apply txoSweep_rerun_noop_cont l c2 w hw4 hnp
                  intro i hi1 hi2
                  exact hcont i hi1 (by omega)
              have hrun2 := check_lost_data_some_true'
                { l with api_cache := some c2 } c2 c2 c2 true rfl
                (by rw [txnRange_cache_irrel, txnSweep_cache_irrel, htxnA])
                (by rw [txnRange_cache_irrel, txnSweep_cache_irrel, htxnA])
                (by rw [txoRange_cache_irrel, txoSweep_cache_irrel, htxoB])
                (by rw [txoRange_cache_irrel, txoSweep_cache_irrel, htxoB])
              rw [hrun2]
          | false =>
              have hok2' : (txoSweep l c1 (List.range' ((lastTxoOf c1).getD 0)
                  (l.next_txo_sid - (lastTxoOf c1).getD 0))).2 = false := hok2
              have hcharX := (txoSweep_char l
                (l.next_txo_sid - (lastTxoOf c1).getD 0)
                ((lastTxoOf c1).getD 0) c1).2 hok2'
              rw [h2a'] at hcharX
              obtain ⟨j, hj1, hj2, habort, hrest⟩ := hcharX
              have hjlt : j < l.next_txo_sid := by omega
              have htxoB : txoSweep l c2 (txoRange l c2) = (c2, false) := by
                apply txoSweep_rerun_abort l c2 j habort hjlt
                rcases hrest with ⟨hweq, hcont⟩ | ⟨w, hwa, hwb, hw4, hnp, hcont⟩
                · left
                  constructor
                  · rw [hweq]
                    exact hj1
                  · intro i hi1 hi2
                    rw [hweq] at hi1
                    exact hcont i hi1 hi2
                · exact Or.inr ⟨w, hw4, hwb, hnp, hcont⟩
              have hrun2 := check_lost_data_some_true'
                { l with api_cache := some c2 } c2 c2 c2 false rfl
                (by rw [txnRange_cache_irrel, txnSweep_cache_irrel, htxnA])
                (by rw [txnRange_cache_irrel, txnSweep_cache_irrel, htxnA])
                (by rw [txoRange_cache_irrel, txoSweep_cache_irrel, htxoB])
                (by rw [txoRange_cache_irrel, txoSweep_cache_irrel, htxoB])
              rw [hrun2]

/-! ## The operation classifier -/

theorem mem_insertSet {α : Type} [DecidableEq α] (a x : α) (s : List α) :
    x ∈ insertSet a s ↔ x = a ∨ x ∈ s := by
  unfold insertSet
  by_cases h : a ∈ s
  · rw [if_pos h]
    constructor
    · exact Or.inr
    · rintro (rfl | hx)
      · exact h
      · exact hx
  · rw [if_neg h]
    exact List.mem_cons

theorem mem_collectInputAssets (inputs : List BlindAssetRecord)
    (acc : List AssetTypeCode) (x : AssetTypeCode) :
    x ∈ collectInputAssets inputs acc ↔
      x ∈ acc ∨ ∃ input ∈ inputs, input.asset_type.get_asset_type = some x.val := by
  induction inputs generalizing acc with
  | nil => simp [collectInputAssets]
  | cons input rest ih =>
      cases hg : input.asset_type.get_asset_type with
      | none =>
          have hstep : collectInputAssets (input :: rest) acc =
              collectInputAssets rest acc := by
            simp only [collectInputAssets, hg]
          rw [hstep, ih]
          constructor
          · rintro (hacc | ⟨i, hi, hgi⟩)
            · exact Or.inl hacc
            · exact Or.inr ⟨i, List.mem_cons_of_mem _ hi, hgi⟩
          · rintro (hacc | ⟨i, hi, hgi⟩)
            · exact Or.inl hacc
            · rcases List.mem_cons.mp hi with rfl | hir
              · rw [hg] at hgi
                simp at hgi
              · exact Or.inr ⟨i, hir, hgi⟩
      | some a =>
          have hstep : collectInputAssets (input :: rest) acc =
              collectInputAssets rest (insertSet ⟨a⟩ acc) := by
            simp only [collectInputAssets, hg]
          rw [hstep, ih, mem_insertSet]
          constructor
          · rintro ((rfl | hacc) | ⟨i, hi, hgi⟩)
            · exact Or.inr ⟨input, List.mem_cons_self _ _, by rw [hg]⟩
            · exact Or.inl hacc
            · exact Or.inr ⟨i, List.mem_cons_of_mem _ hi, hgi⟩
          · rintro (hacc | ⟨i, hi, hgi⟩)
            · exact Or.inl (Or.inr hacc)
            · rcases List.mem_cons.mp hi with rfl | hir
              · rw [hg] at hgi
                obtain ⟨rfl⟩ : a = x.val := by
                  exact (Option.some.injEq _ _).mp hgi
                exact Or.inl (Or.inl rfl)
              · exact Or.inr ⟨i, hir, hgi⟩

theorem mem_collectTransferredAssets (ops : List Operation)
    (acc : List AssetTypeCode) (x : AssetTypeCode) :
    x ∈ collectTransferredAssets ops acc ↔
      x ∈ acc ∨ ∃ t, Operation.TransferAsset t ∈ ops ∧
        ∃ input ∈ t.body.transfer.inputs,
          input.asset_type.get_asset_type = some x.val := by
  induction ops generalizing acc with
  | nil => simp [collectTransferredAssets]
  | cons op rest ih =>
      cases op with
      | TransferAsset t =>
          show x ∈ collectTransferredAssets rest
            (collectInputAssets t.body.transfer.inputs acc) ↔ _
          rw [ih, mem_collectInputAssets]
          constructor
          · rintro ((hacc | ⟨i, hi, hgi⟩) | ⟨t', ht', hin⟩)
            · exact Or.inl hacc
            · exact Or.inr ⟨t, List.mem_cons_self _ _, i, hi, hgi⟩
            · exact Or.inr ⟨t', List.mem_cons_of_mem _ ht', hin⟩
          · rintro (hacc | ⟨t', ht', i, hi, hgi⟩)
            · exact Or.inl (Or.inl hacc)
            · rcases List.mem_cons.mp ht' with heq | hr
              · obtain rfl : t' = t := by
                  cases heq
                  rfl
                exact Or.inl (Or.inr ⟨i, hi, hgi⟩)
              · exact Or.inr ⟨t', hr, i, hi, hgi⟩
      | DefineAsset d =>
          show x ∈ collectTransferredAssets rest acc ↔ _
          rw [ih]
          simp [List.mem_cons]
      | IssueAsset i =>
          show x ∈ collectTransferredAssets rest acc ↔ _
          rw [ih]
          simp [List.mem_cons]
      | UpdateMemo p =>
          show x ∈ collectTransferredAssets rest acc ↔ _
          rw [ih]
          simp [List.mem_cons]
      | ConvertAccount p =>
          show x ∈ collectTransferredAssets rest acc ↔ _
          rw [ih]
          simp [List.mem_cons]
      | UpdateStaker p =>
          show x ∈ collectTransferredAssets rest acc ↔ _
          rw [ih]
          simp [List.mem_cons]
      | ReplaceStaker p =>
          show x ∈ collectTransferredAssets rest acc ↔ _
          rw [ih]
          simp [List.mem_cons]
      | Delegation p =>
          show x ∈ collectTransferredAssets rest acc ↔ _
          rw [ih]
          simp [List.mem_cons]
      | UnDelegation p =>
          show x ∈ collectTransferredAssets rest acc ↔ _
          rw [ih]
          simp [List.mem_cons]
      | Claim p =>
          show x ∈ collectTransferredAssets rest acc ↔ _
          rw [ih]
          simp [List.mem_cons]
      | UpdateValidator p =>
          show x ∈ collectTransferredAssets rest acc ↔ _
          rw [ih]
          simp [List.mem_cons]
      | Governance p =>
          show x ∈ collectTransferredAssets rest acc ↔ _
          rw [ih]
          simp [List.mem_cons]
      | FraDistribution p =>
          show x ∈ collectTransferredAssets rest acc ↔ _
          rw [ih]
          simp [List.mem_cons]
      | MintFra p =>
          show x ∈ collectTransferredAssets rest acc ↔ _
          rw [ih]
          simp [List.mem_cons]

/-- `add_created_asset`, in closed form: the key is either the raw or the
prefixed code, and the stored definition is rewritten to carry it. -/
theorem add_created_asset_raw_eq (cfg : Config) (c : ApiCache) (da : DefineAsset)
    (cur_height : Nat)
    (hcond : da.body.asset.code.val = ASSET_TYPE_FRA ∨
      cfg.utxo_asset_prefix_height > cur_height) :
    add_created_asset cfg c da cur_height =
      { c with created_assets :=
          (mapInsert da.pubkey
            (mapInsert da.body.asset.code da
              ((mapGet da.pubkey c.created_assets).getD []))
            c.created_assets) } := by
  simp only [add_created_asset]
  rw [if_pos hcond]

theorem add_created_asset_pref_eq (cfg : Config) (c : ApiCache) (da : DefineAsset)
    (cur_height : Nat)
    (hcond : ¬(da.body.asset.code.val = ASSET_TYPE_FRA ∨
      cfg.utxo_asset_prefix_height > cur_height)) :
    add_created_asset cfg c da cur_height =
      { c with created_assets :=
          (mapInsert da.pubkey
            (mapInsert
              (from_prefix_and_raw_asset_type_code AssetTypeDomain.UserDefined
                da.body.asset.code)
              { da with body := { da.body with asset := { da.body.asset with
                  code := from_prefix_and_raw_asset_type_code
                    AssetTypeDomain.UserDefined da.body.asset.code } } }
              ((mapGet da.pubkey c.created_assets).getD []))
            c.created_assets) } := by
  simp only [add_created_asset]
  rw [if_neg hcond]

theorem add_created_asset_shape (cfg : Config) (c : ApiCache) (da : DefineAsset)
    (cur_height : Nat) :
    ∃ code : AssetTypeCode,
      (code = da.body.asset.code ∨
        code = from_prefix_and_raw_asset_type_code AssetTypeDomain.UserDefined
          da.body.asset.code) ∧
      add_created_asset cfg c da cur_height =
        { c with created_assets :=
            (mapInsert da.pubkey
              (mapInsert code
                { da with body := { da.body with asset := { da.body.asset with
                    code := code } } }
                ((mapGet da.pubkey c.created_assets).getD []))
              c.created_assets) } := by
  by_cases hcond : da.body.asset.code.val = ASSET_TYPE_FRA ∨
      cfg.utxo_asset_prefix_height > cur_height
  · exact ⟨da.body.asset.code, Or.inl rfl,
      add_created_asset_raw_eq cfg c da cur_height hcond⟩
  · exact ⟨_, Or.inr rfl, add_created_asset_pref_eq cfg c da cur_height hcond⟩

/-! ## Concrete instances used by the witnesses -/

/-- A concrete configuration: prefixed codes start at height 10. -/
def cfgW : Config := ⟨10⟩

/-- The empty cache. -/
def cacheW : ApiCache := ⟨[], [], [], [], [], [], [], [], []⟩

/-- A concrete non-native asset definition (raw code 3, issuer 9). -/
def daW : DefineAsset := ⟨⟨9⟩, ⟨⟨⟨3⟩, 0⟩⟩⟩

/-- The prefixed form of `daW`'s code. -/
def pcW : AssetTypeCode :=
  from_prefix_and_raw_asset_type_code AssetTypeDomain.UserDefined daW.body.asset.code

/-- `daW` rewritten to carry its storage-form (prefixed) code. -/
def daPcW : DefineAsset :=
  { daW with body := { daW.body with asset := { daW.body.asset with code := pcW } } }

/-- A concrete issuance output owned by key 7, revealed asset type 3. -/
def outW : TxOutput := ⟨⟨7, .nonConfidential 3⟩⟩

/-- Committed transaction 0: one issuance producing output 0 with owner memo 5. -/
def t0W : FinalizedTxn :=
  ⟨0, [0], ⟨[.IssueAsset ⟨⟨9⟩, ⟨⟨3⟩, [(outW, some 5)]⟩⟩], 10⟩⟩

/-- Committed transaction 1: zero outputs. -/
def t1W : FinalizedTxn := ⟨1, [], ⟨[], 11⟩⟩

/-- A concrete committed ledger: two transactions, one live output, one block,
a fresh (empty) API cache. -/
def LW : LedgerState :=
  { txns := [t0W, t1W]
    utxo_live := [(0, ⟨7, 0⟩)]
    utxo_spent := []
    next_txn_sid := 2
    next_txo_sid := 1
    blocks := [⟨[t0W, t1W]⟩]
    td_commit_height := 5
    api_cache := some cacheW }

theorem cacheW_created_inv : ∀ pk inner, mapGet pk cacheW.created_assets = some inner →
    ∀ k v, mapGet k inner = some v → v.body.asset.code = k := by
  intro pk inner h
  simp [cacheW, mapGet] at h

/-! ## Claims -/

/-- **C4.** `add_created_asset` stores a defined asset under its raw code when
the asset is the native fee asset (regardless of height) or the current height
is below the configured `utxo_asset_prefix_height`, and under the prefixed
code (domain prefix hashed with the raw code) for every other user-defined
asset created at or past that height. -/
theorem claim_C4_created_asset_storage_key (cfg : Config) (c : ApiCache)
    (da : DefineAsset) (cur_height : Nat) :
    ((da.body.asset.code.val = ASSET_TYPE_FRA ∨
        cur_height < cfg.utxo_asset_prefix_height) →
      mapGet da.body.asset.code
        ((mapGet da.pubkey
          (add_created_asset cfg c da cur_height).created_assets).getD [])
        = some da) ∧
    ((da.body.asset.code.val ≠ ASSET_TYPE_FRA ∧
        cfg.utxo_asset_prefix_height ≤ cur_height) →
      mapGet (from_prefix_and_raw_asset_type_code AssetTypeDomain.UserDefined
          da.body.asset.code)
        ((mapGet da.pubkey
          (add_created_asset cfg c da cur_height).created_assets).getD [])
        = some { da with body := { da.body with asset := { da.body.asset with
            code := from_prefix_and_raw_asset_type_code AssetTypeDomain.UserDefined
              da.body.asset.code } } }) := by
  constructor
  · intro h1
    rw [add_created_asset_raw_eq cfg c da cur_height h1]
    show mapGet da.body.asset.code
      ((mapGet da.pubkey (mapInsert da.pubkey
        (mapInsert da.body.asset.code da
          ((mapGet da.pubkey c.created_assets).getD []))
        c.created_assets)).getD []) = some da
    rw [mapGet_insert_self]
    show mapGet da.body.asset.code
      (mapInsert da.body.asset.code da
        ((mapGet da.pubkey c.created_assets).getD [])) = some da
    rw [mapGet_insert_self]
  · intro h2
    have hcond : ¬(da.body.asset.code.val = ASSET_TYPE_FRA ∨
        cfg.utxo_asset_prefix_height > cur_height) := by
      rintro (hfra | hlt)
      · exact h2.1 hfra
      · omega
    rw [add_created_asset_pref_eq cfg c da cur_height hcond]
    show mapGet (from_prefix_and_raw_asset_type_code AssetTypeDomain.UserDefined
        da.body.asset.code)
      ((mapGet da.pubkey (mapInsert da.pubkey
        (mapInsert (from_prefix_and_raw_asset_type_code AssetTypeDomain.UserDefined
            da.body.asset.code)
          { da with body := { da.body with asset := { da.body.asset with
              code := from_prefix_and_raw_asset_type_code AssetTypeDomain.UserDefined
                da.body.asset.code } } }
          ((mapGet da.pubkey c.created_assets).getD []))
        c.created_assets)).getD []) = _
    rw [mapGet_insert_self]
    show mapGet (from_prefix_and_raw_asset_type_code AssetTypeDomain.UserDefined
        da.body.asset.code)
      (mapInsert (from_prefix_and_raw_asset_type_code AssetTypeDomain.UserDefined
          da.body.asset.code)
        { da with body := { da.body with asset := { da.body.asset with
            code := from_prefix_and_raw_asset_type_code AssetTypeDomain.UserDefined
              da.body.asset.code } } }
        ((mapGet da.pubkey c.created_assets).getD [])) = _
    rw [mapGet_insert_self]

theorem claim_C4_witness :
    mapGet daW.body.asset.code
      ((mapGet daW.pubkey (add_created_asset cfgW cacheW daW 5).created_assets).getD [])
      = some daW ∧
    mapGet pcW
      ((mapGet daW.pubkey (add_created_asset cfgW cacheW daW 15).created_assets).getD [])
      = some daPcW :=
  ⟨(claim_C4_created_asset_storage_key cfgW cacheW daW 5).1 (Or.inr (by decide)),
   (claim_C4_created_asset_storage_key cfgW cacheW daW 15).2 ⟨by decide, by decide⟩⟩

/-- **C10.** `add_created_asset` keeps `created_assets` internally consistent:
every stored definition carries exactly the code it is keyed under, and the
entries of every other issuer are untouched. -/
theorem claim_C10_created_assets_consistent (cfg : Config) (c : ApiCache)
    (da : DefineAsset) (cur_height : Nat)
    (hinv : ∀ pk inner, mapGet pk c.created_assets = some inner →
      ∀ k v, mapGet k inner = some v → v.body.asset.code = k) :
    (∀ pk inner,
      mapGet pk (add_created_asset cfg c da cur_height).created_assets = some inner →
      ∀ k v, mapGet k inner = some v → v.body.asset.code = k) ∧
    (∀ pk, pk ≠ da.pubkey →
      mapGet pk (add_created_asset cfg c da cur_height).created_assets =
        mapGet pk c.created_assets) := by
  obtain ⟨code, _, heq⟩ := add_created_asset_shape cfg c da cur_height
  rw [heq]
  constructor
  · intro pk inner hpk k v hkv
    have hpk' : mapGet pk (mapInsert da.pubkey (mapInsert code
        { da with body := { da.body with asset := { da.body.asset with code := code } } }
        ((mapGet da.pubkey c.created_assets).getD [])) c.created_assets) =
        some inner := hpk
    by_cases hpkda : pk = da.pubkey
    · subst hpkda
      rw [mapGet_insert_self] at hpk'
      obtain rfl : mapInsert code
          { da with body := { da.body with asset := { da.body.asset with code := code } } }
          ((mapGet da.pubkey c.created_assets).getD []) = inner :=
        (Option.some.injEq _ _).mp hpk'
      by_cases hk : k = code
      · subst hk
        rw [mapGet_insert_self] at hkv
        obtain rfl : ({ da with body := { da.body with asset :=
            { da.body.asset with code := k } } } : DefineAsset) = v :=
          (Option.some.injEq _ _).mp hkv
        rfl
      · rw [mapGet_insert_ne _ _ hk] at hkv
        cases hi0 : mapGet da.pubkey c.created_assets with
        | none =>
            rw [hi0] at hkv
            simp [mapGet] at hkv
        | some i0 =>
            rw [hi0] at hkv
            exact hinv da.pubkey i0 hi0 k v hkv
    · rw [mapGet_insert_ne _ _ hpkda] at hpk'
      exact hinv pk inner hpk' k v hkv
  · intro pk hpk
    exact mapGet_insert_ne _ _ hpk

theorem claim_C10_witness :
    daPcW.body.asset.code = pcW ∧
    mapGet (⟨8⟩ : IssuerPublicKey)
        (add_created_asset cfgW cacheW daW 15).created_assets =
      mapGet (⟨8⟩ : IssuerPublicKey) cacheW.created_assets :=
  ⟨(claim_C10_created_assets_consistent cfgW cacheW daW 15 cacheW_created_inv).1
      daW.pubkey [(pcW, daPcW)] (by decide) pcW daPcW (by decide),
   (claim_C10_created_assets_consistent cfgW cacheW daW 15 cacheW_created_inv).2
      ⟨8⟩ (by decide)⟩

/-- **C8.** `get_transferred_nonconfidential_assets` returns exactly the asset
type codes of transfer-operation inputs whose asset type is revealed; transfer
outputs, confidential inputs and non-transfer operations contribute nothing. -/
theorem claim_C8_transferred_nonconfidential (txn : Transaction) (x : AssetTypeCode) :
    x ∈ get_transferred_nonconfidential_assets txn ↔
      ∃ t, Operation.TransferAsset t ∈ txn.operations ∧
        ∃ input ∈ t.body.transfer.inputs,
          input.asset_type.get_asset_type = some x.val := by
  unfold get_transferred_nonconfidential_assets
  rw [mem_collectTransferredAssets]
  simp

/-- **C9.** With `KEEP_HIST` unset, `update_api_cache` returns `Ok`
immediately and leaves the whole ledger state — in particular every API-cache
map and watermark — unchanged; with it set, it runs `check_lost_data` and then
indexes the latest block. -/
theorem claim_C9_keep_hist_gate :
    (∀ (cfg : Config) (l : LedgerState), update_api_cache cfg false l = (l, true)) ∧
    (∀ (cfg : Config) (l : LedgerState), update_api_cache cfg true l =
      (if (check_lost_data l).2 then updateBlockPhase cfg (check_lost_data l).1
       else ((check_lost_data l).1, false))) := by
  constructor
  · intro cfg l
    rfl
  · intro cfg l
    rfl

/-! ## C2: where the watermarks actually end up -/

/-- A successful lost-memo sweep over a non-empty range whose last index is a
live output ends with the `"last_txo_sid"` watermark at that last index. -/
theorem txoSweep_marks_last (l : LedgerState) (n b : Nat) (c : ApiCache)
    (hok : (txoSweep l c (List.range' b n)).2 = true) (hn : 0 < n)
    (hlive : getUtxo l (b + n - 1) ≠ none) :
    lastTxoOf (txoSweep l c (List.range' b n)).1 = some (b + n - 1) := by
  rcases ((txoSweep_char l) n b c).1 hok with ⟨_, hcont⟩ | ⟨w, _, hwb, hw4, _, hcont⟩
  · exact absurd (hcont (b + n - 1) (by omega) (by omega)).2 hlive
  · by_cases hw : w = b + n - 1
    · rw [← hw]
      exact hw4
    · exact absurd (hcont (b + n - 1) (by omega) (by omega)).2 hlive

/-- **C2 (counterexample).** On the two-transaction, one-output ledger `LW`
the repair pass succeeds, yet both watermarks end at the highest swept index
itself — the committed frontier minus one — not at `TxnSID+1` / `TxoSID+1`
(which here equal the frontiers 2 and 1). -/
theorem claim_C2_counterexample :
    (check_lost_data LW).2 = true ∧
    Option.map lastTxnOf (check_lost_data LW).1.api_cache =
      some (some (LW.next_txn_sid - 1)) ∧
    Option.map lastTxoOf (check_lost_data LW).1.api_cache =
      some (some (LW.next_txo_sid - 1)) ∧
    Option.map lastTxnOf (check_lost_data LW).1.api_cache ≠
      some (some LW.next_txn_sid) ∧
    Option.map lastTxoOf (check_lost_data LW).1.api_cache ≠
      some (some LW.next_txo_sid) := by
  decide

/-- **C2 (amended).** After a successful `check_lost_data` run that actually
swept a non-empty range on each side (both frontiers strictly above the
incoming watermark defaults) and whose last output is still live, the
`"last_txn_sid"` watermark equals the committed frontier **minus one** (the
highest indexed `TxnSID`, with no `+1`), and likewise `"last_txo_sid"` equals
the output frontier minus one. -/
theorem claim_C2_watermarks (l : LedgerState) (c : ApiCache)
    (hc : l.api_cache = some c)
    (hok : (check_lost_data l).2 = true)
    (hn : (lastTxnOf c).getD 0 < l.next_txn_sid)
    (ho : (lastTxoOf c).getD 0 < l.next_txo_sid)
    (hlive : getUtxo l (l.next_txo_sid - 1) ≠ none) :
    ∃ c2, (check_lost_data l).1.api_cache = some c2 ∧
      lastTxnOf c2 = some (l.next_txn_sid - 1) ∧
      lastTxoOf c2 = some (l.next_txo_sid - 1) := by
  by_cases h1 : (txnSweep l c (txnRange l c)).2 = true
  · rw [check_lost_data_some_true l c hc h1] at hok ⊢
    have hok2 : (txoSweep l (txnSweep l c (txnRange l c)).1
        (txoRange l (txnSweep l c (txnRange l c)).1)).2 = true := hok
    refine ⟨(txoSweep l (txnSweep l c (txnRange l c)).1
        (txoRange l (txnSweep l c (txnRange l c)).1)).1, rfl, ?_, ?_⟩
    · have h1' : (txnSweep l c (List.range' ((lastTxnOf c).getD 0)
          (l.next_txn_sid - (lastTxnOf c).getD 0))).2 = true := h1
      rcases txnSweep_char l (l.next_txn_sid - (lastTxnOf c).getD 0)
          ((lastTxnOf c).getD 0) c h1' with ⟨hn0, _⟩ | ⟨_, hw, _⟩
      · omega
      · have hw1 : lastTxnOf (txnSweep l c (txnRange l c)).1 =
            some ((lastTxnOf c).getD 0 +
              (l.next_txn_sid - (lastTxnOf c).getD 0) - 1) := hw
        have hfr := (txoSweep_frame l (txnSweep l c (txnRange l c)).1
          (txoRange l (txnSweep l c (txnRange l c)).1)).2.2.2.2.2
        show mapGet "last_txn_sid" (txoSweep l (txnSweep l c (txnRange l c)).1
          (txoRange l (txnSweep l c (txnRange l c)).1)).1.last_sid =
            some (l.next_txn_sid - 1)
        rw [hfr]
        have : (lastTxnOf c).getD 0 + (l.next_txn_sid - (lastTxnOf c).getD 0) - 1 =
            l.next_txn_sid - 1 := by omega
        rw [← this]
        exact hw1
    · have hkeep : lastTxoOf (txnSweep l c (txnRange l c)).1 = lastTxoOf c :=
        (txnSweep_frame l c (txnRange l c)).2.2.2.2.2.2
      have hb : (lastTxoOf (txnSweep l c (txnRange l c)).1).getD 0 =
          (lastTxoOf c).getD 0 := by rw [hkeep]
      have hok2' : (txoSweep l (txnSweep l c (txnRange l c)).1
          (List.range' ((lastTxoOf (txnSweep l c (txnRange l c)).1).getD 0)
            (l.next_txo_sid -
              (lastTxoOf (txnSweep l c (txnRange l c)).1).getD 0))).2 = true := hok2
      have hmk := txoSweep_marks_last l
        (l.next_txo_sid - (lastTxoOf (txnSweep l c (txnRange l c)).1).getD 0)
        ((lastTxoOf (txnSweep l c (txnRange l c)).1).getD 0)
        (txnSweep l c (txnRange l c)).1 hok2' (by omega)
        (by
          have : (lastTxoOf (txnSweep l c (txnRange l c)).1).getD 0 +
              (l.next_txo_sid -
                (lastTxoOf (txnSweep l c (txnRange l c)).1).getD 0) - 1 =
              l.next_txo_sid - 1 := by omega
          rw [this]
          exact hlive)
      have : (lastTxoOf (txnSweep l c (txnRange l c)).1).getD 0 +
          (l.next_txo_sid - (lastTxoOf (txnSweep l c (txnRange l c)).1).getD 0) - 1 =
          l.next_txo_sid - 1 := by omega
      rw [this] at hmk
      exact hmk
  · have h1f : (txnSweep l c (txnRange l c)).2 = false := by
      revert h1
      cases (txnSweep l c (txnRange l c)).2 <;> simp
    rw [check_lost_data_some_false l c hc h1f] at hok
    simp at hok

theorem claim_C2_witness :
    ∃ c2, (check_lost_data LW).1.api_cache = some c2 ∧
      lastTxnOf c2 = some (LW.next_txn_sid - 1) ∧
      lastTxoOf c2 = some (LW.next_txo_sid - 1) :=
  claim_C2_watermarks LW cacheW (by decide) (by decide) (by decide) (by decide)
    (by decide)

/-- **C7.** In the lost-memo repair sweep: an index whose output is no longer
in the UTXO store is skipped and the sweep continues, with the cache (and so
the watermark) untouched; a step that fails leaves the cache exactly as it
was, so the watermark is never written on an error; and when the whole sweep
aborts, it does so at an index `j` whose rebuild failed, with the final
watermark either still the incoming one or strictly below `j` — never past
the failing index. -/
theorem claim_C7_skip_and_watermark (l : LedgerState) (c : ApiCache) :
    (∀ i, (mapGet i c.owner_memos).isSome = false → getUtxo l i = none →
      txoSweepStep l c i = (c, true)) ∧
    (∀ i, (txoSweepStep l c i).2 = false → (txoSweepStep l c i).1 = c) ∧
    (∀ n b, (txoSweep l c (List.range' b n)).2 = false →
      ∃ j, b ≤ j ∧ j < b + n ∧
        AbortAt l (txoSweep l c (List.range' b n)).1 j ∧
        (∀ v, lastTxoOf (txoSweep l c (List.range' b n)).1 = some v →
          lastTxoOf c = some v ∨ v < j)) := by
  refine ⟨fun i h hu => txoSweepStep_cont l c i h hu, ?_, ?_⟩
  · intro i hfail
    by_cases hm : (mapGet i c.owner_memos).isSome = true
    · rw [txoSweepStep_skip l c i hm] at hfail
      simp at hfail
    · have hmF : (mapGet i c.owner_memos).isSome = false := by
        revert hm
        cases (mapGet i c.owner_memos).isSome <;> simp
      cases hu : getUtxo l i with
      | none =>
          rw [txoSweepStep_cont l c i hmF hu] at hfail
          simp at hfail
      | some u =>
          cases ht : getTransactionLight l u.tx_id with
          | none => rw [txoSweepStep_abort1 l c i u hmF hu ht]
          | some f =>
              cases ha : collectOpt (addrOf l) f.txo_ids with
              | none => rw [txoSweepStep_abort2 l c i u f hmF hu ht ha]
              | some addrs =>
                  rw [txoSweepStep_rebuild l c i u f addrs hmF hu ht ha] at hfail
                  simp at hfail
  · intro n b hfail
    obtain ⟨j, hj1, hj2, habort, hrest⟩ := ((txoSweep_char l) n b c).2 hfail
    refine ⟨j, hj1, hj2, habort, ?_⟩
    intro v hv
    rcases hrest with ⟨hweq, _⟩ | ⟨w, _, hwj, hw4, _, _⟩
    · left
      rw [← hweq]
      exact hv
    · right
      have hwv : w = v := Option.some.inj (hw4.symm.trans hv)
      omega

theorem claim_C7_witness : txoSweepStep LW cacheW 5 = (cacheW, true) :=
  (claim_C7_skip_and_watermark LW cacheW).1 5 (by decide) (by decide)

/-! ## C5: the two transaction-hash maps are mutually inverse -/

/-- Collision-freedom of the transaction hash over the committed ledger: two
committed transactions with the same hex hash sit at the same serial id. -/
def HashInj (l : LedgerState) : Prop :=
  ∀ s1 s2 f1 f2, getTransactionLight l s1 = some f1 →
    getTransactionLight l s2 = some f2 →
    hashHex f1.txn = hashHex f2.txn → s1 = s2

/-- The forward and backward hash maps are consistent: every forward entry
holds the hash of its committed transaction, and looking that hash up in the
backward map returns the serial id. -/
def HashMapsOk (l : LedgerState) (sth : List (Nat × String))
    (hts : List (String × Nat)) : Prop :=
  ∀ s h, mapGet s sth = some h →
    (∃ f, getTransactionLight l s = some f ∧ h = hashHex f.txn) ∧
    mapGet h hts = some s

def CacheHashOk (l : LedgerState) (c : ApiCache) : Prop :=
  HashMapsOk l c.txn_sid_to_hash c.txn_hash_to_sid

/-- Inserting the pair of a committed transaction into both maps preserves
their consistency, given collision-freedom. -/
theorem hashMapsOk_insert (l : LedgerState) (sth : List (Nat × String))
    (hts : List (String × Nat)) (i : Nat) (f : FinalizedTxn)
    (hinj : HashInj l) (ht : getTransactionLight l i = some f)
    (hok : HashMapsOk l sth hts) :
    HashMapsOk l (mapInsert i (hashHex f.txn) sth)
      (mapInsert (hashHex f.txn) i hts) := by
  intro s h hs
  by_cases hsi : s = i
  · subst hsi
    rw [mapGet_insert_self] at hs
    obtain rfl : hashHex f.txn = h := Option.some.inj hs
    exact ⟨⟨f, ht, rfl⟩, mapGet_insert_self _ _ _⟩
  · rw [mapGet_insert_ne _ _ hsi] at hs
    obtain ⟨⟨f2, hf2, hh2⟩, hback⟩ := hok s h hs
    by_cases hcol : h = hashHex f.txn
    · exact absurd (hinj s i f2 f hf2 ht (hh2 ▸ hcol)) hsi
    · exact ⟨⟨f2, hf2, hh2⟩, by rw [mapGet_insert_ne _ _ hcol]; exact hback⟩

/-- The lost-txn step preserves the hash-map consistency. -/
theorem txnSweepStep_hashOk (l : LedgerState) (c : ApiCache) (i : Nat)
    (hinj : HashInj l) (hok : CacheHashOk l c) :
    CacheHashOk l (txnSweepStep l c i).1 := by
  cases hm : (mapGet i c.txn_sid_to_hash).isSome with
  | true =>
      rw [txnSweepStep_skip l c i hm]
      exact hok
  | false =>
      have hmn : mapGet i c.txn_sid_to_hash = none := by
        cases hx : mapGet i c.txn_sid_to_hash
        · rfl
        · rw [hx] at hm
          simp at hm
      cases ht : getTransactionLight l i with
      | none =>
          rw [txnSweepStep_abort l c i hmn ht]
          exact hok
      | some f =>
          rw [txnSweepStep_install l c i f hmn ht]
          show HashMapsOk l (mapInsert i (hashHex f.txn) c.txn_sid_to_hash)
            (mapInsert (hashHex f.txn) i c.txn_hash_to_sid)
          exact hashMapsOk_insert l _ _ i f hinj ht hok

theorem txnSweep_hashOk (l : LedgerState) (hinj : HashInj l) :
    ∀ (is : List Nat) (c : ApiCache), CacheHashOk l c →
      CacheHashOk l (txnSweep l c is).1 := by
  intro is
  induction is with
  | nil => exact fun c hok => hok
  | cons i rest ih =>
      intro c hok
      rw [txnSweep_cons]
      split
      · exact ih _ (txnSweepStep_hashOk l c i hinj hok)
      · exact txnSweepStep_hashOk l c i hinj hok

/-- The lost-memo sweep never touches the hash maps. -/
theorem txoSweep_hashOk (l : LedgerState) (c : ApiCache) (is : List Nat)
    (hok : CacheHashOk l c) : CacheHashOk l (txoSweep l c is).1 := by
  unfold CacheHashOk
  rw [(txoSweep_frame l c is).1, (txoSweep_frame l c is).2.1]
  exact hok

/-- Neither the asset-definition nor the issuance recording touches the hash
maps. -/
theorem applyOps_hash_frame (cfg : Config) (hh : Nat) :
    ∀ (ops : List Operation) (c : ApiCache),
      (applyOps cfg hh c ops).txn_sid_to_hash = c.txn_sid_to_hash ∧
      (applyOps cfg hh c ops).txn_hash_to_sid = c.txn_hash_to_sid := by
  intro ops
  induction ops with
  | nil => exact fun c => ⟨rfl, rfl⟩
  | cons op rest ih =>
      intro c
      cases op with
      | DefineAsset da =>
          obtain ⟨code, _, heq⟩ := add_created_asset_shape cfg c da hh
          show (applyOps cfg hh (add_created_asset cfg c da hh) rest).txn_sid_to_hash =
              c.txn_sid_to_hash ∧
            (applyOps cfg hh (add_created_asset cfg c da hh) rest).txn_hash_to_sid =
              c.txn_hash_to_sid
          rw [heq]
          obtain ⟨h1, h2⟩ := ih _
          exact ⟨h1, h2⟩
      | IssueAsset ia =>
          show (applyOps cfg hh (cache_issuance c ia) rest).txn_sid_to_hash =
              c.txn_sid_to_hash ∧
            (applyOps cfg hh (cache_issuance c ia) rest).txn_hash_to_sid =
              c.txn_hash_to_sid
          obtain ⟨h1, h2⟩ := ih (cache_issuance c ia)
          exact ⟨h1, h2⟩
      | TransferAsset t => exact ih c
      | UpdateMemo p => exact ih c
      | ConvertAccount p => exact ih c
      | UpdateStaker p => exact ih c
      | ReplaceStaker p => exact ih c
      | Delegation p => exact ih c
      | UnDelegation p => exact ih c
      | Claim p => exact ih c
      | UpdateValidator p => exact ih c
      | Governance p => exact ih c
      | FraDistribution p => exact ih c
      | MintFra p => exact ih c

/-- One step of the per-output block write, as an equation. -/
theorem writeBlockTxos_cons (tid : Nat) (hs : String) (c : ApiCache)
    (sid : Nat) (addr : XfrAddress) (memo : Option OwnerMemo)
    (rest : List (Nat × (XfrAddress × Option OwnerMemo))) :
    writeBlockTxos tid hs c ((sid, (addr, memo)) :: rest) =
      writeBlockTxos tid hs
        (let ca := { c with utxos_to_map_index := mapInsert sid addr c.utxos_to_map_index }
         let cb := { ca with txo_to_txnid := mapInsert sid (tid, hs) ca.txo_to_txnid }
         let cc := { cb with txn_sid_to_hash := mapInsert tid hs cb.txn_sid_to_hash }
         let cd := { cc with txn_hash_to_sid := mapInsert hs tid cc.txn_hash_to_sid }
         match memo with
         | some owner_memo => { cd with owner_memos := mapInsert sid owner_memo cd.owner_memos }
         | none => cd) rest := rfl

/-- The per-output block write keeps the hash maps consistent: each iteration
re-inserts the pair of the (committed) indexed transaction. -/
theorem writeBlockTxos_hashOk (l : LedgerState) (tid : Nat) (f : FinalizedTxn)
    (hinj : HashInj l) (ht : getTransactionLight l tid = some f) :
    ∀ (ts : List (Nat × (XfrAddress × Option OwnerMemo))) (c : ApiCache),
      CacheHashOk l c →
      CacheHashOk l (writeBlockTxos tid (hashHex f.txn) c ts) := by
  intro ts
  induction ts with
  | nil => exact fun c hok => hok
  | cons p rest ih =>
      intro c hok
      obtain ⟨sid, addr, memo⟩ := p
      cases memo with
      | none =>
          rw [writeBlockTxos_cons]
          apply ih
          show HashMapsOk l (mapInsert tid (hashHex f.txn) c.txn_sid_to_hash)
            (mapInsert (hashHex f.txn) tid c.txn_hash_to_sid)
          exact hashMapsOk_insert l _ _ tid f hinj ht hok
      | some m =>
          rw [writeBlockTxos_cons]
          apply ih
          show HashMapsOk l (mapInsert tid (hashHex f.txn) c.txn_sid_to_hash)
            (mapInsert (hashHex f.txn) tid c.txn_hash_to_sid)
          exact hashMapsOk_insert l _ _ tid f hinj ht hok

theorem processBlockTxn_hashOk (cfg : Config) (l : LedgerState) (c : ApiCache)
    (v : FinalizedTxn) (hinj : HashInj l) (hok : CacheHashOk l c) :
    CacheHashOk l (processBlockTxn cfg l c v).1 := by
  unfold processBlockTxn
  cases ht : getTransactionLight l v.tx_id with
  | none => exact hok
  | some ftl =>
      cases ha : collectOpt (addrOf l) v.txo_ids with
      | none =>
          simp only [ha]
          exact hok
      | some addrs =>
          simp only [ha]
          apply writeBlockTxos_hashOk l v.tx_id ftl hinj ht
          unfold CacheHashOk
          rw [(applyOps_hash_frame cfg l.td_commit_height ftl.txn.operations c).1,
            (applyOps_hash_frame cfg l.td_commit_height ftl.txn.operations c).2]
          exact hok

theorem blockSweep_cons (cfg : Config) (l : LedgerState) (c : ApiCache)
    (v : FinalizedTxn) (rest : List FinalizedTxn) :
    blockSweep cfg l c (v :: rest) =
      (if (processBlockTxn cfg l c v).2 then
        blockSweep cfg l (processBlockTxn cfg l c v).1 rest
       else ((processBlockTxn cfg l c v).1, false)) := rfl

theorem blockSweep_hashOk (cfg : Config) (l : LedgerState) (hinj : HashInj l) :
    ∀ (vs : List FinalizedTxn) (c : ApiCache), CacheHashOk l c →
      CacheHashOk l (blockSweep cfg l c vs).1 := by
  intro vs
  induction vs with
  | nil => exact fun c hok => hok
  | cons v rest ih =>
      intro c hok
      rw [blockSweep_cons]
      split
      · exact ih _ (processBlockTxn_hashOk cfg l c v hinj hok)
      · exact processBlockTxn_hashOk cfg l c v hinj hok

theorem updateBlockPhase_hashOk (cfg : Config) (L : LedgerState) (hinj : HashInj L)
    (hok : ∀ c, L.api_cache = some c → CacheHashOk L c) :
    ∀ c2, (updateBlockPhase cfg L).1.api_cache = some c2 → CacheHashOk L c2 := by
  intro c2 hc2
  unfold updateBlockPhase at hc2
  cases hb : L.blocks.getLast? with
  | none =>
      simp only [hb] at hc2
      exact hok c2 hc2
  | some block =>
      simp only [hb] at hc2
      cases hc : L.api_cache with
      | none =>
          simp only [hc] at hc2
          exact Option.noConfusion hc2
      | some c =>
          simp only [hc] at hc2
          obtain rfl : (blockSweep cfg L c block.txns).1 = c2 := Option.some.inj hc2
          exact blockSweep_hashOk cfg L hinj block.txns c (hok c hc)

/-- `check_lost_data` rewrites only the cache: every other ledger field — in
particular the committed transaction list — survives. -/
theorem check_lost_data_txns (l : LedgerState) : (check_lost_data l).1.txns = l.txns := by
  cases hc : l.api_cache with
  | none => rw [check_lost_data_none l hc]
  | some c =>
      by_cases h1 : (txnSweep l c (txnRange l c)).2 = true
      · rw [check_lost_data_some_true l c hc h1]
      · have h1f : (txnSweep l c (txnRange l c)).2 = false := by
          revert h1
          cases (txnSweep l c (txnRange l c)).2 <;> simp
        rw [check_lost_data_some_false l c hc h1f]

theorem getTransactionLight_txns_eq (l1 l2 : LedgerState) (h : l1.txns = l2.txns)
    (sid : Nat) : getTransactionLight l1 sid = getTransactionLight l2 sid := by
  unfold getTransactionLight
  rw [h]

theorem HashInj_congr (l1 l2 : LedgerState) (h : l1.txns = l2.txns)
    (hinj : HashInj l2) : HashInj l1 := by
  intro s1 s2 f1 f2 h1 h2 hh
  rw [getTransactionLight_txns_eq l1 l2 h] at h1 h2
  exact hinj s1 s2 f1 f2 h1 h2 hh

theorem CacheHashOk_congr (l1 l2 : LedgerState) (c : ApiCache) (h : l1.txns = l2.txns)
    (hok : CacheHashOk l2 c) : CacheHashOk l1 c := by
  intro s hv hs
  obtain ⟨⟨f, hf, hhf⟩, hback⟩ := hok s hv hs
  exact ⟨⟨f, by rw [getTransactionLight_txns_eq l1 l2 h]; exact hf, hhf⟩, hback⟩

/-- A committed-transaction list whose hex hashes are pairwise distinct is
collision-free in the sense of `HashInj`. -/
theorem HashInj_of_nodup_hashes (l : LedgerState)
    (hn : (l.txns.map (fun f => hashHex f.txn)).Nodup) : HashInj l := by
  intro s1 s2 f1 f2 h1 h2 hh
  have h1' : l.txns.find? (fun f => f.tx_id == s1) = some f1 := h1
  have h2' : l.txns.find? (fun f => f.tx_id == s2) = some f2 := h2
  have e1 : f1.tx_id = s1 := by simpa using List.find?_some h1'
  have e2 : f2.tx_id = s2 := by simpa using List.find?_some h2'
  have m1 : f1 ∈ l.txns := List.mem_of_find?_eq_some h1'
  have m2 : f2 ∈ l.txns := List.mem_of_find?_eq_some h2'
  have : f1 = f2 := List.inj_on_of_nodup_map hn m1 m2 hh
  rw [← e1, ← e2, this]

/-- **C5.** Starting from a cache whose two hash maps are consistent (for
instance an empty one), both the repair pass `check_lost_data` and the full
update path `update_api_cache` (with `KEEP_HIST`) keep them mutually inverse:
every `txn_sid_to_hash` entry holds the hash of its committed transaction and
`txn_hash_to_sid[txn_sid_to_hash[s]] = s` — provided the transaction hash is
collision-free on the committed ledger. -/
theorem claim_C5_hash_maps_inverse (cfg : Config) (l : LedgerState)
    (hinj : HashInj l)
    (hok : ∀ c, l.api_cache = some c → CacheHashOk l c) :
    (∀ c2, (check_lost_data l).1.api_cache = some c2 → CacheHashOk l c2) ∧
    (∀ c2, (update_api_cache cfg true l).1.api_cache = some c2 →
      CacheHashOk l c2) := by
  have hrepair : ∀ c2, (check_lost_data l).1.api_cache = some c2 → CacheHashOk l c2 := by
    intro c2 hc2
    cases hc : l.api_cache with
    | none =>
        rw [check_lost_data_none l hc] at hc2
        have : l.api_cache = some c2 := hc2
        rw [hc] at this
        cases this
    | some c =>
        by_cases h1 : (txnSweep l c (txnRange l c)).2 = true
        · rw [check_lost_data_some_true l c hc h1] at hc2
          have : some (txoSweep l (txnSweep l c (txnRange l c)).1
              (txoRange l (txnSweep l c (txnRange l c)).1)).1 = some c2 := hc2
          obtain rfl := Option.some.inj this
          exact txoSweep_hashOk l _ _ (txnSweep_hashOk l hinj _ c (hok c hc))
        · have h1f : (txnSweep l c (txnRange l c)).2 = false := by
            revert h1
            cases (txnSweep l c (txnRange l c)).2 <;> simp
          rw [check_lost_data_some_false l c hc h1f] at hc2
          have : some (txnSweep l c (txnRange l c)).1 = some c2 := hc2
          obtain rfl := Option.some.inj this
          exact txnSweep_hashOk l hinj _ c (hok c hc)
  refine ⟨hrepair, ?_⟩
  intro c2 hc2
  have hu : update_api_cache cfg true l =
      (if (check_lost_data l).2 then updateBlockPhase cfg (check_lost_data l).1
       else ((check_lost_data l).1, false)) := rfl
  rw [hu] at hc2
  have htx := check_lost_data_txns l
  by_cases hcl : (check_lost_data l).2 = true
  · rw [if_pos hcl] at hc2
    have hphase := updateBlockPhase_hashOk cfg (check_lost_data l).1
      (HashInj_congr _ l htx hinj)
      (fun c hc => CacheHashOk_congr _ l c htx (hrepair c hc)) c2 hc2
    exact CacheHashOk_congr l (check_lost_data l).1 c2 (by rw [htx]) hphase
  · rw [if_neg hcl] at hc2
    exact hrepair c2 hc2

theorem claim_C5_witness :
    ∃ c2, (check_lost_data LW).1.api_cache = some c2 ∧ CacheHashOk LW c2 := by
  obtain ⟨c2, hc2⟩ := Option.isSome_iff_exists.mp
    (by decide : ((check_lost_data LW).1.api_cache).isSome = true)
  refine ⟨c2, hc2, (claim_C5_hash_maps_inverse cfgW LW
    (HashInj_of_nodup_hashes LW (by decide)) ?_).1 c2 hc2⟩
  intro c hc
  have hc' : some cacheW = some c := hc
  obtain rfl := Option.some.inj hc'
  intro s h hs
  simp [cacheW, mapGet] at hs

/-! ## C1: every output of the last block ends up fully indexed -/

/-- The lost-txn step never removes a hash entry. -/
theorem txnSweepStep_hash_mono (l : LedgerState) (c : ApiCache) (i k : Nat)
    (hk : (mapGet k c.txn_sid_to_hash).isSome = true) :
    (mapGet k (txnSweepStep l c i).1.txn_sid_to_hash).isSome = true := by
  cases hm : (mapGet i c.txn_sid_to_hash).isSome with
  | true =>
      rw [txnSweepStep_skip l c i hm]
      exact hk
  | false =>
      have hmn : mapGet i c.txn_sid_to_hash = none := by
        cases hx : mapGet i c.txn_sid_to_hash
        · rfl
        · rw [hx] at hm
          simp at hm
      cases ht : getTransactionLight l i with
      | none =>
          rw [txnSweepStep_abort l c i hmn ht]
          exact hk
      | some f =>
          rw [txnSweepStep_install l c i f hmn ht]
          show (mapGet k (mapInsert i (hashHex f.txn) c.txn_sid_to_hash)).isSome = true
          exact isSome_mapGet_insert k i _ _ hk

theorem txnSweep_hash_mono (l : LedgerState) (is : List Nat) (k : Nat) :
    ∀ c, (mapGet k c.txn_sid_to_hash).isSome = true →
      (mapGet k (txnSweep l c is).1.txn_sid_to_hash).isSome = true := by
  induction is with
  | nil => exact fun c hk => hk
  | cons i rest ih =>
      intro c hk
      rw [txnSweep_cons]
      split
      · exact ih _ (txnSweepStep_hash_mono l c i k hk)
      · exact txnSweepStep_hash_mono l c i k hk

/-- A successful lost-txn sweep leaves a hash entry at every swept index. -/
theorem txnSweep_covers (l : LedgerState) :
    ∀ (n a : Nat) (c : ApiCache), (txnSweep l c (List.range' a n)).2 = true →
      ∀ i, a ≤ i → i < a + n →
        (mapGet i (txnSweep l c (List.range' a n)).1.txn_sid_to_hash).isSome = true := by
  intro n
  induction n with
  | zero => intro a c _ i h1 h2; omega
  | succ n ih =>
      intro a c hok i h1 h2
      rw [List.range'_succ, txnSweep_cons] at hok ⊢
      by_cases hb : (txnSweepStep l c a).2 = true
      · rw [if_pos hb] at hok ⊢
        by_cases hia : i = a
        · subst hia
          exact txnSweep_hash_mono l _ i _ (txnSweepStep_ok_marks l c i hb).2
        · exact ih (a + 1) _ hok i (by omega) (by omega)
      · rw [if_neg hb] at hok
        simp at hok

/-- Neither pass of the asset/issuance loop touches the output or hash
indexes. -/
theorem applyOps_frame (cfg : Config) (hh : Nat) :
    ∀ (ops : List Operation) (c : ApiCache),
      (applyOps cfg hh c ops).utxos_to_map_index = c.utxos_to_map_index ∧
      (applyOps cfg hh c ops).txo_to_txnid = c.txo_to_txnid ∧
      (applyOps cfg hh c ops).owner_memos = c.owner_memos ∧
      (applyOps cfg hh c ops).last_sid = c.last_sid := by
  intro ops
  induction ops with
  | nil => exact fun c => ⟨rfl, rfl, rfl, rfl⟩
  | cons op rest ih =>
      intro c
      cases op with
      | DefineAsset da =>
          obtain ⟨code, _, heq⟩ := add_created_asset_shape cfg c da hh
          show (applyOps cfg hh (add_created_asset cfg c da hh) rest).utxos_to_map_index =
              c.utxos_to_map_index ∧
            (applyOps cfg hh (add_created_asset cfg c da hh) rest).txo_to_txnid =
              c.txo_to_txnid ∧
            (applyOps cfg hh (add_created_asset cfg c da hh) rest).owner_memos =
              c.owner_memos ∧
            (applyOps cfg hh (add_created_asset cfg c da hh) rest).last_sid = c.last_sid
          rw [heq]
          exact ih _
      | IssueAsset ia => exact ih (cache_issuance c ia)
      | TransferAsset t => exact ih c
      | UpdateMemo p => exact ih c
      | ConvertAccount p => exact ih c
      | UpdateStaker p => exact ih c
      | ReplaceStaker p => exact ih c
      | Delegation p => exact ih c
      | UnDelegation p => exact ih c
      | Claim p => exact ih c
      | UpdateValidator p => exact ih c
      | Governance p => exact ih c
      | FraDistribution p => exact ih c
      | MintFra p => exact ih c

/-- The per-output writes of a block transaction leave any slot outside its
output list untouched. -/
theorem writeBlockTxos_txo_preserve (tid : Nat) (hs : String) (o : Nat) :
    ∀ (ts : List (Nat × (XfrAddress × Option OwnerMemo))) (c : ApiCache),
      (∀ q ∈ ts, q.1 ≠ o) →
      mapGet o (writeBlockTxos tid hs c ts).utxos_to_map_index =
        mapGet o c.utxos_to_map_index ∧
      mapGet o (writeBlockTxos tid hs c ts).txo_to_txnid = mapGet o c.txo_to_txnid ∧
      mapGet o (writeBlockTxos tid hs c ts).owner_memos = mapGet o c.owner_memos := by
  intro ts
  induction ts with
  | nil => exact fun c _ => ⟨rfl, rfl, rfl⟩
  | cons p rest ih =>
      intro c hq
      obtain ⟨sid, addr, memo⟩ := p
      have hos : o ≠ sid :=
        fun h => hq (sid, (addr, memo)) (List.mem_cons_self _ _) h.symm
      cases memo with
      | none =>
          rw [writeBlockTxos_cons]
          obtain ⟨h1, h2, h3⟩ := ih _ (fun q hqr => hq q (List.mem_cons_of_mem _ hqr))
          refine ⟨h1.trans ?_, h2.trans ?_, h3.trans ?_⟩
          · show mapGet o (mapInsert sid addr c.utxos_to_map_index) =
              mapGet o c.utxos_to_map_index
            exact mapGet_insert_ne _ _ hos
          · show mapGet o (mapInsert sid (tid, hs) c.txo_to_txnid) =
              mapGet o c.txo_to_txnid
            exact mapGet_insert_ne _ _ hos
          · rfl
      | some m =>
          rw [writeBlockTxos_cons]
          obtain ⟨h1, h2, h3⟩ := ih _ (fun q hqr => hq q (List.mem_cons_of_mem _ hqr))
          refine ⟨h1.trans ?_, h2.trans ?_, h3.trans ?_⟩
          · show mapGet o (mapInsert sid addr c.utxos_to_map_index) =
              mapGet o c.utxos_to_map_index
            exact mapGet_insert_ne _ _ hos
          · show mapGet o (mapInsert sid (tid, hs) c.txo_to_txnid) =
              mapGet o c.txo_to_txnid
            exact mapGet_insert_ne _ _ hos
          · show mapGet o (mapInsert sid m c.owner_memos) = mapGet o c.owner_memos
            exact mapGet_insert_ne _ _ hos

/-- With pairwise-distinct output ids, the per-output writes install exactly
the address and the transaction pointer of every listed output. -/
theorem writeBlockTxos_install (tid : Nat) (hs : String) :
    ∀ (ts : List (Nat × (XfrAddress × Option OwnerMemo))) (c : ApiCache),
      (ts.map Prod.fst).Nodup →
      ∀ q ∈ ts,
        mapGet q.1 (writeBlockTxos tid hs c ts).utxos_to_map_index = some q.2.1 ∧
        mapGet q.1 (writeBlockTxos tid hs c ts).txo_to_txnid = some (tid, hs) := by
  intro ts
  induction ts with
  | nil => intro c _ q hq; exact absurd hq (List.not_mem_nil q)
  | cons p rest ih =>
      intro c hnd q hq
      obtain ⟨sid, addr, memo⟩ := p
      rw [List.map_cons] at hnd
      rcases List.mem_cons.mp hq with hqp | hqr
      · subst hqp
        have hrest : ∀ r ∈ rest, r.1 ≠ sid := by
          intro r hr heq
          have hmm : r.1 ∈ rest.map Prod.fst := List.mem_map_of_mem Prod.fst hr
          rw [heq] at hmm
          exact (List.nodup_cons.mp hnd).1 hmm
        cases memo with
        | none =>
            rw [writeBlockTxos_cons]
            obtain ⟨h1, h2, _⟩ := writeBlockTxos_txo_preserve tid hs sid rest _ hrest
            refine ⟨h1.trans ?_, h2.trans ?_⟩
            · show mapGet sid (mapInsert sid addr c.utxos_to_map_index) = some addr
              exact mapGet_insert_self _ _ _
            · show mapGet sid (mapInsert sid (tid, hs) c.txo_to_txnid) = some (tid, hs)
              exact mapGet_insert_self _ _ _
        | some m =>
            rw [writeBlockTxos_cons]
            obtain ⟨h1, h2, _⟩ := writeBlockTxos_txo_preserve tid hs sid rest _ hrest
            refine ⟨h1.trans ?_, h2.trans ?_⟩
            · show mapGet sid (mapInsert sid addr c.utxos_to_map_index) = some addr
              exact mapGet_insert_self _ _ _
            · show mapGet sid (mapInsert sid (tid, hs) c.txo_to_txnid) = some (tid, hs)
              exact mapGet_insert_self _ _ _
      · cases memo with
        | none =>
            rw [writeBlockTxos_cons]
            exact ih _ (List.nodup_cons.mp hnd).2 q hqr
        | some m =>
            rw [writeBlockTxos_cons]
            exact ih _ (List.nodup_cons.mp hnd).2 q hqr

/-- The per-output writes keep (or re-install) the transaction's own hash
pair. -/
theorem writeBlockTxos_own_pair (tid : Nat) (hs : String) :
    ∀ (ts : List (Nat × (XfrAddress × Option OwnerMemo))) (c : ApiCache),
      mapGet tid c.txn_sid_to_hash = some hs →
      mapGet hs c.txn_hash_to_sid = some tid →
      mapGet tid (writeBlockTxos tid hs c ts).txn_sid_to_hash = some hs ∧
      mapGet hs (writeBlockTxos tid hs c ts).txn_hash_to_sid = some tid := by
  intro ts
  induction ts with
  | nil => exact fun c h1 h2 => ⟨h1, h2⟩
  | cons p rest ih =>
      intro c h1 h2
      obtain ⟨sid, addr, memo⟩ := p
      cases memo with
      | none =>
          rw [writeBlockTxos_cons]
          apply ih
          · show mapGet tid (mapInsert tid hs c.txn_sid_to_hash) = some hs
            exact mapGet_insert_self _ _ _
          · show mapGet hs (mapInsert hs tid c.txn_hash_to_sid) = some tid
            exact mapGet_insert_self _ _ _
      | some m =>
          rw [writeBlockTxos_cons]
          apply ih
          · show mapGet tid (mapInsert tid hs c.txn_sid_to_hash) = some hs
            exact mapGet_insert_self _ _ _
          · show mapGet hs (mapInsert hs tid c.txn_hash_to_sid) = some tid
            exact mapGet_insert_self _ _ _

/-- The per-output writes of one transaction leave the hash pair of a
different transaction (different id and different hash) untouched. -/
theorem writeBlockTxos_hash_preserve (tid : Nat) (hs : String) (s : Nat) (H : String)
    (hts : s ≠ tid) (hhs : H ≠ hs) :
    ∀ (ts : List (Nat × (XfrAddress × Option OwnerMemo))) (c : ApiCache),
      mapGet s (writeBlockTxos tid hs c ts).txn_sid_to_hash =
        mapGet s c.txn_sid_to_hash ∧
      mapGet H (writeBlockTxos tid hs c ts).txn_hash_to_sid =
        mapGet H c.txn_hash_to_sid := by
  intro ts
  induction ts with
  | nil => exact fun c => ⟨rfl, rfl⟩
  | cons p rest ih =>
      intro c
      obtain ⟨sid, addr, memo⟩ := p
      cases memo with
      | none =>
          rw [writeBlockTxos_cons]
          obtain ⟨h1, h2⟩ := ih _
          refine ⟨h1.trans ?_, h2.trans ?_⟩
          · show mapGet s (mapInsert tid hs c.txn_sid_to_hash) =
              mapGet s c.txn_sid_to_hash
            exact mapGet_insert_ne _ _ hts
          · show mapGet H (mapInsert hs tid c.txn_hash_to_sid) =
              mapGet H c.txn_hash_to_sid
            exact mapGet_insert_ne _ _ hhs
      | some m =>
          rw [writeBlockTxos_cons]
          obtain ⟨h1, h2⟩ := ih _
          refine ⟨h1.trans ?_, h2.trans ?_⟩
          · show mapGet s (mapInsert tid hs c.txn_sid_to_hash) =
              mapGet s c.txn_sid_to_hash
            exact mapGet_insert_ne _ _ hts
          · show mapGet H (mapInsert hs tid c.txn_hash_to_sid) =
              mapGet H c.txn_hash_to_sid
            exact mapGet_insert_ne _ _ hhs

/-- A successful block-transaction step, in closed form. -/
theorem processBlockTxn_ok_char (cfg : Config) (l : LedgerState) (c : ApiCache)
    (v : FinalizedTxn) (hok : (processBlockTxn cfg l c v).2 = true) :
    ∃ ftl addrs, getTransactionLight l v.tx_id = some ftl ∧
      collectOpt (addrOf l) v.txo_ids = some addrs ∧
      (processBlockTxn cfg l c v).1 =
        writeBlockTxos v.tx_id (hashHex ftl.txn)
          (applyOps cfg l.td_commit_height c ftl.txn.operations)
          (v.txo_ids.zip (addrs.zip (get_owner_memos_ref ftl.txn))) := by
  unfold processBlockTxn at hok ⊢
  cases ht : getTransactionLight l v.tx_id with
  | none =>
      rw [ht] at hok
      simp at hok
  | some ftl =>
      simp only [ht] at hok ⊢
      cases ha : collectOpt (addrOf l) v.txo_ids with
      | none =>
          rw [ha] at hok
          simp at hok
      | some addrs =>
          simp only [ha]
          exact ⟨ftl, addrs, rfl, rfl, rfl⟩

/-- A failed block-transaction step leaves the cache untouched. -/
theorem processBlockTxn_fail_char (cfg : Config) (l : LedgerState) (c : ApiCache)
    (v : FinalizedTxn) (hfail : (processBlockTxn cfg l c v).2 = false) :
    (processBlockTxn cfg l c v).1 = c := by
  unfold processBlockTxn at hfail ⊢
  cases ht : getTransactionLight l v.tx_id with
  | none => rfl
  | some ftl =>
      simp only [ht] at hfail ⊢
      cases ha : collectOpt (addrOf l) v.txo_ids with
      | none => simp only [ha]
      | some addrs =>
          rw [ha] at hfail
          simp at hfail

/-- One block-transaction step does not disturb the entries of a different
committed transaction (different serial id, disjoint outputs). -/
theorem processBlockTxn_preserve (cfg : Config) (l : LedgerState) (c : ApiCache)
    (v : FinalizedTxn) (s : Nat) (ftS : FinalizedTxn) (os : List Nat)
    (hinj : HashInj l) (hsft : getTransactionLight l s = some ftS)
    (hvs : v.tx_id ≠ s) (hdisj : ∀ o ∈ os, o ∉ v.txo_ids) :
    (∀ o ∈ os,
      mapGet o (processBlockTxn cfg l c v).1.utxos_to_map_index =
        mapGet o c.utxos_to_map_index ∧
      mapGet o (processBlockTxn cfg l c v).1.txo_to_txnid = mapGet o c.txo_to_txnid ∧
      mapGet o (processBlockTxn cfg l c v).1.owner_memos = mapGet o c.owner_memos) ∧
    mapGet s (processBlockTxn cfg l c v).1.txn_sid_to_hash =
      mapGet s c.txn_sid_to_hash ∧
    mapGet (hashHex ftS.txn) (processBlockTxn cfg l c v).1.txn_hash_to_sid =
      mapGet (hashHex ftS.txn) c.txn_hash_to_sid := by
  cases hb : (processBlockTxn cfg l c v).2 with
  | false =>
      rw [processBlockTxn_fail_char cfg l c v hb]
      exact ⟨fun o _ => ⟨rfl, rfl, rfl⟩, rfl, rfl⟩
  | true =>
      obtain ⟨ftl, addrs, ht, ha, heq⟩ := processBlockTxn_ok_char cfg l c v hb
      rw [heq]
      have hhash : hashHex ftS.txn ≠ hashHex ftl.txn := by
        intro hcontra
        exact hvs (hinj v.tx_id s ftl ftS ht hsft hcontra.symm)
      have hfr := applyOps_frame cfg l.td_commit_height ftl.txn.operations c
      have hfrh := applyOps_hash_frame cfg l.td_commit_height ftl.txn.operations c
      refine ⟨?_, ?_, ?_⟩
      · intro o ho
        have hkeys : ∀ q ∈ v.txo_ids.zip (addrs.zip (get_owner_memos_ref ftl.txn)),
            q.1 ≠ o := by
          intro q hq heq2
          exact hdisj o ho (heq2 ▸ (List.of_mem_zip hq).1)
        obtain ⟨h1, h2, h3⟩ :=
          writeBlockTxos_txo_preserve v.tx_id (hashHex ftl.txn) o _ _ hkeys
        exact ⟨h1.trans (by rw [hfr.1]), h2.trans (by rw [hfr.2.1]),
          h3.trans (by rw [hfr.2.2.1])⟩
      · exact (writeBlockTxos_hash_preserve v.tx_id (hashHex ftl.txn) s
            (hashHex ftS.txn) (fun h => hvs h.symm) hhash _ _).1.trans
          (by rw [hfrh.1])
      · exact (writeBlockTxos_hash_preserve v.tx_id (hashHex ftl.txn) s
            (hashHex ftS.txn) (fun h => hvs h.symm) hhash _ _).2.trans
          (by rw [hfrh.2])

/-- A successful block-transaction step installs every entry of its own
transaction. -/
theorem processBlockTxn_installs (cfg : Config) (l : LedgerState) (c : ApiCache)
    (ft : FinalizedTxn)
    (hok : (processBlockTxn cfg l c ft).2 = true)
    (hself : getTransactionLight l ft.tx_id = some ft)
    (hnd : ft.txo_ids.Nodup)
    (hlen : (get_owner_memos_ref ft.txn).length = ft.txo_ids.length)
    (hpair1 : mapGet ft.tx_id c.txn_sid_to_hash = some (hashHex ft.txn))
    (hpair2 : mapGet (hashHex ft.txn) c.txn_hash_to_sid = some ft.tx_id) :
    (∀ o ∈ ft.txo_ids, ∃ a, addrOf l o = some a ∧
      mapGet o (processBlockTxn cfg l c ft).1.utxos_to_map_index = some a ∧
      mapGet o (processBlockTxn cfg l c ft).1.txo_to_txnid =
        some (ft.tx_id, hashHex ft.txn)) ∧
    mapGet ft.tx_id (processBlockTxn cfg l c ft).1.txn_sid_to_hash =
      some (hashHex ft.txn) ∧
    mapGet (hashHex ft.txn) (processBlockTxn cfg l c ft).1.txn_hash_to_sid =
      some ft.tx_id := by
  obtain ⟨ftl, addrs, ht, ha, heq⟩ := processBlockTxn_ok_char cfg l c ft hok
  obtain rfl : ft = ftl := Option.some.inj (hself.symm.trans ht)
  rw [heq]
  have hlen2 : addrs.length = ft.txo_ids.length := collectOpt_length (addrOf l) ha
  have hfr := applyOps_frame cfg l.td_commit_height ft.txn.operations c
  have hfrh := applyOps_hash_frame cfg l.td_commit_height ft.txn.operations c
  have hfst : (ft.txo_ids.zip (addrs.zip (get_owner_memos_ref ft.txn))).map Prod.fst =
      ft.txo_ids := by
    apply List.map_fst_zip
    rw [List.length_zip, hlen2, hlen]
    omega
  refine ⟨?_, ?_⟩
  · intro o ho
    obtain ⟨a, m, hmem⟩ := mem_zip_zip_exists ho hlen2.symm hlen.symm
    have haddr : addrOf l o = some a :=
      collectOpt_zip (addrOf l) ha (o, a) (mem_zip_zip12 hmem)
    have hinst := writeBlockTxos_install ft.tx_id (hashHex ft.txn)
      (ft.txo_ids.zip (addrs.zip (get_owner_memos_ref ft.txn)))
      (applyOps cfg l.td_commit_height c ft.txn.operations)
      (by rw [hfst]; exact hnd) (o, (a, m)) hmem
    exact ⟨a, haddr, hinst.1, hinst.2⟩
  · exact writeBlockTxos_own_pair ft.tx_id (hashHex ft.txn)
      (ft.txo_ids.zip (addrs.zip (get_owner_memos_ref ft.txn)))
      (applyOps cfg l.td_commit_height c ft.txn.operations)
      (by rw [hfrh.1]; exact hpair1) (by rw [hfrh.2]; exact hpair2)

theorem blockSweep_append (cfg : Config) (l : LedgerState) :
    ∀ (xs ys : List FinalizedTxn) (c : ApiCache),
      blockSweep cfg l c (xs ++ ys) =
        (if (blockSweep cfg l c xs).2 then
          blockSweep cfg l (blockSweep cfg l c xs).1 ys
         else ((blockSweep cfg l c xs).1, false)) := by
  intro xs
  induction xs with
  | nil => intro ys c; rfl
  | cons v rest ih =>
      intro ys c
      rw [List.cons_append, blockSweep_cons cfg l c v (rest ++ ys),
        blockSweep_cons cfg l c v rest]
      by_cases hb : (processBlockTxn cfg l c v).2 = true
      · rw [if_pos hb, if_pos hb, ih]
      · rw [if_neg hb, if_neg hb]
        simp

theorem blockSweep_preserve (cfg : Config) (l : LedgerState) (s : Nat)
    (ftS : FinalizedTxn) (os : List Nat) (hinj : HashInj l)
    (hsft : getTransactionLight l s = some ftS) :
    ∀ (vs : List FinalizedTxn) (c : ApiCache),
      (∀ v ∈ vs, v.tx_id ≠ s) → (∀ v ∈ vs, ∀ o ∈ os, o ∉ v.txo_ids) →
      (∀ o ∈ os,
        mapGet o (blockSweep cfg l c vs).1.utxos_to_map_index =
          mapGet o c.utxos_to_map_index ∧
        mapGet o (blockSweep cfg l c vs).1.txo_to_txnid = mapGet o c.txo_to_txnid ∧
        mapGet o (blockSweep cfg l c vs).1.owner_memos = mapGet o c.owner_memos) ∧
      mapGet s (blockSweep cfg l c vs).1.txn_sid_to_hash =
        mapGet s c.txn_sid_to_hash ∧
      mapGet (hashHex ftS.txn) (blockSweep cfg l c vs).1.txn_hash_to_sid =
        mapGet (hashHex ftS.txn) c.txn_hash_to_sid := by
  intro vs
  induction vs with
  | nil => exact fun c _ _ => ⟨fun o _ => ⟨rfl, rfl, rfl⟩, rfl, rfl⟩
  | cons v rest ih =>
      intro c hv ho
      rw [blockSweep_cons]
      have hstep := processBlockTxn_preserve cfg l c v s ftS os hinj hsft
        (hv v (List.mem_cons_self _ _)) (ho v (List.mem_cons_self _ _))
      split
      · obtain ⟨ih1, ih2, ih3⟩ := ih (processBlockTxn cfg l c v).1
          (fun w hw => hv w (List.mem_cons_of_mem _ hw))
          (fun w hw => ho w (List.mem_cons_of_mem _ hw))
        refine ⟨fun o hos => ?_, ih2.trans hstep.2.1, ih3.trans hstep.2.2⟩
        obtain ⟨a1, a2, a3⟩ := ih1 o hos
        obtain ⟨b1, b2, b3⟩ := hstep.1 o hos
        exact ⟨a1.trans b1, a2.trans b2, a3.trans b3⟩
      · exact hstep

/-- A successful sweep of a block containing `ft` — with pairwise-distinct
transaction ids and outputs disjoint from the other transactions' — indexes
every output of `ft` and keeps its hash pair. -/
theorem blockSweep_installs (cfg : Config) (l : LedgerState) (c : ApiCache)
    (ft : FinalizedTxn) (vs : List FinalizedTxn)
    (hmem : ft ∈ vs) (hok : (blockSweep cfg l c vs).2 = true)
    (hinj : HashInj l) (hself : getTransactionLight l ft.tx_id = some ft)
    (hnd : ft.txo_ids.Nodup)
    (hlen : (get_owner_memos_ref ft.txn).length = ft.txo_ids.length)
    (hids : (vs.map (fun v => v.tx_id)).Nodup)
    (hdisj : ∀ v ∈ vs, v.tx_id ≠ ft.tx_id → ∀ o ∈ ft.txo_ids, o ∉ v.txo_ids)
    (hpair1 : mapGet ft.tx_id c.txn_sid_to_hash = some (hashHex ft.txn))
    (hpair2 : mapGet (hashHex ft.txn) c.txn_hash_to_sid = some ft.tx_id) :
    (∀ o ∈ ft.txo_ids, ∃ a, addrOf l o = some a ∧
      mapGet o (blockSweep cfg l c vs).1.utxos_to_map_index = some a ∧
      mapGet o (blockSweep cfg l c vs).1.txo_to_txnid =
        some (ft.tx_id, hashHex ft.txn)) ∧
    mapGet ft.tx_id (blockSweep cfg l c vs).1.txn_sid_to_hash =
      some (hashHex ft.txn) ∧
    mapGet (hashHex ft.txn) (blockSweep cfg l c vs).1.txn_hash_to_sid =
      some ft.tx_id := by
  obtain ⟨pre, post, rfl⟩ := List.append_of_mem hmem
  rw [List.map_append, List.map_cons] at hids
  obtain ⟨hnd_pre, hnd_cons, hdis_maps⟩ := List.nodup_append.mp hids
  have hpre_ids : ∀ v ∈ pre, v.tx_id ≠ ft.tx_id := by
    intro v hv heq
    exact hdis_maps (List.mem_map_of_mem _ hv) (heq ▸ List.mem_cons_self _ _)
  have hpost_ids : ∀ v ∈ post, v.tx_id ≠ ft.tx_id := by
    intro v hv heq
    have : v.tx_id ∈ post.map (fun v => v.tx_id) := List.mem_map_of_mem _ hv
    rw [heq] at this
    exact (List.nodup_cons.mp hnd_cons).1 this
  rw [blockSweep_append] at hok ⊢
  by_cases hpre : (blockSweep cfg l c pre).2 = true
  · rw [if_pos hpre] at hok ⊢
    have hpres := blockSweep_preserve cfg l ft.tx_id ft [] hinj hself pre c
      hpre_ids (fun v _ o ho => absurd ho (List.not_mem_nil o))
    rw [blockSweep_cons] at hok ⊢
    by_cases hstep : (processBlockTxn cfg l (blockSweep cfg l c pre).1 ft).2 = true
    · rw [if_pos hstep] at hok ⊢
      have hinst := processBlockTxn_installs cfg l (blockSweep cfg l c pre).1 ft
        hstep hself hnd hlen (hpres.2.1.trans hpair1) (hpres.2.2.trans hpair2)
      have hpost := blockSweep_preserve cfg l ft.tx_id ft ft.txo_ids hinj hself
        post (processBlockTxn cfg l (blockSweep cfg l c pre).1 ft).1
        hpost_ids (fun v hv o ho => hdisj v
          (List.mem_append_right pre (List.mem_cons_of_mem _ hv))
          (hpost_ids v hv) o ho)
      refine ⟨fun o ho => ?_, hpost.2.1.trans hinst.2.1, hpost.2.2.trans hinst.2.2⟩
      obtain ⟨a, haddr, h1, h2⟩ := hinst.1 o ho
      obtain ⟨b1, b2, _⟩ := hpost.1 o ho
      exact ⟨a, haddr, b1.trans h1, b2.trans h2⟩
    · rw [if_neg hstep] at hok
      simp at hok
  · rw [if_neg hpre] at hok
    simp at hok

/-- After a successful repair run, a committed transaction whose id lies in
the swept range has its hash pair installed, and the cache stays hash-map
consistent. -/
theorem check_lost_data_pair (l : LedgerState) (c : ApiCache) (s : Nat)
    (ft : FinalizedTxn)
    (hc : l.api_cache = some c) (hok : (check_lost_data l).2 = true)
    (hinj : HashInj l) (hcok : CacheHashOk l c)
    (hself : getTransactionLight l s = some ft)
    (hlo : (lastTxnOf c).getD 0 ≤ s) (hhi : s < l.next_txn_sid) :
    ∀ c2, (check_lost_data l).1.api_cache = some c2 →
      mapGet s c2.txn_sid_to_hash = some (hashHex ft.txn) ∧
      mapGet (hashHex ft.txn) c2.txn_hash_to_sid = some s ∧
      CacheHashOk l c2 := by
  intro c2 hc2
  by_cases h1 : (txnSweep l c (txnRange l c)).2 = true
  · rw [check_lost_data_some_true l c hc h1] at hc2
    have hc2' : some (txoSweep l (txnSweep l c (txnRange l c)).1
        (txoRange l (txnSweep l c (txnRange l c)).1)).1 = some c2 := hc2
    obtain rfl := Option.some.inj hc2'
    have h1' : (txnSweep l c (List.range' ((lastTxnOf c).getD 0)
        (l.next_txn_sid - (lastTxnOf c).getD 0))).2 = true := h1
    have hcov := txnSweep_covers l (l.next_txn_sid - (lastTxnOf c).getD 0)
      ((lastTxnOf c).getD 0) c h1' s hlo (by omega)
    have hcov' : (mapGet s (txnSweep l c (txnRange l c)).1.txn_sid_to_hash).isSome
        = true := hcov
    obtain ⟨h', hh'⟩ := Option.isSome_iff_exists.mp hcov'
    have hok1 : CacheHashOk l (txnSweep l c (txnRange l c)).1 :=
      txnSweep_hashOk l hinj _ c hcok
    obtain ⟨⟨f, hf, hfh⟩, hback⟩ := hok1 s h' hh'
    obtain rfl : ft = f := Option.some.inj (hself.symm.trans hf)
    subst hfh
    have hfr2 := txoSweep_frame l (txnSweep l c (txnRange l c)).1
      (txoRange l (txnSweep l c (txnRange l c)).1)
    refine ⟨?_, ?_, txoSweep_hashOk l _ _ hok1⟩
    · rw [hfr2.1]
      exact hh'
    · rw [hfr2.2.1]
      exact hback
  · have h1f : (txnSweep l c (txnRange l c)).2 = false := by
      revert h1
      cases (txnSweep l c (txnRange l c)).2 <;> simp
    rw [check_lost_data_some_false l c hc h1f] at hok
    simp at hok

/-- The repair pass rewrites only the cache field of the ledger. -/
theorem check_lost_data_state_frame (l : LedgerState) :
    (check_lost_data l).1.txns = l.txns ∧
    (check_lost_data l).1.utxo_live = l.utxo_live ∧
    (check_lost_data l).1.utxo_spent = l.utxo_spent ∧
    (check_lost_data l).1.blocks = l.blocks ∧
    (check_lost_data l).1.td_commit_height = l.td_commit_height := by
  cases hc : l.api_cache with
  | none =>
      rw [check_lost_data_none l hc]
      exact ⟨rfl, rfl, rfl, rfl, rfl⟩
  | some c =>
      by_cases h1 : (txnSweep l c (txnRange l c)).2 = true
      · rw [check_lost_data_some_true l c hc h1]
        exact ⟨rfl, rfl, rfl, rfl, rfl⟩
      · have h1f : (txnSweep l c (txnRange l c)).2 = false := by
          revert h1
          cases (txnSweep l c (txnRange l c)).2 <;> simp
        rw [check_lost_data_some_false l c hc h1f]
        exact ⟨rfl, rfl, rfl, rfl, rfl⟩

theorem addrOf_congr (l1 l2 : LedgerState) (h1 : l1.utxo_live = l2.utxo_live)
    (h2 : l1.utxo_spent = l2.utxo_spent) (sid : Nat) :
    addrOf l1 sid = addrOf l2 sid := by
  unfold addrOf
  rw [h1, h2]

/-- **C1.** After a successful `update_api_cache` run with `KEEP_HIST`,
every transaction `ft` of the latest block is fully indexed: each of its
outputs has its owner address in `utxos_to_map_index` and the pointer
`(TxnSID, H)` in `txo_to_txnid`, and `txn_sid_to_hash`/`txn_hash_to_sid`
hold the pair `(TxnSID, H)` with `H` the uppercase-hex transaction hash —
also when the transaction produced zero outputs, in which case the pair
comes from the repair pass that `update_api_cache` runs first.  Assumes a
hash-consistent incoming cache, collision-free hashes, coherent ledger
bookkeeping (the listed `TxnSID` fetches the transaction itself, one memo
slot per output, distinct ids, disjoint output lists) and that `ft.tx_id`
lies in the repair sweep's range. -/
theorem claim_C1_last_block_indexed (cfg : Config) (l : LedgerState) (c : ApiCache)
    (block : Block) (ft : FinalizedTxn)
    (hc : l.api_cache = some c)
    (hcok : CacheHashOk l c)
    (hinj : HashInj l)
    (hb : l.blocks.getLast? = some block)
    (hmem : ft ∈ block.txns)
    (hself : getTransactionLight l ft.tx_id = some ft)
    (hnd : ft.txo_ids.Nodup)
    (hlen : (get_owner_memos_ref ft.txn).length = ft.txo_ids.length)
    (hids : (block.txns.map (fun v => v.tx_id)).Nodup)
    (hdisj : ∀ v ∈ block.txns, v.tx_id ≠ ft.tx_id → ∀ o ∈ ft.txo_ids, o ∉ v.txo_ids)
    (hlo : (lastTxnOf c).getD 0 ≤ ft.tx_id)
    (hhi : ft.tx_id < l.next_txn_sid)
    (hrun : (update_api_cache cfg true l).2 = true) :
    ∀ c2, (update_api_cache cfg true l).1.api_cache = some c2 →
      (∀ o ∈ ft.txo_ids, ∃ a, addrOf l o = some a ∧
        mapGet o c2.utxos_to_map_index = some a ∧
        mapGet o c2.txo_to_txnid = some (ft.tx_id, hashHex ft.txn)) ∧
      mapGet ft.tx_id c2.txn_sid_to_hash = some (hashHex ft.txn) ∧
      mapGet (hashHex ft.txn) c2.txn_hash_to_sid = some ft.tx_id := by
  intro c2 hc2
  have hu : update_api_cache cfg true l =
      (if (check_lost_data l).2 then updateBlockPhase cfg (check_lost_data l).1
       else ((check_lost_data l).1, false)) := rfl
  rw [hu] at hrun hc2
  by_cases hcl : (check_lost_data l).2 = true
  · rw [if_pos hcl] at hrun hc2
    have hfr := check_lost_data_state_frame l
    have hLb : (check_lost_data l).1.blocks.getLast? = some block := by
      rw [hfr.2.2.2.1]
      exact hb
    cases hLc : (check_lost_data l).1.api_cache with
    | none =>
        unfold updateBlockPhase at hrun
        simp only [hLb, hLc] at hrun
        simp at hrun
    | some cL =>
        have hpair := check_lost_data_pair l c ft.tx_id ft hc hcl hinj hcok hself
          hlo hhi cL hLc
        unfold updateBlockPhase at hrun hc2
        simp only [hLb, hLc] at hrun hc2
        have hsw : (blockSweep cfg (check_lost_data l).1 cL block.txns).2 = true :=
          hrun
        have hc2' : some (blockSweep cfg (check_lost_data l).1 cL block.txns).1 =
            some c2 := hc2
        obtain rfl := Option.some.inj hc2'
        have htxns : (check_lost_data l).1.txns = l.txns := hfr.1
        have hinjL : HashInj (check_lost_data l).1 := HashInj_congr _ l htxns hinj
        have hselfL : getTransactionLight (check_lost_data l).1 ft.tx_id = some ft := by
          rw [getTransactionLight_txns_eq _ l htxns]
          exact hself
        have hins := blockSweep_installs cfg (check_lost_data l).1 cL ft block.txns
          hmem hsw hinjL hselfL hnd hlen hids hdisj hpair.1 hpair.2.1
        refine ⟨fun o ho => ?_, hins.2.1, hins.2.2⟩
        obtain ⟨a, haddr, h1, h2⟩ := hins.1 o ho
        refine ⟨a, ?_, h1, h2⟩
        rw [← addrOf_congr (check_lost_data l).1 l hfr.2.1 hfr.2.2.1 o]
        exact haddr
  · rw [if_neg hcl] at hrun
    simp at hrun

theorem claim_C1_witness :
    ∃ c2, (update_api_cache cfgW true LW).1.api_cache = some c2 ∧
      mapGet t1W.tx_id c2.txn_sid_to_hash = some (hashHex t1W.txn) ∧
      mapGet (hashHex t1W.txn) c2.txn_hash_to_sid = some t1W.tx_id := by
  obtain ⟨c2, hc2⟩ := Option.isSome_iff_exists.mp
    (by decide : ((update_api_cache cfgW true LW).1.api_cache).isSome = true)
  have h := claim_C1_last_block_indexed cfgW LW cacheW ⟨[t0W, t1W]⟩ t1W
    (by decide)
    (by
      intro s h hs
      simp [cacheW, mapGet] at hs)
    (HashInj_of_nodup_hashes LW (by decide))
    (by decide) (by decide) (by decide) (by decide) (by decide) (by decide)
    (by decide) (by decide) (by decide) (by decide) c2 hc2
  exact ⟨c2, hc2, h.2.1, h.2.2⟩

/-! ## C6: `owner_memos` entries exist exactly for memo-carrying outputs -/

/-- One lost-memo step never writes a memo entry for a memo-less output: at
other indices the slot is untouched, and at the output's own index the rebuild
only copies the (absent) memo of the producing transaction. -/
theorem txoSweepStep_memo_none (l : LedgerState) (c : ApiCache) (k o : Nat)
    (ft : FinalizedTxn)
    (hself : getTransactionLight l ft.tx_id = some ft)
    (hutxo : ∀ u, getUtxo l o = some u → u.tx_id = ft.tx_id)
    (hnd : ft.txo_ids.Nodup)
    (hzip : (o, (none : Option OwnerMemo)) ∈
      ft.txo_ids.zip (get_owner_memos_ref ft.txn))
    (h0 : mapGet o c.owner_memos = none) :
    mapGet o (txoSweepStep l c k).1.owner_memos = none := by
  by_cases hko : k = o
  · subst hko
    have hF : (mapGet k c.owner_memos).isSome = false := by
      rw [h0]
      rfl
    cases hu : getUtxo l k with
    | none =>
        rw [txoSweepStep_cont l c k hF hu]
        exact h0
    | some u =>
        cases hT : getTransactionLight l u.tx_id with
        | none =>
            rw [txoSweepStep_abort1 l c k u hF hu hT]
            exact h0
        | some f =>
            have hT' : getTransactionLight l ft.tx_id = some f := by
              rw [← hutxo u hu]
              exact hT
            obtain rfl : ft = f := Option.some.inj (hself.symm.trans hT')
            cases ha : collectOpt (addrOf l) ft.txo_ids with
            | none =>
                rw [txoSweepStep_abort2 l c k u ft hF hu hT ha]
                exact h0
            | some addrs =>
                rw [txoSweepStep_rebuild l c k u ft addrs hF hu hT ha]
                show mapGet k (rebuildTxoEntries k ft.tx_id (hashHex ft.txn)
                  (ft.txo_ids.zip (addrs.zip (get_owner_memos_ref ft.txn)))
                  c).owner_memos = none
                rw [rebuildTxoEntries_memo_unchanged k ft.tx_id (hashHex ft.txn) _ c ?_]
                · exact h0
                · intro p hp hpo
                  have h13 := mem_zip_zip13 hp
                  rw [hpo] at h13
                  exact zip_nodup_consistent hnd h13 hzip
  · rw [(txoSweepStep_get_ne l c k o (fun h => hko h.symm)).1]
    exact h0

theorem txoSweep_memo_none (l : LedgerState) (o : Nat) (ft : FinalizedTxn)
    (hself : getTransactionLight l ft.tx_id = some ft)
    (hutxo : ∀ u, getUtxo l o = some u → u.tx_id = ft.tx_id)
    (hnd : ft.txo_ids.Nodup)
    (hzip : (o, (none : Option OwnerMemo)) ∈
      ft.txo_ids.zip (get_owner_memos_ref ft.txn)) :
    ∀ (is : List Nat) (c : ApiCache), mapGet o c.owner_memos = none →
      mapGet o (txoSweep l c is).1.owner_memos = none := by
  intro is
  induction is with
  | nil => exact fun c h0 => h0
  | cons i rest ih =>
      intro c h0
      rw [txoSweep_cons]
      split
      · exact ih _ (txoSweepStep_memo_none l c i o ft hself hutxo hnd hzip h0)
      · exact txoSweepStep_memo_none l c i o ft hself hutxo hnd hzip h0

/-- Through the whole repair pass, a memo-less output gains no memo entry. -/
theorem check_lost_data_memo_none (l : LedgerState) (c : ApiCache) (o : Nat)
    (ft : FinalizedTxn)
    (hc : l.api_cache = some c)
    (hself : getTransactionLight l ft.tx_id = some ft)
    (hutxo : ∀ u, getUtxo l o = some u → u.tx_id = ft.tx_id)
    (hnd : ft.txo_ids.Nodup)
    (hzip : (o, (none : Option OwnerMemo)) ∈
      ft.txo_ids.zip (get_owner_memos_ref ft.txn))
    (h0 : mapGet o c.owner_memos = none) :
    ∀ cL, (check_lost_data l).1.api_cache = some cL →
      mapGet o cL.owner_memos = none := by
  intro cL hcL
  have h1none : mapGet o (txnSweep l c (txnRange l c)).1.owner_memos = none := by
    rw [(txnSweep_frame l c (txnRange l c)).1]
    exact h0
  by_cases h1 : (txnSweep l c (txnRange l c)).2 = true
  · rw [check_lost_data_some_true l c hc h1] at hcL
    have hcL' : some (txoSweep l (txnSweep l c (txnRange l c)).1
        (txoRange l (txnSweep l c (txnRange l c)).1)).1 = some cL := hcL
    obtain rfl := Option.some.inj hcL'
    exact txoSweep_memo_none l o ft hself hutxo hnd hzip _ _ h1none
  · have h1f : (txnSweep l c (txnRange l c)).2 = false := by
      revert h1
      cases (txnSweep l c (txnRange l c)).2 <;> simp
    rw [check_lost_data_some_false l c hc h1f] at hcL
    have hcL' : some (txnSweep l c (txnRange l c)).1 = some cL := hcL
    obtain rfl := Option.some.inj hcL'
    exact h1none

/-- With distinct output ids, the per-output block write installs the memo of
every memo-carrying output. -/
theorem writeBlockTxos_memo_install (tid : Nat) (hs : String) :
    ∀ (ts : List (Nat × (XfrAddress × Option OwnerMemo))) (c : ApiCache),
      (ts.map Prod.fst).Nodup → ∀ q ∈ ts, ∀ v, q.2.2 = some v →
      mapGet q.1 (writeBlockTxos tid hs c ts).owner_memos = some v := by
  intro ts
  induction ts with
  | nil => intro c _ q hq; exact absurd hq (List.not_mem_nil q)
  | cons p rest ih =>
      intro c hnd q hq v hv
      obtain ⟨sid, addr, memo⟩ := p
      rw [List.map_cons] at hnd
      rcases List.mem_cons.mp hq with hqp | hqr
      · subst hqp
        have hv' : memo = some v := hv
        subst hv'
        rw [writeBlockTxos_cons]
        have hrest : ∀ r ∈ rest, r.1 ≠ sid := by
          intro r hr heq
          have hmm : r.1 ∈ rest.map Prod.fst := List.mem_map_of_mem Prod.fst hr
          rw [heq] at hmm
          exact (List.nodup_cons.mp hnd).1 hmm
        obtain ⟨_, _, h3⟩ := writeBlockTxos_txo_preserve tid hs sid rest _ hrest
        refine h3.trans ?_
        show mapGet sid (mapInsert sid v
          (({ c with
              utxos_to_map_index := mapInsert sid addr c.utxos_to_map_index
              txo_to_txnid := mapInsert sid (tid, hs) c.txo_to_txnid
              txn_sid_to_hash := mapInsert tid hs c.txn_sid_to_hash
              txn_hash_to_sid := mapInsert hs tid c.txn_hash_to_sid } :
            ApiCache)).owner_memos) = some v
        exact mapGet_insert_self _ _ _
      · cases memo with
        | none =>
            rw [writeBlockTxos_cons]
            exact ih _ (List.nodup_cons.mp hnd).2 q hqr v hv
        | some w =>
            rw [writeBlockTxos_cons]
            exact ih _ (List.nodup_cons.mp hnd).2 q hqr v hv

/-- With distinct output ids, the per-output block write leaves the memo slot
of a memo-less output exactly as it was. -/
theorem writeBlockTxos_memo_none (tid : Nat) (hs : String) :
    ∀ (ts : List (Nat × (XfrAddress × Option OwnerMemo))) (c : ApiCache),
      (ts.map Prod.fst).Nodup → ∀ q ∈ ts, q.2.2 = none →
      mapGet q.1 (writeBlockTxos tid hs c ts).owner_memos =
        mapGet q.1 c.owner_memos := by
  intro ts
  induction ts with
  | nil => intro c _ q hq; exact absurd hq (List.not_mem_nil q)
  | cons p rest ih =>
      intro c hnd q hq hv
      obtain ⟨sid, addr, memo⟩ := p
      rw [List.map_cons] at hnd
      rcases List.mem_cons.mp hq with hqp | hqr
      · subst hqp
        have hv' : memo = none := hv
        subst hv'
        rw [writeBlockTxos_cons]
        have hrest : ∀ r ∈ rest, r.1 ≠ sid := by
          intro r hr heq
          have hmm : r.1 ∈ rest.map Prod.fst := List.mem_map_of_mem Prod.fst hr
          rw [heq] at hmm
          exact (List.nodup_cons.mp hnd).1 hmm
        obtain ⟨_, _, h3⟩ := writeBlockTxos_txo_preserve tid hs sid rest _ hrest
        exact h3
      · cases memo with
        | none =>
            rw [writeBlockTxos_cons]
            exact ih _ (List.nodup_cons.mp hnd).2 q hqr hv
        | some w =>
            rw [writeBlockTxos_cons]
            have hq1 : q.1 ≠ sid := by
              intro heq
              have hmm : q.1 ∈ rest.map Prod.fst := List.mem_map_of_mem Prod.fst hqr
              rw [heq] at hmm
              exact (List.nodup_cons.mp hnd).1 hmm
            refine (ih _ (List.nodup_cons.mp hnd).2 q hqr hv).trans ?_
            show mapGet q.1 (mapInsert sid w c.owner_memos) = mapGet q.1 c.owner_memos
            exact mapGet_insert_ne _ _ hq1

/-- A successful block-transaction step installs its outputs' memos and writes
no memo for its memo-less outputs. -/
theorem processBlockTxn_memo (cfg : Config) (l : LedgerState) (c : ApiCache)
    (ft : FinalizedTxn) (o : Nat) (m : Option OwnerMemo)
    (hok : (processBlockTxn cfg l c ft).2 = true)
    (hself : getTransactionLight l ft.tx_id = some ft)
    (hnd : ft.txo_ids.Nodup)
    (hlen : (get_owner_memos_ref ft.txn).length = ft.txo_ids.length)
    (hzip : (o, m) ∈ ft.txo_ids.zip (get_owner_memos_ref ft.txn)) :
    (∀ v, m = some v →
      mapGet o (processBlockTxn cfg l c ft).1.owner_memos = some v) ∧
    (m = none → mapGet o (processBlockTxn cfg l c ft).1.owner_memos =
      mapGet o c.owner_memos) := by
  obtain ⟨ftl, addrs, ht, ha, heq⟩ := processBlockTxn_ok_char cfg l c ft hok
  obtain rfl : ft = ftl := Option.some.inj (hself.symm.trans ht)
  rw [heq]
  have hlen2 : addrs.length = ft.txo_ids.length := collectOpt_length (addrOf l) ha
  have hfst : (ft.txo_ids.zip (addrs.zip (get_owner_memos_ref ft.txn))).map Prod.fst =
      ft.txo_ids := by
    apply List.map_fst_zip
    rw [List.length_zip, hlen2, hlen]
    omega
  have ho : o ∈ ft.txo_ids := (List.of_mem_zip hzip).1
  obtain ⟨a, m2, hmem3⟩ := mem_zip_zip_exists ho hlen2.symm hlen.symm
  obtain rfl : m = m2 :=
    (zip_nodup_consistent hnd (mem_zip_zip13 hmem3) hzip).symm
  have hfr := applyOps_frame cfg l.td_commit_height ft.txn.operations c
  constructor
  · intro v hv
    exact writeBlockTxos_memo_install ft.tx_id (hashHex ft.txn)
      (ft.txo_ids.zip (addrs.zip (get_owner_memos_ref ft.txn)))
      (applyOps cfg l.td_commit_height c ft.txn.operations)
      (by rw [hfst]; exact hnd) (o, (a, m)) hmem3 v hv
  · intro hv
    refine (writeBlockTxos_memo_none ft.tx_id (hashHex ft.txn)
      (ft.txo_ids.zip (addrs.zip (get_owner_memos_ref ft.txn)))
      (applyOps cfg l.td_commit_height c ft.txn.operations)
      (by rw [hfst]; exact hnd) (o, (a, m)) hmem3 hv).trans ?_
    rw [hfr.2.2.1]

/-- A successful sweep of a block containing `ft`: the memo slot of each of
`ft`'s outputs ends holding its memo, and stays untouched for memo-less
outputs. -/
theorem blockSweep_memo (cfg : Config) (l : LedgerState) (c : ApiCache)
    (ft : FinalizedTxn) (vs : List FinalizedTxn) (o : Nat) (m : Option OwnerMemo)
    (hmem : ft ∈ vs) (hok : (blockSweep cfg l c vs).2 = true)
    (hinj : HashInj l) (hself : getTransactionLight l ft.tx_id = some ft)
    (hnd : ft.txo_ids.Nodup)
    (hlen : (get_owner_memos_ref ft.txn).length = ft.txo_ids.length)
    (hids : (vs.map (fun v => v.tx_id)).Nodup)
    (hdisj : ∀ v ∈ vs, v.tx_id ≠ ft.tx_id → ∀ o2 ∈ ft.txo_ids, o2 ∉ v.txo_ids)
    (hzip : (o, m) ∈ ft.txo_ids.zip (get_owner_memos_ref ft.txn)) :
    (∀ v, m = some v → mapGet o (blockSweep cfg l c vs).1.owner_memos = some v) ∧
    (m = none → mapGet o (blockSweep cfg l c vs).1.owner_memos =
      mapGet o c.owner_memos) := by
  have ho : o ∈ ft.txo_ids := (List.of_mem_zip hzip).1
  obtain ⟨pre, post, rfl⟩ := List.append_of_mem hmem
  rw [List.map_append, List.map_cons] at hids
  obtain ⟨hnd_pre, hnd_cons, hdis_maps⟩ := List.nodup_append.mp hids
  have hpre_ids : ∀ v ∈ pre, v.tx_id ≠ ft.tx_id := by
    intro v hv heq
    exact hdis_maps (List.mem_map_of_mem _ hv) (heq ▸ List.mem_cons_self _ _)
  have hpost_ids : ∀ v ∈ post, v.tx_id ≠ ft.tx_id := by
    intro v hv heq
    have hmm : v.tx_id ∈ post.map (fun v => v.tx_id) := List.mem_map_of_mem _ hv
    rw [heq] at hmm
    exact (List.nodup_cons.mp hnd_cons).1 hmm
  rw [blockSweep_append] at hok ⊢
  by_cases hpre : (blockSweep cfg l c pre).2 = true
  · rw [if_pos hpre] at hok ⊢
    have hpres := blockSweep_preserve cfg l ft.tx_id ft ft.txo_ids hinj hself pre c
      hpre_ids (fun v hv o2 ho2 => hdisj v (List.mem_append_left _ hv)
        (hpre_ids v hv) o2 ho2)
    rw [blockSweep_cons] at hok ⊢
    by_cases hstep : (processBlockTxn cfg l (blockSweep cfg l c pre).1 ft).2 = true
    · rw [if_pos hstep] at hok ⊢
      have hmm := processBlockTxn_memo cfg l (blockSweep cfg l c pre).1 ft o m
        hstep hself hnd hlen hzip
      have hpost := blockSweep_preserve cfg l ft.tx_id ft ft.txo_ids hinj hself
        post (processBlockTxn cfg l (blockSweep cfg l c pre).1 ft).1
        hpost_ids (fun v hv o2 ho2 => hdisj v
          (List.mem_append_right pre (List.mem_cons_of_mem _ hv))
          (hpost_ids v hv) o2 ho2)
      constructor
      · intro v hv
        exact ((hpost.1 o ho).2.2).trans (hmm.1 v hv)
      · intro hv
        exact ((hpost.1 o ho).2.2).trans ((hmm.2 hv).trans (hpres.1 o ho).2.2)
    · rw [if_neg hstep] at hok
      simp at hok
  · rw [if_neg hpre] at hok
    simp at hok

/-- **C6.** For a fresh output `o` of a last-block transaction `ft` whose memo
slot in the transaction is `m` (its position in `get_owner_memos_ref`), after
a successful `update_api_cache` run with `KEEP_HIST` the cache has
`owner_memos[o]` exactly when the output carries a memo: the memo value is
installed when `m = some v`, and no entry ever appears when `m = none` —
neither the repair pass (which only copies the producing transaction's own
memo slots) nor the block pass writes one. -/
theorem claim_C6_owner_memos (cfg : Config) (l : LedgerState) (c : ApiCache)
    (block : Block) (ft : FinalizedTxn) (o : Nat) (m : Option OwnerMemo)
    (hc : l.api_cache = some c)
    (hinj : HashInj l)
    (hb : l.blocks.getLast? = some block)
    (hmem : ft ∈ block.txns)
    (hself : getTransactionLight l ft.tx_id = some ft)
    (hnd : ft.txo_ids.Nodup)
    (hlen : (get_owner_memos_ref ft.txn).length = ft.txo_ids.length)
    (hids : (block.txns.map (fun v => v.tx_id)).Nodup)
    (hdisj : ∀ v ∈ block.txns, v.tx_id ≠ ft.tx_id → ∀ o2 ∈ ft.txo_ids, o2 ∉ v.txo_ids)
    (hzip : (o, m) ∈ ft.txo_ids.zip (get_owner_memos_ref ft.txn))
    (habsent : mapGet o c.owner_memos = none)
    (hutxo : ∀ u, getUtxo l o = some u → u.tx_id = ft.tx_id)
    (hrun : (update_api_cache cfg true l).2 = true) :
    ∀ c2, (update_api_cache cfg true l).1.api_cache = some c2 →
      ((mapGet o c2.owner_memos).isSome = true ↔ m.isSome = true) ∧
      (∀ v, m = some v → mapGet o c2.owner_memos = some v) := by
  intro c2 hc2
  have hu : update_api_cache cfg true l =
      (if (check_lost_data l).2 then updateBlockPhase cfg (check_lost_data l).1
       else ((check_lost_data l).1, false)) := rfl
  rw [hu] at hrun hc2
  by_cases hcl : (check_lost_data l).2 = true
  · rw [if_pos hcl] at hrun hc2
    have hfr := check_lost_data_state_frame l
    have hLb : (check_lost_data l).1.blocks.getLast? = some block := by
      rw [hfr.2.2.2.1]
      exact hb
    cases hLc : (check_lost_data l).1.api_cache with
    | none =>
        unfold updateBlockPhase at hrun
        simp only [hLb, hLc] at hrun
        simp at hrun
    | some cL =>
        unfold updateBlockPhase at hrun hc2
        simp only [hLb, hLc] at hrun hc2
        have hsw : (blockSweep cfg (check_lost_data l).1 cL block.txns).2 = true :=
          hrun
        have hc2' : some (blockSweep cfg (check_lost_data l).1 cL block.txns).1 =
            some c2 := hc2
        obtain rfl := Option.some.inj hc2'
        have htxns : (check_lost_data l).1.txns = l.txns := hfr.1
        have hinjL : HashInj (check_lost_data l).1 := HashInj_congr _ l htxns hinj
        have hselfL : getTransactionLight (check_lost_data l).1 ft.tx_id = some ft := by
          rw [getTransactionLight_txns_eq _ l htxns]
          exact hself
        have hbs := blockSweep_memo cfg (check_lost_data l).1 cL ft block.txns o m
          hmem hsw hinjL hselfL hnd hlen hids hdisj hzip
        have hvalue : ∀ v, m = some v →
            mapGet o (blockSweep cfg (check_lost_data l).1 cL
              block.txns).1.owner_memos = some v := hbs.1
        have hnone : m = none →
            mapGet o (blockSweep cfg (check_lost_data l).1 cL
              block.txns).1.owner_memos = none := by
          intro hv
          rw [hbs.2 hv]
          exact check_lost_data_memo_none l c o ft hc hself hutxo hnd
            (hv ▸ hzip) habsent cL hLc
        refine ⟨⟨?_, ?_⟩, hvalue⟩
        · intro hsome
          cases hm : m with
          | none =>
              rw [hnone hm] at hsome
              simp at hsome
          | some v => rfl
        · intro hsome
          cases hm : m with
          | none =>
              rw [hm] at hsome
              simp at hsome
          | some v =>
              rw [hvalue v hm]
              rfl
  · rw [if_neg hcl] at hrun
    simp at hrun

theorem claim_C6_witness :
    ∃ c2, (update_api_cache cfgW true LW).1.api_cache = some c2 ∧
      mapGet 0 c2.owner_memos = some 5 := by
  obtain ⟨c2, hc2⟩ := Option.isSome_iff_exists.mp
    (by decide : ((update_api_cache cfgW true LW).1.api_cache).isSome = true)
  have h := claim_C6_owner_memos cfgW LW cacheW ⟨[t0W, t1W]⟩ t0W 0 (some 5)
    (by decide)
    (HashInj_of_nodup_hashes LW (by decide))
    (by decide) (by decide) (by decide) (by decide) (by decide) (by decide)
    (by decide) (by decide) (by decide)
    (by
      intro u hu
      have hu' : some (⟨7, 0⟩ : UtxoRec) = some u := hu
      obtain rfl := Option.some.inj hu'
      rfl)
    (by decide) c2 hc2
  exact ⟨c2, hc2, h.2 5 rfl⟩

end ApiCacheModel
